import Mathlib

/-!
Verification of the KNN hub-index pipeline in
`src/include/bitonic-hubs-ws.cuh` (namespace `bitonic_hubs_ws`).

The CUDA kernels are embedded shallowly: data-parallel kernels whose
threads are independent (one worker per point or per query) become pure
functions or folds over the point indices; atomically updated shared
state (population counters, bucket cursors, matrix minimum cells) becomes
explicit state threaded through a fold; device `assert`s become `Option`
failure.  `float` distance values are modelled by `ℚ`: every claim below
is order-theoretic, and the non-negative floats the kernels compare
(square roots and sums of squares of coordinates) are ordered exactly as
their rational counterparts.  The device square root `sqrtf`, which has
no exact rational counterpart, is passed around as an explicit function
parameter `rsqrt`; concrete instances use the integer square root, which
agrees with `sqrtf` on the perfect squares appearing in examples.

Entities that the repository keeps outside `src/` (the headers
`cuda_util.cuh`, `spatial.cuh`, `bitonic-shared.cuh`, and the faiss
`WarpSelect` collector, which the specification explicitly treats as an
external collaborator with the interface of its section 6) are modelled
from the specification; each such definition carries a doc comment
saying so.
-/

namespace Clover

/-- Largest single-precision float, `FLT_MAX = (2^24 - 1) * 2^104`, as a rational. -/
def FLT_MAX_Q : ℚ := (2 ^ 24 - 1) * 2 ^ 104

/-- Modelled from the spec: the synchronization-group width (`warp_size` in
`cuda_util.cuh`, outside `src/`); the spec fixes it to 32 lock-step lanes. -/
def warp_size : ℕ := 32

/-- Integer square root lifted to `ℚ`, used as a concrete stand-in for the
device `sqrtf` in closed examples; it agrees with any correctly rounded
square root on perfect-square naturals. -/
def qsqrt (x : ℚ) : ℚ := (Nat.sqrt ⌊x⌋₊ : ℚ)

/-! ## HubSelector (`Randomly_Select_Hubs`, lines 37–46)

Each hub slot `idx < H` computes `seed = 1234 + idx` in `unsigned int`
arithmetic, then `rand_num = (seed * 1103515245 + 12345) % 2147483648`
(the multiply-add itself wrapping modulo `2^32`), and stores
`dH[idx] = rand_num % n`. -/

/-- Hub selection formula of `Randomly_Select_Hubs` for slot `idx`:
the selected point identifier, before reduction modulo `n`. -/
def Randomly_Select_Hubs_rand (idx : ℕ) : ℕ :=
  ((1234 + idx) % 2 ^ 32 * 1103515245 + 12345) % 2 ^ 32 % 2147483648

/-- The hub identifier written to `dH[idx]` by `Randomly_Select_Hubs`. -/
def Randomly_Select_Hubs (n idx : ℕ) : ℕ :=
  Randomly_Select_Hubs_rand idx % n

/-- The spec's description of hub selection: `hash(slot) mod n` for the fixed
seeded formula (spec section 4.1). -/
def specHubHash (slot : ℕ) : ℕ :=
  ((1234 + slot) * 1103515245 + 12345) % 2 ^ 32 % 2 ^ 31

/-! ## Top-K tier dispatch (`C_and_Q`, lines 757–780)

`C_and_Q` switches on `util::CEIL_DIV(k, warp_size)`; cases 1–5 invoke the
`Query` kernel with `WarpQ` bounds 32, 64, 128, 256, 512, and the `default`
branch is `assert(false && "Rounds required to fulfill k value will exceed
thread register allotment.")` — a fatal configuration error. -/

/-- Modelled from the spec: `util::CEIL_DIV` from `cuda_util.cuh` (outside
`src/`), ceiling division, the rounding the pipeline also writes inline as
`(n + batch_size - 1) / batch_size` (line 688). -/
def CEIL_DIV (a b : ℕ) : ℕ := (a + b - 1) / b

/-- The bounded top-K collector bound chosen by the dispatch `switch` of
`C_and_Q` for a requested neighbor count `k`; `none` is the fatal
`default: assert(false)` branch. -/
def selectWarpQ (k : ℕ) : Option ℕ :=
  match CEIL_DIV k warp_size with
  | 1 => some 32
  | 2 => some 64
  | 3 => some 128
  | 4 => some 256
  | 5 => some 512
  | _ => none

/-- The spec's described dispatch: the smallest supported bound tier
(32, 64, 128, 256, 512) that is at least `k`, fatal only above 512
(spec section 6). -/
def smallestTierGE (k : ℕ) : Option ℕ :=
  if k ≤ 32 then some 32
  else if k ≤ 64 then some 64
  else if k ≤ 128 then some 128
  else if k ≤ 256 then some 256
  else if k ≤ 512 then some 512
  else none

/-! ### Theorems for C9 -/

/-- C9: hub selection is a pure deterministic function of the slot index and
`n`; the identifier written for slot `s` is exactly `hash(s) mod n` for the
fixed seeded formula, and is a valid point index whenever the cloud is
non-empty.  (Determinism is inherent: the embedded kernel reads no state
other than `s` and `n`.) -/
theorem hub_selection_hash_mod_and_in_range (n s : ℕ) (hn : 0 < n) :
    Randomly_Select_Hubs n s = specHubHash s % n ∧ Randomly_Select_Hubs n s < n := by
  constructor
  · have h : ((1234 + s) % 2 ^ 32 * 1103515245 + 12345) % 2 ^ 32
        = ((1234 + s) * 1103515245 + 12345) % 2 ^ 32 :=
      ((Nat.mod_modEq (1234 + s) (2 ^ 32)).mul_right 1103515245).add_right 12345
    unfold Randomly_Select_Hubs Randomly_Select_Hubs_rand specHubHash
    rw [(by norm_num : (2147483648 : ℕ) = 2 ^ 31), h]
  · exact Nat.mod_lt _ hn

/-- Witness for C9 at `n = 7`, `s = 0`. -/
theorem hub_selection_hash_mod_and_in_range_witness :
    0 < 7 ∧ (Randomly_Select_Hubs 7 0 = specHubHash 0 % 7 ∧ Randomly_Select_Hubs 7 0 < 7) :=
  ⟨by decide, hub_selection_hash_mod_and_in_range 7 0 (by decide)⟩

/-! ### Theorems for C4 -/

/-- C4 counterexample: `k = 161` is at most 512, and the spec's tier choice
would be 256, but the dispatch of `C_and_Q` hits the fatal `default` branch;
moreover `k = 100` selects the 256-bound collector, not the smallest
sufficient tier 128. -/
theorem tier_dispatch_counterexample :
    (161 ≤ 512 ∧ selectWarpQ 161 = none ∧ smallestTierGE 161 = some 256) ∧
      (selectWarpQ 100 = some 256 ∧ smallestTierGE 100 = some 128) := by
  refine ⟨⟨by norm_num, ?_, by norm_num [smallestTierGE]⟩, ?_, by norm_num [smallestTierGE]⟩
  · rfl
  · rfl

/-- C4 amended: the collector bound is dispatched on `⌈k / 32⌉`: requests with
`⌈k / 32⌉ = 1, 2, 3, 4, 5` (i.e. `k ≤ 160`) get bounds 32, 64, 128, 256, 512
respectively — which is the smallest sufficient tier only for `k ≤ 96` —
and any `k > 160` (not 512) is the fatal configuration error; `k ≤ 64`
does match the spec's smallest-tier rule. -/
theorem tier_dispatch_by_ceil_div (k : ℕ) (hk : 1 ≤ k) :
    (k ≤ 32 → selectWarpQ k = some 32) ∧
      (32 < k → k ≤ 64 → selectWarpQ k = some 64) ∧
      (64 < k → k ≤ 96 → selectWarpQ k = some 128) ∧
      (96 < k → k ≤ 128 → selectWarpQ k = some 256) ∧
      (128 < k → k ≤ 160 → selectWarpQ k = some 512) ∧
      (160 < k → selectWarpQ k = none) ∧
      (k ≤ 96 → selectWarpQ k = smallestTierGE k) := by
  have hc : CEIL_DIV k warp_size = (k + 31) / 32 := rfl
  have step : ∀ c : ℕ, (k + 31) / 32 = c → selectWarpQ k =
      (match c with
        | 1 => some 32 | 2 => some 64 | 3 => some 128 | 4 => some 256 | 5 => some 512
        | _ => none) := by
    intro c h
    unfold selectWarpQ
    rw [hc, h]
  refine ⟨fun h1 => ?_, fun h2a h2b => ?_, fun h3a h3b => ?_, fun h4a h4b => ?_,
    fun h5a h5b => ?_, fun h6 => ?_, fun h7 => ?_⟩
  · exact step 1 (by omega)
  · exact step 2 (by omega)
  · exact step 3 (by omega)
  · exact step 4 (by omega)
  · exact step 5 (by omega)
  · obtain ⟨m, hm⟩ : ∃ m, (k + 31) / 32 = m + 6 := ⟨(k + 31) / 32 - 6, by omega⟩
    rw [step (m + 6) hm]
    rfl
  · unfold smallestTierGE
    rcases (by omega : k ≤ 32 ∨ (32 < k ∧ k ≤ 64) ∨ (64 < k ∧ k ≤ 96)) with h | h | h
    · rw [step 1 (by omega), if_pos h]
    · rw [step 2 (by omega), if_neg (by omega), if_pos h.2]
    · rw [step 3 (by omega), if_neg (by omega), if_neg (by omega), if_pos (by omega : k ≤ 128)]

/-- Witness for C4's amended theorem at `k = 100`. -/
theorem tier_dispatch_by_ceil_div_witness :
    1 ≤ 100 ∧ ((100 ≤ 32 → selectWarpQ 100 = some 32) ∧
      (32 < 100 → 100 ≤ 64 → selectWarpQ 100 = some 64) ∧
      (64 < 100 → 100 ≤ 96 → selectWarpQ 100 = some 128) ∧
      (96 < 100 → 100 ≤ 128 → selectWarpQ 100 = some 256) ∧
      (128 < 100 → 100 ≤ 160 → selectWarpQ 100 = some 512) ∧
      (160 < 100 → selectWarpQ 100 = none) ∧
      (100 ≤ 96 → selectWarpQ 100 = smallestTierGE 100)) :=
  ⟨by decide, tier_dispatch_by_ceil_div 100 (by decide)⟩

/-! ## Generic fold lemmas

Both `Construct_D` (atomic minimum into a row of cells) and the batch loop
around it are folds whose every step can only decrease the observed cell;
these two lemmas capture that pattern. -/

/-- A fold whose steps never increase an observation never increases it overall. -/
theorem foldl_obs_le {α σ : Type} (f : σ → α → σ) (obs : σ → ℚ)
    (hdec : ∀ s a, obs (f s a) ≤ obs s) :
    ∀ (l : List α) (s : σ), obs (List.foldl f s l) ≤ obs s := by
  intro l
  induction l with
  | nil => intro s; simp
  | cons a t ih => intro s; exact le_trans (ih (f s a)) (hdec s a)

/-- If a fold's steps never increase an observation and some step in the list
forces it at most `c`, the final observation is at most `c`. -/
theorem foldl_obs_le_of_mem {α σ : Type} (f : σ → α → σ) (obs : σ → ℚ) (c : ℚ) (a0 : α)
    (hdec : ∀ s a, obs (f s a) ≤ obs s)
    (hhit : ∀ s, obs (f s a0) ≤ c) :
    ∀ (l : List α) (s : σ), a0 ∈ l → obs (List.foldl f s l) ≤ c := by
  intro l
  induction l with
  | nil => intro s h; cases h
  | cons a t ih =>
      intro s h
      rcases List.mem_cons.mp h with heq | hmem
      · subst heq
        exact le_trans (foldl_obs_le f obs hdec t (f s a0)) (hhit s)
      · exact ih (f s a) hmem

/-! ## HubDistanceMatrixBuilder (`Construct_D`, lines 275–336)

One thread block per matrix row `hub_id`.  The block initialises a shared
row `s_dists` to the sentinel bit pattern `0x7f000000` (the float `2^127`,
which sorts behind every finite distance of the domain), then for every
point `idx = b_id * b_size + p` of the current batch performs
`atomicMin(&s_dists[assignments[idx]], this_hubs_distances[p])`, and finally
folds the shared row into global memory with a second `atomicMin` against
the previous contents of `D`.  The integer `atomicMin` over
`__float_as_int` values coincides with the numeric minimum because all
stored distances are non-negative square roots; the embedding therefore
uses `min` over `ℚ` directly.  `pdist idx h` stands for the batch slab
entry `distances[h * b_size + (idx - b_id * b_size)]` written by
`Calculate_Distances`, i.e. the stored distance from point `idx` to hub `h`. -/

/-- Sentinel initial value of the shared row: bit pattern `0x7f000000`
read as a float, i.e. `2^127`. -/
def D_SENT : ℚ := 2 ^ 127

/-- Shared-memory row of `Construct_D` for row `hub_id = i` after the

batch `b_id` loop: the fold of `atomicMin` over the batch's points. -/
def Construct_D_smem (i b_id b_size n : ℕ) (pdist : ℕ → ℕ → ℚ) (assign : ℕ → ℕ) : ℕ → ℚ :=
  (List.range b_size).foldl
    (fun s p =>
      let idx := b_id * b_size + p
      if idx < n then
        Function.update s (assign idx) (min (s (assign idx)) (pdist idx i))
      else s)
    (fun _ => D_SENT)

/-- One launch of `Construct_D` for batch `b_id`: every cell of row `i`
becomes the minimum of the shared row and the previous global value. -/
def Construct_D_batch (b_id b_size n : ℕ) (pdist : ℕ → ℕ → ℚ) (assign : ℕ → ℕ)
    (D : ℕ → ℕ → ℚ) : ℕ → ℕ → ℚ :=
  fun i j => min (Construct_D_smem i b_id b_size n pdist assign j) (D i j)

/-- The `C_and_Q` batch loop (lines 714–720): `D` starts at `FLT_MAX`
(`set_max_float`) and every batch folds its minima in. -/
def Construct_D_pipeline (n b_size : ℕ) (pdist : ℕ → ℕ → ℚ) (assign : ℕ → ℕ) : ℕ → ℕ → ℚ :=
  (List.range (CEIL_DIV n b_size)).foldl
    (fun D b => Construct_D_batch b b_size n pdist assign D)
    (fun _ _ => FLT_MAX_Q)

/-! ### Theorems for C5 -/

/-- C5: for every batch decomposition (any positive batch size) and every
pair of hubs, the constructed matrix entry `D[i][j]` never exceeds the
stored distance from any point currently assigned to hub `j` to hub `i` —
in particular it never exceeds the minimum of those distances. -/
theorem D_never_overestimates (n b_size : ℕ) (pdist : ℕ → ℕ → ℚ) (assign : ℕ → ℕ)
    (hb : 0 < b_size) (i j p : ℕ) (hp : p < n) (ha : assign p = j) :
    Construct_D_pipeline n b_size pdist assign i j ≤ pdist p i := by
  have hsmem : ∀ D : ℕ → ℕ → ℚ,
      Construct_D_batch (p / b_size) b_size n pdist assign D i j ≤ pdist p i := by
    intro D
    refine le_trans (min_le_left _ _) ?_
    unfold Construct_D_smem
    refine foldl_obs_le_of_mem _ (fun s : ℕ → ℚ => s j) (pdist p i) (p % b_size) ?_ ?_ _ _
      (List.mem_range.mpr (Nat.mod_lt _ hb))
    · intro s a
      dsimp only
      split
      · rcases eq_or_ne (assign (p / b_size * b_size + a)) j with he | he
        · rw [he, Function.update_same]
          exact le_trans (min_le_left _ _) (le_refl _)
        · rw [Function.update_noteq (Ne.symm he)]
      · exact le_refl _
    · intro s
      have hidx : p / b_size * b_size + p % b_size = p := by
        rw [Nat.mul_comm]
        exact Nat.div_add_mod p b_size
      dsimp only
      rw [hidx, if_pos hp, ha, Function.update_same]
      exact min_le_right _ _
  have hmem : p / b_size ∈ List.range (CEIL_DIV n b_size) := by
    refine List.mem_range.mpr ?_
    have h1 : CEIL_DIV n b_size = (n - 1) / b_size + 1 := by
      unfold CEIL_DIV
      rw [(by omega : n + b_size - 1 = (n - 1) + b_size), Nat.add_div_right _ hb]
    rw [h1]
    exact Nat.lt_succ_of_le (Nat.div_le_div_right (by omega))
  exact foldl_obs_le_of_mem _ (fun D : ℕ → ℕ → ℚ => D i j) (pdist p i) (p / b_size)
    (fun D b => min_le_right _ _) hsmem _ _ hmem

/-- Witness for C5: two points, batch size 1, both assigned to hub 0, all
stored distances equal to 5. -/
theorem D_never_overestimates_witness :
    0 < 1 ∧ 0 < 2 ∧ (fun _ : ℕ => (0:ℕ)) 0 = 0 ∧
      Construct_D_pipeline 2 1 (fun _ _ => (5:ℚ)) (fun _ => 0) 1 0 ≤ (fun _ _ => (5:ℚ)) 0 1 :=
  ⟨by decide, by decide, rfl,
    D_never_overestimates 2 1 (fun _ _ => (5:ℚ)) (fun _ => 0) (by decide) 1 0 0 (by decide) rfl⟩

/-! ## HubRebalancer (`reassignPoints`, lines 90–143)

Each thread block copies `hub_counts` into a shared `initial_counts`
snapshot before any migration; increments only ever target hubs whose
snapshot already meets `k`, and zeroing only targets hubs whose snapshot
does not, so the concurrent kernel is equivalent to the sequential fold
below over the points, followed by the zeroing pass.  `dist h idx` stands
for `distances[h * n + idx]` as the kernel addresses it.  Device
`assert`s (lines 96–97, 119, 127–131) become `Option` failure. -/

/-- Per-point nearest-valid-hub search of `reassignPoints` (lines 113–125):
fold over all `H` hubs keeping the nearest hub whose initial population
meets `k`, starting from `(H, FLT_MAX)`. -/
def reassign_best (H k : ℕ) (initial_counts : ℕ → ℕ) (drow : ℕ → ℚ) : ℕ × ℚ :=
  (List.range H).foldl
    (fun best h => if k ≤ initial_counts h ∧ drow h < best.2 then (h, drow h) else best)
    (H, FLT_MAX_Q)

/-- One point's work in `reassignPoints` (lines 108–136): a point whose
snapshot hub population is below `k` is migrated to the best valid hub,
that hub's counter is atomically incremented, and the kernel `assert`s
guard the migration; other points pass through unchanged.  The state is
`(hub_counts, dH_assignments)`. -/
def reassign_point (k H : ℕ) (initial_counts : ℕ → ℕ) (dist : ℕ → ℕ → ℚ)
    (st : (ℕ → ℕ) × (ℕ → ℕ)) (idx : ℕ) : Option ((ℕ → ℕ) × (ℕ → ℕ)) :=
  let current_hub := st.2 idx
  if initial_counts current_hub < k then
    if ∀ h ∈ List.range H, dist h idx < FLT_MAX_Q then
      let best := reassign_best H k initial_counts (fun h => dist h idx)
      if best.1 ≠ current_hub ∧ best.1 < H ∧ best.2 < FLT_MAX_Q ∧
          k ≤ initial_counts best.1 ∧ dist current_hub idx ≤ dist best.1 idx then
        some (Function.update st.1 best.1 (st.1 best.1 + 1), Function.update st.2 idx best.1)
      else none
    else none
  else some st

/-- The `reassignPoints` kernel: entry `assert`s (`k < n`, one shared lane
per hub), the per-point migration fold, then zeroing of every hub whose
snapshot population is below `k` (lines 138–142). -/
def reassignPoints (n k H : ℕ) (dist : ℕ → ℕ → ℚ) (hub_counts assign : ℕ → ℕ) :
    Option ((ℕ → ℕ) × (ℕ → ℕ)) :=
  if k < n ∧ H < 1024 then
    ((List.range n).foldlM (reassign_point k H hub_counts dist) (hub_counts, assign)).map
      (fun st => (fun h => if h < H ∧ hub_counts h < k then 0 else st.1 h, st.2))
  else none

/-- The nearest-valid-hub fold only moves to valid nearer hubs: the result
is the start value or a valid hub paired with its own distance, it never
increases the retained distance, and it is at most the distance of every
valid hub in the scanned list. -/
theorem reassign_best_fold_spec (k : ℕ) (ic : ℕ → ℕ) (drow : ℕ → ℚ) :
    ∀ (l : List ℕ) (b : ℕ × ℚ),
      (List.foldl
          (fun best h => if k ≤ ic h ∧ drow h < best.2 then (h, drow h) else best) b l = b ∨
        (let r := List.foldl
            (fun best h => if k ≤ ic h ∧ drow h < best.2 then (h, drow h) else best) b l
         r.1 ∈ l ∧ k ≤ ic r.1 ∧ r.2 = drow r.1)) ∧
      (List.foldl
          (fun best h => if k ≤ ic h ∧ drow h < best.2 then (h, drow h) else best) b l).2 ≤ b.2 ∧
      (∀ h ∈ l, k ≤ ic h →
        (List.foldl
          (fun best h => if k ≤ ic h ∧ drow h < best.2 then (h, drow h) else best) b l).2 ≤ drow h) := by
  intro l
  induction l with
  | nil => intro b; exact ⟨Or.inl rfl, le_refl _, fun h hm => absurd hm (List.not_mem_nil h)⟩
  | cons a t ih =>
      intro b
      simp only [List.foldl_cons]
      by_cases hc : k ≤ ic a ∧ drow a < b.2
      · rw [if_pos hc]
        obtain ⟨hsh, hle, hopt⟩ := ih (a, drow a)
        refine ⟨?_, ?_, ?_⟩
        · rcases hsh with he | hr
          · exact Or.inr (by rw [he]; exact ⟨List.mem_cons_self _ _, hc.1, rfl⟩)
          · exact Or.inr ⟨List.mem_cons_of_mem _ hr.1, hr.2.1, hr.2.2⟩
        · exact le_trans hle (le_of_lt hc.2)
        · intro h hm hk
          rcases List.mem_cons.mp hm with heq | hmem
          · subst heq; exact hle
          · exact hopt h hmem hk
      · rw [if_neg hc]
        obtain ⟨hsh, hle, hopt⟩ := ih b
        refine ⟨?_, hle, ?_⟩
        · rcases hsh with he | hr
          · exact Or.inl he
          · exact Or.inr ⟨List.mem_cons_of_mem _ hr.1, hr.2.1, hr.2.2⟩
        · intro h hm hk
          rcases List.mem_cons.mp hm with heq | hmem
          · subst heq
            have := not_and.mp hc hk
            exact le_trans hle (not_lt.mp this)
          · exact hopt h hmem hk

/-- The nearest-valid-hub search is optimal among the valid hubs: whenever
it settles on a hub inside `[0, H)`, that hub's population meets `k`, the
retained distance is that hub's own distance, and no valid hub is nearer. -/
theorem reassign_best_spec (H k : ℕ) (ic : ℕ → ℕ) (drow : ℕ → ℚ)
    (hlt : (reassign_best H k ic drow).1 < H) :
    k ≤ ic (reassign_best H k ic drow).1 ∧
      (reassign_best H k ic drow).2 = drow (reassign_best H k ic drow).1 ∧
      ∀ h, h < H → k ≤ ic h → (reassign_best H k ic drow).2 ≤ drow h := by
  obtain ⟨hsh, _, hopt⟩ := reassign_best_fold_spec k ic drow (List.range H) (H, FLT_MAX_Q)
  rcases hsh with he | hr
  · exfalso
    rw [reassign_best] at hlt
    rw [he] at hlt
    exact lt_irrefl _ hlt
  · exact ⟨hr.2.1, hr.2.2, fun h hh hk => hopt h (List.mem_range.mpr hh) hk⟩

/-- Main invariant of the migration fold: counters never decrease, counters
of hubs whose snapshot is below `k` are untouched, assignments of
unprocessed points are untouched, and every processed point whose snapshot
hub was under-populated ends on a valid nearest hub. -/
theorem reassign_fold_inv (k H : ℕ) (counts : ℕ → ℕ) (dist : ℕ → ℕ → ℚ) :
    ∀ (l : List ℕ), l.Nodup → ∀ (st st' : (ℕ → ℕ) × (ℕ → ℕ)),
      List.foldlM (reassign_point k H counts dist) st l = some st' →
      (∀ h, st.1 h ≤ st'.1 h) ∧
      (∀ h, counts h < k → st'.1 h = st.1 h) ∧
      (∀ p, p ∉ l → st'.2 p = st.2 p) ∧
      (∀ p ∈ l,
        (counts (st.2 p) < k →
          st'.2 p < H ∧ k ≤ counts (st'.2 p) ∧
          ∀ h, h < H → k ≤ counts h → dist (st'.2 p) p ≤ dist h p) ∧
        (k ≤ counts (st.2 p) → st'.2 p = st.2 p)) := by
  intro l
  induction l with
  | nil =>
      intro _ st st' hfold
      simp only [List.foldlM_nil, pure, Option.some.injEq] at hfold
      subst hfold
      exact ⟨fun h => le_refl _, fun h _ => rfl, fun p _ => rfl,
        fun p hp => absurd hp (List.not_mem_nil p)⟩
  | cons a t ih =>
      intro hnd st st' hfold
      have hanot : a ∉ t := (List.nodup_cons.mp hnd).1
      have hndt : t.Nodup := (List.nodup_cons.mp hnd).2
      rw [List.foldlM_cons] at hfold
      cases hstep : reassign_point k H counts dist st a with
      | none => rw [hstep] at hfold; exact absurd hfold (by simp)
      | some st1 =>
          rw [hstep] at hfold
          simp only [Option.bind_eq_bind, Option.some_bind] at hfold
          obtain ⟨A1, B1, C1, D1⟩ := ih hndt st1 st' hfold
          by_cases h1 : counts (st.2 a) < k
          · have h2 : ∀ h ∈ List.range H, dist h a < FLT_MAX_Q := by
              by_contra hno
              rw [reassign_point] at hstep
              simp only [if_pos h1, if_neg hno] at hstep
              exact Option.noConfusion hstep
            set b := reassign_best H k counts (fun h => dist h a) with hbdef
            have h3 : b.1 ≠ st.2 a ∧ b.1 < H ∧ b.2 < FLT_MAX_Q ∧
                k ≤ counts b.1 ∧ dist (st.2 a) a ≤ dist b.1 a := by
              by_contra hno
              rw [reassign_point] at hstep
              simp only [if_pos h1, if_pos h2, ← hbdef, if_neg hno] at hstep
              exact Option.noConfusion hstep
            have hst1 : st1 = (Function.update st.1 b.1 (st.1 b.1 + 1),
                Function.update st.2 a b.1) := by
              rw [reassign_point] at hstep
              simp only [if_pos h1, if_pos h2, ← hbdef, if_pos h3, Option.some.injEq] at hstep
              exact hstep.symm
            obtain ⟨hbne, hbH, hb2, hbk, hbmono⟩ := h3
            obtain ⟨hbk2, hbeq, hbopt⟩ := reassign_best_spec H k counts (fun h => dist h a) hbH
            refine ⟨?_, ?_, ?_, ?_⟩
            · intro h
              refine le_trans ?_ (A1 h)
              rw [hst1]
              dsimp only
              rcases eq_or_ne h b.1 with rfl | hne
              · rw [Function.update_same]; omega
              · rw [Function.update_noteq hne]
            · intro h hh
              rw [B1 h hh, hst1]
              dsimp only
              have : h ≠ b.1 := fun he => absurd (he ▸ hh) (by omega)
              exact Function.update_noteq this _ _
            · intro p hp
              have hpt : p ∉ t := fun hm => hp (List.mem_cons_of_mem _ hm)
              have hpa : p ≠ a := fun he => hp (he ▸ List.mem_cons_self _ _)
              rw [C1 p hpt, hst1]
              dsimp only
              exact Function.update_noteq hpa _ _
            · intro p hp
              rcases List.mem_cons.mp hp with rfl | hpt
              · constructor
                · intro _
                  have hfinal : st'.2 p = b.1 := by
                    rw [C1 p hanot, hst1]
                    dsimp only
                    exact Function.update_same _ _ _
                  rw [hfinal]
                  refine ⟨hbH, hbk, fun h hh hk => ?_⟩
                  have := hbopt h hh hk
                  rw [hbeq] at this
                  exact this
                · intro hge; exact absurd h1 (by omega)
              · have hpa : p ≠ a := fun he => hanot (he ▸ hpt)
                have hmid : st1.2 p = st.2 p := by
                  rw [hst1]
                  dsimp only
                  exact Function.update_noteq hpa _ _
                obtain ⟨dfst, dsnd⟩ := D1 p hpt
                rw [hmid] at dfst dsnd
                exact ⟨dfst, dsnd⟩
          · have hst1 : st1 = st := by
              rw [reassign_point] at hstep
              simp only [if_neg h1, Option.some.injEq] at hstep
              exact hstep.symm
            subst hst1
            refine ⟨A1, B1, ?_, ?_⟩
            · intro p hp
              exact C1 p (fun hm => hp (List.mem_cons_of_mem _ hm))
            · intro p hp
              rcases List.mem_cons.mp hp with rfl | hpt
              · exact ⟨fun hlt => absurd hlt h1, fun _ => C1 p hanot⟩
              · exact D1 p hpt

/-- C2: whenever the rebalancing kernel completes (all its `assert`s hold),
every hub with a positive final population has population at least `k`,
every hub whose pre-rebalance population was below `k` has its counter
zeroed, and each point of such a hub is reassigned to a nearest hub whose
pre-rebalance population already met `k`. -/
theorem rebalance_invariant (n k H : ℕ) (dist : ℕ → ℕ → ℚ) (counts assign : ℕ → ℕ)
    (out : (ℕ → ℕ) × (ℕ → ℕ))
    (hrun : reassignPoints n k H dist counts assign = some out) :
    (∀ h, h < H → 0 < out.1 h → k ≤ out.1 h) ∧
      (∀ h, h < H → counts h < k → out.1 h = 0) ∧
      (∀ p, p < n → counts (assign p) < k →
        out.2 p < H ∧ k ≤ counts (out.2 p) ∧
        ∀ h, h < H → k ≤ counts h → dist (out.2 p) p ≤ dist h p) := by
  unfold reassignPoints at hrun
  split_ifs at hrun with hpre
  · cases hfold : (List.range n).foldlM (reassign_point k H counts dist) (counts, assign) with
    | none => rw [hfold] at hrun; exact absurd hrun (by simp)
    | some st =>
        rw [hfold] at hrun
        simp only [Option.map_some', Option.some.injEq] at hrun
        obtain ⟨A, B, C, D⟩ :=
          reassign_fold_inv k H counts dist (List.range n) (List.nodup_range n) _ _ hfold
        subst hrun
        dsimp only at A B C D
        refine ⟨?_, ?_, ?_⟩
        · intro h hh hpos
          dsimp only at hpos ⊢
          by_cases hck : counts h < k
          · rw [if_pos ⟨hh, hck⟩] at hpos
            exact absurd hpos (by omega)
          · rw [if_neg (fun hc => hck hc.2)] at hpos ⊢
            exact le_trans (by omega) (A h)
        · intro h hh hck
          dsimp only
          rw [if_pos ⟨hh, hck⟩]
        · intro p hp hck
          exact (D p (List.mem_range.mpr hp)).1 hck

/-- Witness for C2: two points on hub 0 with population 2, `k = 1 < n = 2`,
`H = 32`; the kernel completes without migrating and zeroes the empty hubs. -/
theorem rebalance_invariant_witness :
    (reassignPoints 2 1 32 (fun _ _ => (0:ℚ)) (fun h => if h = 0 then 2 else 0) (fun _ => 0)
        = some (fun h => if h < 32 ∧ (if h = 0 then 2 else 0) < 1 then 0
                  else (if h = 0 then (2:ℕ) else 0), fun _ => 0)) ∧
      ((∀ h, h < 32 → 0 < (fun h => if h < 32 ∧ (if h = 0 then 2 else 0) < 1 then 0
                  else (if h = 0 then (2:ℕ) else 0), (fun _ : ℕ => (0:ℕ))).1 h →
          1 ≤ (fun h => if h < 32 ∧ (if h = 0 then 2 else 0) < 1 then 0
                  else (if h = 0 then (2:ℕ) else 0), (fun _ : ℕ => (0:ℕ))).1 h) ∧
        (∀ h, h < 32 → (if h = 0 then (2:ℕ) else 0) < 1 →
          (fun h => if h < 32 ∧ (if h = 0 then 2 else 0) < 1 then 0
                  else (if h = 0 then (2:ℕ) else 0), (fun _ : ℕ => (0:ℕ))).1 h = 0) ∧
        (∀ p, p < 2 → (if (0:ℕ) = 0 then (2:ℕ) else 0) < 1 →
          (fun h => if h < 32 ∧ (if h = 0 then 2 else 0) < 1 then 0
                  else (if h = 0 then (2:ℕ) else 0), (fun _ : ℕ => (0:ℕ))).2 p < 32 ∧
          1 ≤ (if ((fun h => if h < 32 ∧ (if h = 0 then 2 else 0) < 1 then 0
                  else (if h = 0 then (2:ℕ) else 0), (fun _ : ℕ => (0:ℕ))).2 p) = 0
                then (2:ℕ) else 0) ∧
          ∀ h, h < 32 → 1 ≤ (if h = 0 then (2:ℕ) else 0) →
            (fun _ _ => (0:ℚ)) ((fun h => if h < 32 ∧ (if h = 0 then 2 else 0) < 1 then 0
                  else (if h = 0 then (2:ℕ) else 0), (fun _ : ℕ => (0:ℕ))).2 p) p
              ≤ (fun _ _ => (0:ℚ)) h p)) := by
  have hrun : reassignPoints 2 1 32 (fun _ _ => (0:ℚ))
      (fun h => if h = 0 then 2 else 0) (fun _ => 0)
      = some (fun h => if h < 32 ∧ (if h = 0 then 2 else 0) < 1 then 0
                else (if h = 0 then (2:ℕ) else 0), fun _ => 0) := rfl
  exact ⟨hrun,
    rebalance_invariant 2 1 32 (fun _ _ => (0:ℚ)) (fun h => if h = 0 then 2 else 0)
      (fun _ => 0) _ hrun⟩

/-! ## PartitionIndexBuilder, prefix sum (`prefix_sum_warp` lines 145–161,
`fused_prefix_sum_copy` lines 167–240, host shift lines 727–733)

`prefix_sum_warp` is a Hillis–Steele inclusive scan: five
`__shfl_up_sync` rounds at strides 1, 2, 4, 8, 16, each lane adding its
partner's previous value when `lane ≥ stride`.  `fused_prefix_sum_copy`
iterates chunks of `blockDim.x * blockDim.y = 1024` positions: each warp
scans its 32 values, publishes its total through a 33-cell shared array
(cell 0 carries the running sum of previous chunks, cells 1–32 stage warp
totals), warp 0 scans the staged totals with the carry folded into lane 0
and broadcasts the per-warp bases back, and lane 31 of warp 0 refreshes
the carry cell.  The host then shifts the inclusive result one slot right
and zeroes slot 0 to obtain the `H + 1` exclusive offsets. -/

/-- One `__shfl_up_sync` round of `prefix_sum_warp` at stride `s`: lane `l`
adds lane `l - s`'s previous value when `l ≥ s` (line 152–159). -/
def shfl_up_round (s : ℕ) (v : ℕ → ℕ) : ℕ → ℕ :=
  fun l => if s ≤ l then v l + v (l - s) else v l

/-- The warp-level inclusive scan `prefix_sum_warp`: strides 1, 2, 4, 8, 16. -/
def prefix_sum_warp (v : ℕ → ℕ) : ℕ → ℕ :=
  shfl_up_round 16 (shfl_up_round 8 (shfl_up_round 4 (shfl_up_round 2 (shfl_up_round 1 v))))

/-- Sliding-window invariant of the Hillis–Steele rounds: if each lane holds
the sum of the `s`-wide window ending at it, one more round at stride `s`
doubles the window. -/
theorem shfl_up_round_window (s : ℕ) (v x : ℕ → ℕ)
    (hv : ∀ l, v l = ∑ j ∈ Finset.Ico (l + 1 - s) (l + 1), x j) :
    ∀ l, shfl_up_round s v l = ∑ j ∈ Finset.Ico (l + 1 - (s + s)) (l + 1), x j := by
  intro l
  unfold shfl_up_round
  split_ifs with hl
  · rw [hv l, hv (l - s)]
    have h1 : l - s + 1 - s = l + 1 - (s + s) := by omega
    have h2 : l - s + 1 = l + 1 - s := by omega
    rw [h1, h2, add_comm]
    exact Finset.sum_Ico_consecutive x (by omega) (by omega)
  · rw [hv l, (show l + 1 - s = l + 1 - (s + s) by omega)]

/-- The warp scan computes 32-wide window sums at every lane. -/
theorem prefix_sum_warp_window (v : ℕ → ℕ) (l : ℕ) :
    prefix_sum_warp v l = ∑ j ∈ Finset.Ico (l + 1 - 32) (l + 1), v j := by
  have h1 : ∀ l, v l = ∑ j ∈ Finset.Ico (l + 1 - 1) (l + 1), v j := by
    intro l
    rw [(by omega : l + 1 - 1 = l), Nat.Ico_succ_singleton, Finset.sum_singleton]
  have h2 := shfl_up_round_window 1 v v h1
  have h4 := shfl_up_round_window 2 _ v h2
  have h8 := shfl_up_round_window 4 _ v h4
  have h16 := shfl_up_round_window 8 _ v h8
  have h32 := shfl_up_round_window 16 _ v h16
  exact h32 l

/-- Within the warp, the scan is an inclusive prefix sum. -/
theorem prefix_sum_warp_eq (v : ℕ → ℕ) (l : ℕ) (hl : l < 32) :
    prefix_sum_warp v l = ∑ j ∈ Finset.range (l + 1), v j := by
  rw [prefix_sum_warp_window, (by omega : l + 1 - 32 = 0), Finset.range_eq_Ico]

/-- Shared scratch of `fused_prefix_sum_copy`: `carry` is cell 0 (the sum of
all previous chunks), `stage w` is cell `w + 1` (warp `w`'s staged total). -/
structure ScanSmem where
  carry : ℕ
  stage : ℕ → ℕ

/-- One chunk iteration of `fused_prefix_sum_copy` starting at position
`base`: per-warp scans of the chunk values, staging of the active warps'
totals (lane 31 publishes; warps whose lane-31 position passes the
`th_id ≥ H` guard or fails the loop bound leave their cell untouched),
warp 0's scan of the staged totals with the carry folded into lane 0
(lines 212–227), the broadcast add-back (line 233), and the carry refresh
by warp 0's lane 31 (line 238).  Positions outside `[base, base + 1024)`
or beyond `H` are untouched. -/
def chunk_warpScan (base : ℕ) (arr : ℕ → ℕ) (w : ℕ) : ℕ → ℕ :=
  prefix_sum_warp (fun l => arr (base + 32 * w + l))

/-- Staged warp totals (cells 1–32 of the scratch) after lines 204–207:
lane 31 of every active warp publishes its scanned total; warps whose
lane-31 thread failed the `th_id ≥ H` guard or the loop bound leave their
cell's previous contents in place. -/
def chunk_stage (H base : ℕ) (arr : ℕ → ℕ) (sm : ScanSmem) : ℕ → ℕ :=
  fun w => if w < 32 ∧ base + 32 * w + 31 < H then chunk_warpScan base arr w 31 else sm.stage w

/-- Warp 0's scan over the staged totals, the carry folded into lane 0
(lines 212–218). -/
def chunk_scanned (H base : ℕ) (arr : ℕ → ℕ) (sm : ScanSmem) : ℕ → ℕ :=
  prefix_sum_warp (fun l => chunk_stage H base arr sm l + (if l = 0 then sm.carry else 0))

/-- One chunk iteration of `fused_prefix_sum_copy` starting at position
`base`: every active position `i` receives its warp-scanned value plus its
warp's base offset `smem[warp_id]` (line 233: the carry for warp 0, the
scanned total of the preceding warps otherwise); warp 0 lane 31 refreshes
the carry (line 238); the scanned totals remain in cells 1–32.  Positions
outside `[base, base + 1024)` or beyond `H` are untouched. -/
def scan_chunk (H base : ℕ) (arr : ℕ → ℕ) (sm : ScanSmem) : (ℕ → ℕ) × ScanSmem :=
  (fun i =>
    if base ≤ i ∧ i < base + 1024 ∧ i < H then
      chunk_warpScan base arr ((i - base) / 32) ((i - base) % 32) +
        (if (i - base) / 32 = 0 then sm.carry
          else chunk_scanned H base arr sm ((i - base) / 32 - 1))
    else arr i,
   { carry := chunk_scanned H base arr sm 31, stage := chunk_scanned H base arr sm })

/-- The full `fused_prefix_sum_copy` kernel over all chunks (the `copy`
output is identical to the in-place output, lines 235–236).  Cell 0 of the
scratch starts at 0 (line 192); the staging cells start with arbitrary
contents `g`. -/
def fused_prefix_sum_copy (H : ℕ) (arr g : ℕ → ℕ) : ℕ → ℕ :=
  ((List.range (CEIL_DIV H 1024)).foldl
    (fun st c => scan_chunk H (1024 * c) st.1 st.2)
    (arr, { carry := 0, stage := g })).1

/-- Host-side conversion (lines 727–733) of the inclusive scan into the
`H + 1`-entry offset table: shift one slot right, zero slot 0. -/
def dH_psum_offsets (scanned : ℕ → ℕ) : ℕ → ℕ :=
  fun i => if i = 0 then 0 else scanned (i - 1)

/-- Warp totals of consecutive blocks assemble into an interval sum. -/
theorem block_sums (A : ℕ → ℕ) (base : ℕ) :
    ∀ w : ℕ, ∑ u ∈ Finset.range w, (∑ j ∈ Finset.Ico (base + 32 * u) (base + 32 * u + 32), A j)
      = ∑ j ∈ Finset.Ico base (base + 32 * w), A j := by
  intro w
  induction w with
  | zero => simp
  | succ w ih =>
      rw [Finset.sum_range_succ, ih]
      have hcons := Finset.sum_Ico_consecutive A
        (show base ≤ base + 32 * w by omega) (show base + 32 * w ≤ base + 32 * w + 32 by omega)
      rw [hcons, (show base + 32 * w + 32 = base + 32 * (w + 1) by omega)]

/-- A warp's scanned value is the interval sum of its lane window. -/
theorem warp_block_window (A : ℕ → ℕ) (base w l : ℕ) (hl : l < 32) :
    chunk_warpScan base A w l
      = ∑ j ∈ Finset.Ico (base + 32 * w) (base + 32 * w + (l + 1)), A j := by
  rw [chunk_warpScan, prefix_sum_warp_eq _ _ hl, Finset.sum_Ico_eq_sum_range]
  simp

/-- Warp 0's scanned totals accumulate the carry and the interval sums of
the active warps below: lane `w - 1` holds `carry + sum of the first
`32 * w` chunk values` whenever the first `w` warps are active. -/
theorem chunk_scanned_eq (H base : ℕ) (A : ℕ → ℕ) (sm : ScanSmem) (w : ℕ)
    (hw1 : 1 ≤ w) (hw32 : w ≤ 32) (hact : ∀ u, u < w → base + 32 * u + 31 < H) :
    chunk_scanned H base A sm (w - 1)
      = sm.carry + ∑ j ∈ Finset.Ico base (base + 32 * w), A j := by
  rw [chunk_scanned, prefix_sum_warp_eq _ _ (by omega), (by omega : w - 1 + 1 = w),
    Finset.sum_add_distrib]
  have hite : (∑ u ∈ Finset.range w, if u = 0 then sm.carry else 0) = sm.carry := by
    rw [Finset.sum_ite_eq' (Finset.range w) 0 (fun _ => sm.carry),
      if_pos (Finset.mem_range.mpr (by omega))]
  have hstage : (∑ u ∈ Finset.range w, chunk_stage H base A sm u)
      = ∑ j ∈ Finset.Ico base (base + 32 * w), A j := by
    rw [← block_sums A base w]
    refine Finset.sum_congr rfl ?_
    intro u hu
    have hu' : u < w := Finset.mem_range.mp hu
    rw [chunk_stage, if_pos ⟨by omega, hact u hu'⟩,
      warp_block_window A base u 31 (by omega)]
  rw [hite, hstage, add_comm]

/-- Active positions of a chunk receive the carry plus the chunk-interval
sum up to themselves. -/
theorem scan_chunk_active (H base : ℕ) (A : ℕ → ℕ) (sm : ScanSmem) (i : ℕ)
    (h1 : base ≤ i) (h2 : i < base + 1024) (h3 : i < H) :
    (scan_chunk H base A sm).1 i = sm.carry + ∑ j ∈ Finset.Ico base (i + 1), A j := by
  obtain ⟨w, l, hl32, hwl⟩ : ∃ w l, l < 32 ∧ i - base = 32 * w + l :=
    ⟨(i - base) / 32, (i - base) % 32, Nat.mod_lt _ (by omega), (Nat.div_add_mod _ _).symm⟩
  have hdiv : (i - base) / 32 = w := by omega
  have hmod : (i - base) % 32 = l := by omega
  have hi : i = base + 32 * w + l := by omega
  have hwlt : w < 32 := by omega
  show (if base ≤ i ∧ i < base + 1024 ∧ i < H then
      chunk_warpScan base A ((i - base) / 32) ((i - base) % 32) +
        (if (i - base) / 32 = 0 then sm.carry
          else chunk_scanned H base A sm ((i - base) / 32 - 1))
    else A i) = _
  rw [if_pos ⟨h1, h2, h3⟩, hdiv, hmod, warp_block_window A base w l hl32]
  rcases Nat.eq_zero_or_pos w with hw0 | hwpos
  · subst hw0
    rw [if_pos rfl, add_comm, (show base + 32 * 0 + (l + 1) = i + 1 by omega),
      (show base + 32 * 0 = base by omega)]
  · rw [if_neg (by omega),
      chunk_scanned_eq H base A sm w (by omega) (by omega) (fun u hu => by omega)]
    have hcons := Finset.sum_Ico_consecutive A
      (show base ≤ base + 32 * w by omega)
      (show base + 32 * w ≤ base + 32 * w + (l + 1) by omega)
    calc ∑ j ∈ Finset.Ico (base + 32 * w) (base + 32 * w + (l + 1)), A j
          + (sm.carry + ∑ j ∈ Finset.Ico base (base + 32 * w), A j)
        = sm.carry + (∑ j ∈ Finset.Ico base (base + 32 * w), A j
          + ∑ j ∈ Finset.Ico (base + 32 * w) (base + 32 * w + (l + 1)), A j) := by ring
      _ = sm.carry + ∑ j ∈ Finset.Ico base (base + 32 * w + (l + 1)), A j := by rw [hcons]
      _ = sm.carry + ∑ j ∈ Finset.Ico base (i + 1), A j := by
            rw [(show base + 32 * w + (l + 1) = i + 1 by omega)]

/-- Untouched positions of a chunk keep their previous value. -/
theorem scan_chunk_frozen (H base : ℕ) (A : ℕ → ℕ) (sm : ScanSmem) (i : ℕ)
    (h : ¬(base ≤ i ∧ i < base + 1024 ∧ i < H)) :
    (scan_chunk H base A sm).1 i = A i := by
  show (if base ≤ i ∧ i < base + 1024 ∧ i < H then _ else A i) = A i
  rw [if_neg h]

/-- A full chunk advances the carry by its total. -/
theorem scan_chunk_carry (H base : ℕ) (A : ℕ → ℕ) (sm : ScanSmem)
    (hfull : base + 1024 ≤ H) :
    (scan_chunk H base A sm).2.carry
      = sm.carry + ∑ j ∈ Finset.Ico base (base + 1024), A j := by
  show chunk_scanned H base A sm 31 = _
  have := chunk_scanned_eq H base A sm 32 (by omega) (le_refl _) (fun u hu => by omega)
  rw [(by omega : (32:ℕ) - 1 = 31)] at this
  rw [this]

/-- Total correctness of the chunk fold: processed positions hold inclusive
prefix sums, unprocessed positions are untouched, and after every complete
chunk the carry holds the running total. -/
theorem chunks_fold_spec (H : ℕ) (arr g : ℕ → ℕ) (C : ℕ) :
    (∀ i, i < H → i < 1024 * C →
      ((List.range C).foldl (fun st c => scan_chunk H (1024 * c) st.1 st.2)
        (arr, { carry := 0, stage := g })).1 i = ∑ j ∈ Finset.range (i + 1), arr j) ∧
    (∀ i, 1024 * C ≤ i ∨ H ≤ i →
      ((List.range C).foldl (fun st c => scan_chunk H (1024 * c) st.1 st.2)
        (arr, { carry := 0, stage := g })).1 i = arr i) ∧
    (1024 * C ≤ H →
      ((List.range C).foldl (fun st c => scan_chunk H (1024 * c) st.1 st.2)
        (arr, { carry := 0, stage := g })).2.carry = ∑ j ∈ Finset.range (1024 * C), arr j) := by
  induction C with
  | zero =>
      refine ⟨fun i _ hi => absurd hi (by omega), fun i _ => rfl, fun _ => by simp⟩
  | succ C ih =>
      obtain ⟨ihA, ihB, ihC⟩ := ih
      simp only [List.range_succ, List.foldl_append, List.foldl_cons, List.foldl_nil]
      refine ⟨?_, ?_, ?_⟩
      · intro i hiH hiC
        rcases Nat.lt_or_ge i (1024 * C) with hlt | hge
        · rw [scan_chunk_frozen _ _ _ _ _ (by omega)]
          exact ihA i hiH hlt
        · rw [scan_chunk_active _ _ _ _ _ (by omega) (by omega) hiH]
          have hcar := ihC (by omega)
          have hfro : ∑ j ∈ Finset.Ico (1024 * C) (i + 1),
              ((List.range C).foldl (fun st c => scan_chunk H (1024 * c) st.1 st.2)
                (arr, { carry := 0, stage := g })).1 j
              = ∑ j ∈ Finset.Ico (1024 * C) (i + 1), arr j := by
            refine Finset.sum_congr rfl ?_
            intro j hj
            exact ihB j (Or.inl (Finset.mem_Ico.mp hj).1)
          rw [hcar, hfro, Finset.range_eq_Ico,
            Finset.sum_Ico_consecutive arr (by omega) (by omega)]
      · intro i hi
        rw [scan_chunk_frozen _ _ _ _ _ (by omega)]
        exact ihB i (by omega)
      · intro hfull
        rw [scan_chunk_carry _ _ _ _ (by omega)]
        have hcar := ihC (by omega)
        have hfro : ∑ j ∈ Finset.Ico (1024 * C) (1024 * C + 1024),
            ((List.range C).foldl (fun st c => scan_chunk H (1024 * c) st.1 st.2)
              (arr, { carry := 0, stage := g })).1 j
            = ∑ j ∈ Finset.Ico (1024 * C) (1024 * C + 1024), arr j := by
          refine Finset.sum_congr rfl ?_
          intro j hj
          exact ihB j (Or.inl (Finset.mem_Ico.mp hj).1)
        rw [hcar, hfro, Finset.range_eq_Ico,
          Finset.sum_Ico_consecutive arr (by omega) (by omega),
          (show 1024 * C + 1024 = 1024 * (C + 1) by omega)]

/-- The fused kernel computes the inclusive prefix sum at every position
below `H`. -/
theorem fused_prefix_sum_copy_eq (H : ℕ) (arr g : ℕ → ℕ) (i : ℕ) (hi : i < H) :
    fused_prefix_sum_copy H arr g i = ∑ j ∈ Finset.range (i + 1), arr j := by
  unfold fused_prefix_sum_copy
  refine (chunks_fold_spec H arr g (CEIL_DIV H 1024)).1 i hi ?_
  have h1 : H ≤ 1024 * CEIL_DIV H 1024 := by
    unfold CEIL_DIV
    rcases Nat.eq_zero_or_pos H with h0 | hpos
    · omega
    · have h2 : (H + 1024 - 1) / 1024 = (H - 1) / 1024 + 1 := by
        rw [(by omega : H + 1024 - 1 = (H - 1) + 1024), Nat.add_div_right _ (by omega)]
      have h3 : H - 1 < (H - 1) / 1024 * 1024 + 1024 := Nat.lt_div_mul_add (by omega)
      rw [h2]
      omega
  omega

/-! ### Theorems for C7 -/

/-- C7: when `H` is a power of two, at least the synchronization-group
width 32, and the population counters sum to `n`, the offset table obtained
from the prefix-sum kernel and the host shift satisfies `offset[0] = 0`,
`offset[H] = n`, and is monotone non-decreasing, for any initial contents
`g` of the uninitialised staging cells. -/
theorem offsets_zero_total_monotone (H n : ℕ) (counts g : ℕ → ℕ)
    (_hpow : ∃ m, H = 2 ^ m) (hH32 : 32 ≤ H)
    (hsum : ∑ j ∈ Finset.range H, counts j = n) :
    dH_psum_offsets (fused_prefix_sum_copy H counts g) 0 = 0 ∧
      dH_psum_offsets (fused_prefix_sum_copy H counts g) H = n ∧
      ∀ i, i < H → dH_psum_offsets (fused_prefix_sum_copy H counts g) i
        ≤ dH_psum_offsets (fused_prefix_sum_copy H counts g) (i + 1) := by
  refine ⟨rfl, ?_, ?_⟩
  · rw [dH_psum_offsets, if_neg (by omega),
      fused_prefix_sum_copy_eq H counts g (H - 1) (by omega), (by omega : H - 1 + 1 = H), hsum]
  · intro i hi
    unfold dH_psum_offsets
    rcases Nat.eq_zero_or_pos i with rfl | hpos
    · simp
    · rw [if_neg (by omega), if_neg (by omega),
        fused_prefix_sum_copy_eq H counts g (i - 1) (by omega),
        fused_prefix_sum_copy_eq H counts g (i + 1 - 1) (by omega)]
      exact Finset.sum_le_sum_of_subset (Finset.range_subset.mpr (by omega))

/-- Witness for C7 at `H = 32` with unit counters, `n = 32`, zero junk. -/
theorem offsets_zero_total_monotone_witness :
    ((∃ m, (32:ℕ) = 2 ^ m) ∧ 32 ≤ 32 ∧ ∑ j ∈ Finset.range 32, (fun _ : ℕ => 1) j = 32) ∧
      (dH_psum_offsets (fused_prefix_sum_copy 32 (fun _ => 1) (fun _ => 0)) 0 = 0 ∧
        dH_psum_offsets (fused_prefix_sum_copy 32 (fun _ => 1) (fun _ => 0)) 32 = 32 ∧
        ∀ i, i < 32 → dH_psum_offsets (fused_prefix_sum_copy 32 (fun _ => 1) (fun _ => 0)) i
          ≤ dH_psum_offsets (fused_prefix_sum_copy 32 (fun _ => 1) (fun _ => 0)) (i + 1)) :=
  ⟨⟨⟨5, by norm_num⟩, by norm_num, by simp⟩,
    offsets_zero_total_monotone 32 32 (fun _ => 1) (fun _ => 0) ⟨5, by norm_num⟩
      (by norm_num) (by simp)⟩

/-! ## PartitionIndexBuilder, bucket sort (`BucketSort`, lines 246–262)

Each point atomically claims the next free slot of its hub's segment via
`atomicAdd(&dH_psum[hub], 1)` on the exclusive prefix-sum cursor table and
writes its coordinates and original identifier there.  Threads race only
through that fetch-and-add, so the kernel is equivalent to a sequential
fold over the points in an arbitrary execution order; the theorems below
quantify over that order. -/

/-- State of `BucketSort`: the cursor table (a private copy of the
exclusive prefix sums) and the four output arrays; output slots start
unwritten (`none` for the identifier array). -/
structure BucketState where
  cursors : ℕ → ℕ
  arr_x : ℕ → ℚ
  arr_y : ℕ → ℚ
  arr_z : ℕ → ℚ
  arr_idx : ℕ → Option ℕ

/-- One point's scatter (lines 252–261). -/
def BucketSort_step (points : ℕ → ℚ × ℚ × ℚ) (assign : ℕ → ℕ)
    (st : BucketState) (idx : ℕ) : BucketState :=
  let hub_idx := assign idx
  let loc := st.cursors hub_idx
  { cursors := Function.update st.cursors hub_idx (loc + 1)
    arr_x := Function.update st.arr_x loc (points idx).1
    arr_y := Function.update st.arr_y loc (points idx).2.1
    arr_z := Function.update st.arr_z loc (points idx).2.2
    arr_idx := Function.update st.arr_idx loc (some idx) }

/-- The `BucketSort` kernel over an arbitrary thread execution order. -/
def BucketSort (points : ℕ → ℚ × ℚ × ℚ) (assign : ℕ → ℕ) (order : List ℕ)
    (init : BucketState) : BucketState :=
  order.foldl (BucketSort_step points assign) init

/-- Number of points of the list `l` assigned to hub `h`. -/
def hubCount (assign : ℕ → ℕ) (l : List ℕ) (h : ℕ) : ℕ :=
  (l.filter (fun p => assign p = h)).length

theorem hubCount_append (assign : ℕ → ℕ) (l1 l2 : List ℕ) (h : ℕ) :
    hubCount assign (l1 ++ l2) h = hubCount assign l1 h + hubCount assign l2 h := by
  unfold hubCount
  rw [List.filter_append, List.length_append]

theorem hubCount_perm (assign : ℕ → ℕ) {l1 l2 : List ℕ} (hp : l1.Perm l2) (h : ℕ) :
    hubCount assign l1 h = hubCount assign l2 h :=
  (hp.filter _).length_eq

theorem hubCount_concat (assign : ℕ → ℕ) (l : List ℕ) (q h : ℕ) :
    hubCount assign (l ++ [q]) h
      = hubCount assign l h + (if assign q = h then 1 else 0) := by
  rw [hubCount_append]
  congr 1
  unfold hubCount
  by_cases hq : assign q = h
  · simp [hq]
  · simp [hq]

/-- A point of hub `h` still unprocessed keeps the processed count of `h`
strictly below its total. -/
theorem hubCount_lt_total (n : ℕ) (assign : ℕ → ℕ) (done rest : List ℕ) (q : ℕ)
    (hperm : (done ++ q :: rest).Perm (List.range n)) :
    hubCount assign done (assign q) < hubCount assign (List.range n) (assign q) := by
  rw [← hubCount_perm assign hperm]
  have : done ++ q :: rest = (done ++ [q]) ++ rest := by simp
  rw [this, hubCount_append, hubCount_concat, if_pos rfl]
  omega

/-- All points of the full cloud distribute over the hub counts. -/
theorem sum_hubCount (H : ℕ) (assign : ℕ → ℕ) :
    ∀ l : List ℕ, (∀ p ∈ l, assign p < H) →
      ∑ u ∈ Finset.range H, hubCount assign l u = l.length := by
  intro l
  induction l with
  | nil => intro _; simp [hubCount]
  | cons p t ih =>
      intro hall
      have ht : ∑ u ∈ Finset.range H, hubCount assign t u = t.length :=
        ih (fun x hx => hall x (List.mem_cons_of_mem _ hx))
      have hsplit : ∀ u, hubCount assign (p :: t) u
          = (if assign p = u then 1 else 0) + hubCount assign t u := by
        intro u
        unfold hubCount
        by_cases hq : assign p = u
        · simp [hq, Nat.add_comm]
        · simp [hq]
      simp only [hsplit]
      rw [Finset.sum_add_distrib, ht,
        Finset.sum_ite_eq (Finset.range H) (assign p) (fun _ => 1),
        if_pos (Finset.mem_range.mpr (hall p (List.mem_cons_self _ _)))]
      simp [add_comm]

/-- The invariant of the bucket-sort fold after processing the points of
`done`: cursors have advanced by the processed counts, every processed
point sits at a unique slot of the processed window of its hub's segment,
and only processed points occupy slots. -/
def BucketInv (assign : ℕ → ℕ) (offsets : ℕ → ℕ) (done : List ℕ) (st : BucketState) : Prop :=
  (∀ h, st.cursors h = offsets h + hubCount assign done h) ∧
  (∀ p ∈ done, ∃ loc, offsets (assign p) ≤ loc ∧
      loc < offsets (assign p) + hubCount assign done (assign p) ∧
      st.arr_idx loc = some p) ∧
  (∀ loc p, st.arr_idx loc = some p → p ∈ done ∧ offsets (assign p) ≤ loc ∧
      loc < offsets (assign p) + hubCount assign done (assign p)) ∧
  (∀ loc1 loc2 p, st.arr_idx loc1 = some p → st.arr_idx loc2 = some p → loc1 = loc2)

/-- Processing one more point preserves the bucket-sort invariant: the
claimed slot is the next free slot of the point's hub segment, and segment
windows of distinct hubs are disjoint because the cursors are exclusive
prefix sums of the hub counts. -/
theorem bucket_step_inv (n H : ℕ) (points : ℕ → ℚ × ℚ × ℚ) (assign offsets : ℕ → ℕ)
    (hassign : ∀ p, p < n → assign p < H)
    (hoffsets : ∀ h, h ≤ H → offsets h = ∑ u ∈ Finset.range h, hubCount assign (List.range n) u)
    (done rest : List ℕ) (q : ℕ) (st : BucketState)
    (hperm : (done ++ q :: rest).Perm (List.range n))
    (hinv : BucketInv assign offsets done st) :
    BucketInv assign offsets (done ++ [q]) (BucketSort_step points assign st q) := by
  obtain ⟨I1, I2, I3, I4⟩ := hinv
  have hnd : (done ++ q :: rest).Nodup := hperm.nodup_iff.mpr (List.nodup_range n)
  have hqd : q ∉ done := by
    intro hq
    obtain ⟨-, -, hdisj⟩ := List.nodup_append.mp hnd
    exact hdisj hq (List.mem_cons_self _ _)
  have hmemn : ∀ p ∈ done ++ q :: rest, p < n := by
    intro p hp
    exact List.mem_range.mp (hperm.mem_iff.mp hp)
  have hqn : q < n := hmemn q (by simp)
  have h0H : assign q < H := hassign q hqn
  have offs_succ : ∀ h, h < H →
      offsets (h + 1) = offsets h + hubCount assign (List.range n) h := by
    intro h hh
    rw [hoffsets (h + 1) (by omega), hoffsets h (by omega), Finset.sum_range_succ]
  have offs_mono : ∀ h1 h2, h1 ≤ h2 → h2 ≤ H → offsets h1 ≤ offsets h2 := by
    intro h1 h2 h12 h2H
    rw [hoffsets h1 (by omega), hoffsets h2 h2H]
    exact Finset.sum_le_sum_of_subset (Finset.range_subset.mpr h12)
  have cnt_le : ∀ h, hubCount assign done h ≤ hubCount assign (List.range n) h := by
    intro h
    rw [← hubCount_perm assign hperm, (show done ++ q :: rest = (done ++ [q]) ++ rest by simp),
      hubCount_append, hubCount_append]
    omega
  have cnt_lt : hubCount assign done (assign q) < hubCount assign (List.range n) (assign q) :=
    hubCount_lt_total n assign done rest q hperm
  have hfresh : ∀ p, ¬ st.arr_idx (st.cursors (assign q)) = some p := by
    intro p hp
    obtain ⟨hpd, hlo, hhi⟩ := I3 _ p hp
    have hpn : p < n := hmemn p (List.mem_append_left _ hpd)
    have h1H : assign p < H := hassign p hpn
    rw [I1 (assign q)] at hlo hhi
    rcases Nat.lt_trichotomy (assign p) (assign q) with hc | hc | hc
    · have e1 : offsets (assign p) + hubCount assign (List.range n) (assign p)
          = offsets (assign p + 1) := (offs_succ _ h1H).symm
      have e2 : offsets (assign p + 1) ≤ offsets (assign q) :=
        offs_mono _ _ (by omega) (by omega)
      have := cnt_le (assign p)
      omega
    · rw [hc] at hhi
      omega
    · have e1 : offsets (assign q) + hubCount assign (List.range n) (assign q)
          = offsets (assign q + 1) := (offs_succ _ h0H).symm
      have e2 : offsets (assign q + 1) ≤ offsets (assign p) :=
        offs_mono _ _ (by omega) (by omega)
      omega
  refine ⟨?_, ?_, ?_, ?_⟩
  · intro h
    show Function.update st.cursors (assign q) (st.cursors (assign q) + 1) h = _
    rcases eq_or_ne h (assign q) with rfl | hne
    · rw [Function.update_same, I1 (assign q), hubCount_concat, if_pos rfl]
      omega
    · rw [Function.update_noteq hne, I1 h, hubCount_concat,
        if_neg (fun he : assign q = h => hne he.symm)]
      omega
  · intro p hp
    rcases List.mem_append.mp hp with hpd | hpq
    · obtain ⟨loc, hlo, hhi, hval⟩ := I2 p hpd
      refine ⟨loc, hlo, ?_, ?_⟩
      · rw [hubCount_concat]
        split_ifs <;> omega
      · show Function.update st.arr_idx (st.cursors (assign q)) (some q) loc = some p
        have hne : loc ≠ st.cursors (assign q) := fun he => hfresh p (he ▸ hval)
        rw [Function.update_noteq hne]
        exact hval
    · have hpq2 : p = q := by simpa using hpq
      subst hpq2
      refine ⟨st.cursors (assign p), ?_, ?_, ?_⟩
      · rw [I1]
        omega
      · rw [I1, hubCount_concat, if_pos rfl]
        omega
      · show Function.update st.arr_idx (st.cursors (assign p)) (some p) _ = some p
        rw [Function.update_same]
  · intro loc p hval
    rcases eq_or_ne loc (st.cursors (assign q)) with rfl | hne
    · rw [show (BucketSort_step points assign st q).arr_idx
          = Function.update st.arr_idx (st.cursors (assign q)) (some q) from rfl,
        Function.update_same] at hval
      obtain rfl : q = p := by simpa using hval
      refine ⟨List.mem_append_right _ (by simp), by rw [I1]; omega, ?_⟩
      rw [I1, hubCount_concat, if_pos rfl]
      omega
    · rw [show (BucketSort_step points assign st q).arr_idx
          = Function.update st.arr_idx (st.cursors (assign q)) (some q) from rfl,
        Function.update_noteq hne] at hval
      obtain ⟨hpd, hlo, hhi⟩ := I3 loc p hval
      refine ⟨List.mem_append_left _ hpd, hlo, ?_⟩
      rw [hubCount_concat]
      split_ifs <;> omega
  · intro loc1 loc2 p h1 h2
    rw [show (BucketSort_step points assign st q).arr_idx
        = Function.update st.arr_idx (st.cursors (assign q)) (some q) from rfl] at h1 h2
    rcases eq_or_ne loc1 (st.cursors (assign q)) with rfl | hne1 <;>
      rcases eq_or_ne loc2 (st.cursors (assign q)) with heq2 | hne2
    · rw [heq2]
    · rw [Function.update_same] at h1
      obtain rfl : q = p := by simpa using h1
      rw [Function.update_noteq hne2] at h2
      exact absurd (I3 loc2 q h2).1 hqd
    · subst heq2
      rw [Function.update_same] at h2
      obtain rfl : q = p := by simpa using h2
      rw [Function.update_noteq hne1] at h1
      exact absurd (I3 loc1 q h1).1 hqd
    · rw [Function.update_noteq hne1] at h1
      rw [Function.update_noteq hne2] at h2
      exact I4 loc1 loc2 p h1 h2

/-- The bucket-sort fold preserves the invariant across any suffix of the
execution order. -/
theorem bucket_fold_inv (n H : ℕ) (points : ℕ → ℚ × ℚ × ℚ) (assign offsets : ℕ → ℕ)
    (hassign : ∀ p, p < n → assign p < H)
    (hoffsets : ∀ h, h ≤ H → offsets h = ∑ u ∈ Finset.range h, hubCount assign (List.range n) u) :
    ∀ (rest done : List ℕ) (st : BucketState),
      (done ++ rest).Perm (List.range n) →
      BucketInv assign offsets done st →
      BucketInv assign offsets (done ++ rest)
        (rest.foldl (BucketSort_step points assign) st) := by
  intro rest
  induction rest with
  | nil =>
      intro done st _ hinv
      simpa using hinv
  | cons r t ih =>
      intro done st hperm hinv
      have hstep := bucket_step_inv n H points assign offsets hassign hoffsets done t r st
        hperm hinv
      have hres := ih (done ++ [r]) (BucketSort_step points assign st r)
        (by simpa using hperm) hstep
      simpa using hres

/-- C8: with correct exclusive prefix-sum cursors, after the bucket-sort
scatter in any execution order the bucketed identifier array is a
permutation of `[0, n)`: every point identifier occupies a slot inside its
hub's segment `[offset[hub], offset[hub+1])`, every slot below `n` is
occupied, and no identifier occupies two slots. -/
theorem bucket_sort_permutation (n H : ℕ) (points : ℕ → ℚ × ℚ × ℚ)
    (assign offsets : ℕ → ℕ) (order : List ℕ) (cx cy cz : ℕ → ℚ)
    (hassign : ∀ p, p < n → assign p < H)
    (hoffsets : ∀ h, h ≤ H →
      offsets h = ∑ u ∈ Finset.range h, hubCount assign (List.range n) u)
    (horder : order.Perm (List.range n)) :
    (∀ p, p < n → ∃ loc, offsets (assign p) ≤ loc ∧ loc < offsets (assign p + 1) ∧
        (BucketSort points assign order
          { cursors := offsets, arr_x := cx, arr_y := cy, arr_z := cz,
            arr_idx := fun _ => none }).arr_idx loc = some p) ∧
      (∀ loc, loc < n → ∃ p, p < n ∧
        (BucketSort points assign order
          { cursors := offsets, arr_x := cx, arr_y := cy, arr_z := cz,
            arr_idx := fun _ => none }).arr_idx loc = some p) ∧
      (∀ loc1 loc2 p,
        (BucketSort points assign order
          { cursors := offsets, arr_x := cx, arr_y := cy, arr_z := cz,
            arr_idx := fun _ => none }).arr_idx loc1 = some p →
        (BucketSort points assign order
          { cursors := offsets, arr_x := cx, arr_y := cy, arr_z := cz,
            arr_idx := fun _ => none }).arr_idx loc2 = some p → loc1 = loc2) := by
  classical
  have hinv0 : BucketInv assign offsets []
      { cursors := offsets, arr_x := cx, arr_y := cy, arr_z := cz,
        arr_idx := fun _ => none } := by
    refine ⟨fun h => by simp [hubCount], fun p hp => absurd hp (List.not_mem_nil p),
      fun loc p hval => absurd hval (by simp), fun loc1 loc2 p h1 h2 => absurd h1 (by simp)⟩
  have hinv := bucket_fold_inv n H points assign offsets hassign hoffsets order []
    { cursors := offsets, arr_x := cx, arr_y := cy, arr_z := cz,
      arr_idx := fun _ => none } (by simpa using horder) hinv0
  simp only [List.nil_append] at hinv
  obtain ⟨I1, I2, I3, I4⟩ := hinv
  have cnt_order : ∀ h, hubCount assign order h = hubCount assign (List.range n) h :=
    fun h => hubCount_perm assign horder h
  have offs_succ : ∀ h, h < H →
      offsets (h + 1) = offsets h + hubCount assign (List.range n) h := by
    intro h hh
    rw [hoffsets (h + 1) (by omega), hoffsets h (by omega), Finset.sum_range_succ]
  have offs_mono : ∀ h1 h2, h1 ≤ h2 → h2 ≤ H → offsets h1 ≤ offsets h2 := by
    intro h1 h2 h12 h2H
    rw [hoffsets h1 (by omega), hoffsets h2 h2H]
    exact Finset.sum_le_sum_of_subset (Finset.range_subset.mpr h12)
  have offsH : offsets H = n := by
    rw [hoffsets H (le_refl H),
      sum_hubCount H assign (List.range n) (fun p hp => hassign p (List.mem_range.mp hp)),
      List.length_range]
  have main1 : ∀ p, p < n → ∃ loc, offsets (assign p) ≤ loc ∧
      loc < offsets (assign p + 1) ∧
      (BucketSort points assign order
        { cursors := offsets, arr_x := cx, arr_y := cy, arr_z := cz,
          arr_idx := fun _ => none }).arr_idx loc = some p := by
    intro p hp
    obtain ⟨loc, hlo, hhi, hval⟩ := I2 p (horder.mem_iff.mpr (List.mem_range.mpr hp))
    refine ⟨loc, hlo, ?_, hval⟩
    rw [offs_succ (assign p) (hassign p hp)]
    rw [cnt_order] at hhi
    exact hhi
  refine ⟨main1, ?_, I4⟩
  intro loc hloc
  have hex : ∀ p, p < n → ∃ l, (BucketSort points assign order
      { cursors := offsets, arr_x := cx, arr_y := cy, arr_z := cz,
        arr_idx := fun _ => none }).arr_idx l = some p ∧ l < n := by
    intro p hp
    obtain ⟨l, hlo, hhi, hval⟩ := main1 p hp
    refine ⟨l, hval, ?_⟩
    have h1 : offsets (assign p + 1) ≤ offsets H := offs_mono _ _ (hassign p hp) (le_refl H)
    omega
  set F := (BucketSort points assign order
      { cursors := offsets, arr_x := cx, arr_y := cy, arr_z := cz,
        arr_idx := fun _ => none }).arr_idx with hF
  let U : Finset ℕ := (Finset.range n).filter (fun l => (F l).isSome)
  have hUsub : U ⊆ Finset.range n := Finset.filter_subset _ _
  let f : ℕ → ℕ := fun p => if hp : ∃ l, F l = some p ∧ l < n then hp.choose else 0
  have hfmem : ∀ p ∈ Finset.range n, f p ∈ U := by
    intro p hp
    have hp' : ∃ l, F l = some p ∧ l < n := hex p (Finset.mem_range.mp hp)
    show (if hq : ∃ l, F l = some p ∧ l < n then hq.choose else 0) ∈ U
    rw [dif_pos hp']
    refine Finset.mem_filter.mpr ⟨Finset.mem_range.mpr hp'.choose_spec.2, ?_⟩
    rw [hp'.choose_spec.1]
    rfl
  have hfinj : Set.InjOn f (Finset.range n) := by
    intro p1 hp1 p2 hp2 hfe
    have h1 : ∃ l, F l = some p1 ∧ l < n := hex p1 (Finset.mem_range.mp (by simpa using hp1))
    have h2 : ∃ l, F l = some p2 ∧ l < n := hex p2 (Finset.mem_range.mp (by simpa using hp2))
    have hfe1 : f p1 = h1.choose := by
      show (if hq : ∃ l, F l = some p1 ∧ l < n then hq.choose else 0) = _
      rw [dif_pos h1]
    have hfe2 : f p2 = h2.choose := by
      show (if hq : ∃ l, F l = some p2 ∧ l < n then hq.choose else 0) = _
      rw [dif_pos h2]
    have := h1.choose_spec.1
    rw [← hfe1, hfe, hfe2, h2.choose_spec.1] at this
    exact (Option.some.inj this).symm
  have hcard : (Finset.range n).card ≤ U.card :=
    Finset.card_le_card_of_injOn f hfmem hfinj
  have hUeq : U = Finset.range n :=
    Finset.eq_of_subset_of_card_le hUsub (by simpa using hcard)
  have hlocU : loc ∈ U := hUeq.symm ▸ Finset.mem_range.mpr hloc
  have hsome : (F loc).isSome := (Finset.mem_filter.mp hlocU).2
  obtain ⟨p, hp⟩ := Option.isSome_iff_exists.mp hsome
  refine ⟨p, ?_, hp⟩
  have := (I3 loc p hp).1
  exact List.mem_range.mp (horder.mem_iff.mp this)

/-- Witness for C8: one point, one hub, identity order. -/
theorem bucket_sort_permutation_witness :
    ((∀ p, p < 1 → (fun _ : ℕ => (0:ℕ)) p < 1) ∧
      (∀ h : ℕ, h ≤ 1 → (fun h : ℕ => if h = 0 then 0 else 1) h
        = ∑ u ∈ Finset.range h, hubCount (fun _ => 0) (List.range 1) u) ∧
      ([0] : List ℕ).Perm (List.range 1)) ∧
    ((∀ p, p < 1 → ∃ loc, (fun h : ℕ => if h = 0 then 0 else 1) ((fun _ : ℕ => (0:ℕ)) p) ≤ loc ∧
        loc < (fun h : ℕ => if h = 0 then 0 else 1) ((fun _ : ℕ => (0:ℕ)) p + 1) ∧
        (BucketSort (fun _ => ((0:ℚ), (0:ℚ), (0:ℚ))) (fun _ => 0) [0]
          { cursors := fun h => if h = 0 then 0 else 1, arr_x := fun _ => 0,
            arr_y := fun _ => 0, arr_z := fun _ => 0,
            arr_idx := fun _ => none }).arr_idx loc = some p) ∧
      (∀ loc, loc < 1 → ∃ p, p < 1 ∧
        (BucketSort (fun _ => ((0:ℚ), (0:ℚ), (0:ℚ))) (fun _ => 0) [0]
          { cursors := fun h => if h = 0 then 0 else 1, arr_x := fun _ => 0,
            arr_y := fun _ => 0, arr_z := fun _ => 0,
            arr_idx := fun _ => none }).arr_idx loc = some p) ∧
      (∀ loc1 loc2 p,
        (BucketSort (fun _ => ((0:ℚ), (0:ℚ), (0:ℚ))) (fun _ => 0) [0]
          { cursors := fun h => if h = 0 then 0 else 1, arr_x := fun _ => 0,
            arr_y := fun _ => 0, arr_z := fun _ => 0,
            arr_idx := fun _ => none }).arr_idx loc1 = some p →
        (BucketSort (fun _ => ((0:ℚ), (0:ℚ), (0:ℚ))) (fun _ => 0) [0]
          { cursors := fun h => if h = 0 then 0 else 1, arr_x := fun _ => 0,
            arr_y := fun _ => 0, arr_z := fun _ => 0,
            arr_idx := fun _ => none }).arr_idx loc2 = some p → loc1 = loc2)) := by
  have hassign : ∀ p, p < 1 → (fun _ : ℕ => (0:ℕ)) p < 1 := fun p _ => Nat.zero_lt_one
  have hoffsets : ∀ h : ℕ, h ≤ 1 → (fun h : ℕ => if h = 0 then 0 else 1) h
      = ∑ u ∈ Finset.range h, hubCount (fun _ => 0) (List.range 1) u := by
    intro h hh
    interval_cases h <;> simp [hubCount]
  have horder : ([0] : List ℕ).Perm (List.range 1) := by
    have : List.range 1 = [0] := rfl
    rw [this]
  exact ⟨⟨hassign, hoffsets, horder⟩,
    bucket_sort_permutation 1 1 (fun _ => ((0:ℚ), (0:ℚ), (0:ℚ))) (fun _ => 0)
      (fun h => if h = 0 then 0 else 1) [0] (fun _ => 0) (fun _ => 0) (fun _ => 0)
      hassign hoffsets horder⟩

/-! ## QueryEngine (`Query`, lines 538–637)

One warp per query.  Line 551 reads the processed point as
`arr_idx[query_sequence_id]` — the supplied query list `Qps` is never
read — and lines 632–636 write the results at offset `K * qp` where
`qp` is that point's original identifier.  The warp traverses the ranked
hub list of the point's own hub, batch-inserting 32 candidates at a time
into the faiss `WarpSelect` collector (padding exhausted buckets with
`FLT_MAX` / `Points_num` sentinels), and stops once
`sqrt(heap.warpKTop) ≤ dD[own][next] − dist_to_my_hub` or all `H` hubs
are processed (line 589). -/

/-- Modelled from the spec: `spatial::l2dist` (`spatial.cuh`, outside
`src/`).  The spec speaks of Euclidean distance, and the kernels apply
`sqrt` to `l2dist` results exactly where true distances are needed
(`Calculate_Distances` line 74, `Query` line 584), so `l2dist` itself is
the squared Euclidean distance: the sum of squared coordinate
differences. -/
def l2dist (qx qy qz px py pz : ℚ) : ℚ :=
  (qx - px) ^ 2 + (qy - py) ^ 2 + (qz - pz) ^ 2

/-- Modelled from the spec (section 6): the faiss `WarpSelect` bounded
top-K collector.  It maintains the `K` smallest (distance, id) pairs seen
across batched insertions, is initialised with `K` sentinel pairs
`(FLT_MAX, -1)` (line 572), exposes the current worst retained distance
as `warpKTop`, and finalisation emits the retained pairs sorted ascending
by distance.  The retained list is kept sorted ascending, so the worst
retained pair is the last. -/
structure WarpSelect where
  K : ℕ
  elems : List (ℚ × ℤ)

/-- Collector initialisation: `K` copies of `(FLT_MAX, -1)`. -/
def WarpSelect.init (K : ℕ) : WarpSelect :=
  ⟨K, List.replicate K (FLT_MAX_Q, -1)⟩

/-- Batched insertion: keep the `K` smallest of the retained pairs and the
new batch, by distance. -/
def WarpSelect.add (h : WarpSelect) (batch : List (ℚ × ℤ)) : WarpSelect :=
  ⟨h.K, ((h.elems ++ batch).mergeSort (fun a b => decide (a.1 ≤ b.1))).take h.K⟩

/-- The current worst retained distance (the last of the sorted retained
list). -/
def WarpSelect.warpKTop (h : WarpSelect) : ℚ :=
  ((h.elems.getLast?).getD (FLT_MAX_Q, -1)).1

/-- Finalise and emit (`heap.reduce(); heap.writeOut(...)`): the retained
pairs, sorted ascending. -/
def WarpSelect.writeOut (h : WarpSelect) : List (ℚ × ℤ) :=
  h.elems

/-- The index buffers the `Query` kernel reads, field for field its
parameters. -/
structure QueryIndex where
  H : ℕ
  Points_num : ℕ
  points : ℕ → ℚ × ℚ × ℚ
  dH : ℕ → ℕ
  arr_idx : ℕ → ℕ
  arr_x : ℕ → ℚ
  arr_y : ℕ → ℚ
  arr_z : ℕ → ℚ
  iD : ℕ → ℕ
  dD : ℕ → ℚ
  dH_psum : ℕ → ℕ
  assignments : ℕ → ℕ

/-- Loop state of the `Query` kernel's hub traversal (lines 555–560 and
the loop-carried values of lines 589–625), including the kernel's
`poitns_scanned` diagnostic counter. -/
structure QState where
  current_H : ℕ
  hubs_processed : ℕ
  dist_to_this_hub : ℚ
  scan_hub_from : ℕ
  scan_hub_to : ℕ
  poitns_scanned : ℕ
  heap : WarpSelect

/-- One warp-wide candidate batch (lines 596–607): lane `lane` loads the
bucket entry at `scan_hub_from + lane` when in range, its squared distance
to the query, and pads with the `FLT_MAX` / `Points_num` sentinels
otherwise. -/
def queryBatch (P : QueryIndex) (qx qy qz : ℚ) (sfrom sto : ℕ) : List (ℚ × ℤ) :=
  (List.range warp_size).map (fun lane =>
    if sfrom + lane < sto then
      (l2dist qx qy qz (P.arr_x (sfrom + lane)) (P.arr_y (sfrom + lane))
          (P.arr_z (sfrom + lane)),
        (P.arr_idx (sfrom + lane) : ℤ))
    else (FLT_MAX_Q, (P.Points_num : ℤ)))

/-- One iteration of the hub-traversal loop (lines 591–624): batch-insert
the next 32 candidates, account the scanned points, advance the bucket
cursor by the warp width, and move to the next ranked hub when the bucket
is exhausted (only while hubs remain). -/
def queryStep (P : QueryIndex) (qx qy qz : ℚ) (hub_containing_qp : ℕ) (st : QState) : QState :=
  let heap' := st.heap.add (queryBatch P qx qy qz st.scan_hub_from st.scan_hub_to)
  let ps' := st.poitns_scanned + min warp_size (st.scan_hub_to - st.scan_hub_from)
  let sfrom' := st.scan_hub_from + warp_size
  if st.scan_hub_to ≤ sfrom' then
    if st.hubs_processed + 1 < P.H then
      { current_H := P.iD (hub_containing_qp * P.H + (st.hubs_processed + 1))
        hubs_processed := st.hubs_processed + 1
        dist_to_this_hub := P.dD (hub_containing_qp * P.H + (st.hubs_processed + 1))
        scan_hub_from := P.dH_psum (P.iD (hub_containing_qp * P.H + (st.hubs_processed + 1)))
        scan_hub_to := P.dH_psum (P.iD (hub_containing_qp * P.H + (st.hubs_processed + 1)) + 1)
        poitns_scanned := ps'
        heap := heap' }
    else
      { st with
          hubs_processed := st.hubs_processed + 1
          scan_hub_from := sfrom'
          poitns_scanned := ps'
          heap := heap' }
  else
    { st with
        scan_hub_from := sfrom'
        poitns_scanned := ps'
        heap := heap' }

/-- Each loop iteration either advances to the next hub or strictly shrinks
the remaining bucket span. -/
theorem queryStep_measure (P : QueryIndex) (qx qy qz : ℚ) (hub : ℕ) (st : QState)
    (hlt : st.hubs_processed < P.H) :
    P.H - (queryStep P qx qy qz hub st).hubs_processed < P.H - st.hubs_processed ∨
      ((queryStep P qx qy qz hub st).hubs_processed = st.hubs_processed ∧
        (queryStep P qx qy qz hub st).scan_hub_to
            - (queryStep P qx qy qz hub st).scan_hub_from
          < st.scan_hub_to - st.scan_hub_from) := by
  unfold queryStep
  dsimp only
  by_cases hadv : st.scan_hub_to ≤ st.scan_hub_from + warp_size
  · rw [if_pos hadv]
    by_cases hlt2 : st.hubs_processed + 1 < P.H
    · rw [if_pos hlt2]
      left
      dsimp only
      omega
    · rw [if_neg hlt2]
      left
      dsimp only
      omega
  · rw [if_neg hadv]
    right
    dsimp only
    refine ⟨rfl, ?_⟩
    simp only [warp_size] at hadv ⊢
    omega

/-- The hub-traversal loop (lines 589–625): continue while hubs remain and
`sqrt(heap.warpKTop) > dist_to_this_hub − dist_to_my_hub`. -/
def queryLoop (P : QueryIndex) (rsqrt : ℚ → ℚ) (dist_to_my_hub qx qy qz : ℚ)
    (hub_containing_qp : ℕ) (st : QState) : QState :=
  if h : st.hubs_processed < P.H ∧
      st.dist_to_this_hub - dist_to_my_hub < rsqrt st.heap.warpKTop then
    queryLoop P rsqrt dist_to_my_hub qx qy qz hub_containing_qp
      (queryStep P qx qy qz hub_containing_qp st)
  else st
termination_by (P.H - st.hubs_processed, st.scan_hub_to - st.scan_hub_from)
decreasing_by
  rcases queryStep_measure P qx qy qz hub_containing_qp st h.1 with hm | hm
  · exact Prod.Lex.left _ _ hm
  · rw [hm.1]
    exact Prod.Lex.right _ hm.2

/-- The `Query` kernel for the query at sequence position
`query_sequence_id`: `none` when the guard of line 549 rejects the
position, otherwise the pair of the output offset `K * qp` (lines
632–636) and the emitted row.  The supplied query list `Qps` is a
parameter of the kernel but is never read. -/
def Query (P : QueryIndex) (rsqrt : ℚ → ℚ) (Qps : ℕ → ℕ) (K : ℕ)
    (query_sequence_id : ℕ) : Option (ℕ × List (ℚ × ℤ)) :=
  if query_sequence_id < P.Points_num then
    let qp := P.arr_idx query_sequence_id
    let hub_containing_qp := P.assignments qp
    let q := P.points qp
    let hb := P.points (P.dH hub_containing_qp)
    let dist_to_my_hub := rsqrt (l2dist q.1 q.2.1 q.2.2 hb.1 hb.2.1 hb.2.2)
    let st0 : QState := {
      current_H := hub_containing_qp
      hubs_processed := 0
      dist_to_this_hub := P.dD (hub_containing_qp * P.H + 0)
      scan_hub_from := P.dH_psum (hub_containing_qp + 0)
      scan_hub_to := P.dH_psum (hub_containing_qp + 1)
      poitns_scanned := min warp_size
        (P.dH_psum (hub_containing_qp + 1) - P.dH_psum (hub_containing_qp + 0))
      heap := WarpSelect.init K }
    let fin := queryLoop P rsqrt dist_to_my_hub q.1 q.2.1 q.2.2 hub_containing_qp st0
    some (K * qp, fin.heap.writeOut)
  else none

/-- Unfolding equation of the hub-traversal loop. -/
theorem queryLoop_eq (P : QueryIndex) (rsqrt : ℚ → ℚ) (db qx qy qz : ℚ) (hub : ℕ)
    (st : QState) :
    queryLoop P rsqrt db qx qy qz hub st
      = if st.hubs_processed < P.H ∧
            st.dist_to_this_hub - db < rsqrt st.heap.warpKTop then
          queryLoop P rsqrt db qx qy qz hub (queryStep P qx qy qz hub st)
        else st := by
  rw [queryLoop]
  rw [dite_eq_ite]

/-- Recursion principle for the traversal loop: any property holding at
every stopped state holds of the loop's result. -/
theorem queryLoop_stopped (P : QueryIndex) (rsqrt : ℚ → ℚ) (db qx qy qz : ℚ) (hub : ℕ)
    (motive : QState → Prop)
    (hstop : ∀ st, ¬(st.hubs_processed < P.H ∧
        st.dist_to_this_hub - db < rsqrt st.heap.warpKTop) → motive st) :
    ∀ st, motive (queryLoop P rsqrt db qx qy qz hub st) := by
  have main : ∀ (a b : ℕ) (st : QState), P.H - st.hubs_processed = a →
      st.scan_hub_to - st.scan_hub_from = b →
      motive (queryLoop P rsqrt db qx qy qz hub st) := by
    intro a
    induction a using Nat.strong_induction_on with
    | _ a iha =>
      intro b
      induction b using Nat.strong_induction_on with
      | _ b ihb =>
        intro st ha hb
        rw [queryLoop_eq]
        split_ifs with hg
        · rcases queryStep_measure P qx qy qz hub st hg.1 with hm | hm
          · exact iha _ (by omega) _ (queryStep P qx qy qz hub st) rfl rfl
          · exact ihb _ (by omega) (queryStep P qx qy qz hub st) (by rw [hm.1]; exact ha) rfl
        · exact hstop st hg
  intro st
  exact main _ _ st rfl rfl

/-- Invariant principle: a property preserved by every guarded iteration is
carried from the initial state to the loop's result. -/
theorem queryLoop_invariant (P : QueryIndex) (rsqrt : ℚ → ℚ) (db qx qy qz : ℚ) (hub : ℕ)
    (Inv : QState → Prop)
    (hstep : ∀ st, st.hubs_processed < P.H →
      st.dist_to_this_hub - db < rsqrt st.heap.warpKTop →
      Inv st → Inv (queryStep P qx qy qz hub st)) :
    ∀ st, Inv st → Inv (queryLoop P rsqrt db qx qy qz hub st) := by
  have main : ∀ (a b : ℕ) (st : QState), P.H - st.hubs_processed = a →
      st.scan_hub_to - st.scan_hub_from = b → Inv st →
      Inv (queryLoop P rsqrt db qx qy qz hub st) := by
    intro a
    induction a using Nat.strong_induction_on with
    | _ a iha =>
      intro b
      induction b using Nat.strong_induction_on with
      | _ b ihb =>
        intro st ha hb hInv
        rw [queryLoop_eq]
        split_ifs with hg
        · have hInv2 := hstep st hg.1 hg.2 hInv
          rcases queryStep_measure P qx qy qz hub st hg.1 with hm | hm
          · exact iha _ (by omega) _ (queryStep P qx qy qz hub st) rfl rfl hInv2
          · exact ihb _ (by omega) (queryStep P qx qy qz hub st) (by rw [hm.1]; exact ha) rfl
              hInv2
        · exact hInv
  intro st hInv
  exact main _ _ st rfl rfl hInv

/-- The hub counter never decreases across an iteration. -/
theorem queryStep_hubs_mono (P : QueryIndex) (qx qy qz : ℚ) (hub : ℕ) (st : QState) :
    st.hubs_processed ≤ (queryStep P qx qy qz hub st).hubs_processed := by
  unfold queryStep
  dsimp only
  split_ifs <;> dsimp only <;> omega

/-- Each iteration makes strict progress: afterwards either strictly more
hubs are processed, or the same hub is scanned strictly further. -/
theorem queryStep_progress (P : QueryIndex) (qx qy qz : ℚ) (hub : ℕ) (st0 st : QState)
    (h : st0.hubs_processed < st.hubs_processed ∨
      (st0.hubs_processed = st.hubs_processed ∧ st0.scan_hub_from < st.scan_hub_from)) :
    st0.hubs_processed < (queryStep P qx qy qz hub st).hubs_processed ∨
      (st0.hubs_processed = (queryStep P qx qy qz hub st).hubs_processed ∧
        st0.scan_hub_from < (queryStep P qx qy qz hub st).scan_hub_from) := by
  have hw : warp_size = 32 := rfl
  unfold queryStep
  dsimp only
  split_ifs <;> dsimp only <;> omega

/-- From a state satisfying the loop guard, the loop does not stand still:
its result differs from the state it started at. -/
theorem queryLoop_ne_of_guard (P : QueryIndex) (rsqrt : ℚ → ℚ) (db qx qy qz : ℚ) (hub : ℕ)
    (st : QState)
    (hg : st.hubs_processed < P.H ∧ st.dist_to_this_hub - db < rsqrt st.heap.warpKTop) :
    queryLoop P rsqrt db qx qy qz hub st ≠ st := by
  have h1 : queryLoop P rsqrt db qx qy qz hub st
      = queryLoop P rsqrt db qx qy qz hub (queryStep P qx qy qz hub st) := by
    rw [queryLoop_eq, if_pos hg]
  have hbase : st.hubs_processed < (queryStep P qx qy qz hub st).hubs_processed ∨
      (st.hubs_processed = (queryStep P qx qy qz hub st).hubs_processed ∧
        st.scan_hub_from < (queryStep P qx qy qz hub st).scan_hub_from) := by
    have hw : warp_size = 32 := rfl
    unfold queryStep
    dsimp only
    split_ifs <;> dsimp only <;> omega
  have hres := queryLoop_invariant P rsqrt db qx qy qz hub
    (fun s => st.hubs_processed < s.hubs_processed ∨
      (st.hubs_processed = s.hubs_processed ∧ st.scan_hub_from < s.scan_hub_from))
    (fun s _ _ hs => queryStep_progress P qx qy qz hub st s hs)
    (queryStep P qx qy qz hub st) hbase
  rw [h1]
  intro heq
  rw [heq] at hres
  rcases hres with h | h
  · omega
  · omega

/-! ### Theorems for C3 -/

/-- The hub-traversal loop as the spec's early-termination sentence
literally reads for claim C3: stop as soon as the square root of the
collector's worst retained distance EXCEEDS the bound difference, and
otherwise continue until all `H` hubs are exhausted. -/
def queryLoopSpec (P : QueryIndex) (rsqrt : ℚ → ℚ) (dist_to_my_hub qx qy qz : ℚ)
    (hub_containing_qp : ℕ) (st : QState) : QState :=
  if h : st.hubs_processed < P.H ∧
      ¬(st.dist_to_this_hub - dist_to_my_hub < rsqrt st.heap.warpKTop) then
    queryLoopSpec P rsqrt dist_to_my_hub qx qy qz hub_containing_qp
      (queryStep P qx qy qz hub_containing_qp st)
  else st
termination_by (P.H - st.hubs_processed, st.scan_hub_to - st.scan_hub_from)
decreasing_by
  rcases queryStep_measure P qx qy qz hub_containing_qp st h.1 with hm | hm
  · exact Prod.Lex.left _ _ hm
  · rw [hm.1]
    exact Prod.Lex.right _ hm.2

/-- C3 amended: the traversal loop continues exactly while hubs remain and
`sqrt(collector worst) > (ranked-hub lower bound) − (distance to own hub)`
— the opposite comparison direction from the claim's sentence: it stands
still exactly at the states violating that guard, and its final state has
either exhausted all `H` hubs or reached
`sqrt(worst) ≤ bound − own-hub distance`. -/
theorem query_loop_stop_characterization (P : QueryIndex) (rsqrt : ℚ → ℚ)
    (db qx qy qz : ℚ) (hub : ℕ) (st : QState) :
    (queryLoop P rsqrt db qx qy qz hub st = st ↔
      ¬(st.hubs_processed < P.H ∧ st.dist_to_this_hub - db < rsqrt st.heap.warpKTop)) ∧
      (P.H ≤ (queryLoop P rsqrt db qx qy qz hub st).hubs_processed ∨
        rsqrt (queryLoop P rsqrt db qx qy qz hub st).heap.warpKTop
          ≤ (queryLoop P rsqrt db qx qy qz hub st).dist_to_this_hub - db) := by
  constructor
  · constructor
    · intro heq
      by_contra hg
      exact queryLoop_ne_of_guard P rsqrt db qx qy qz hub st hg heq
    · intro hg
      rw [queryLoop_eq, if_neg hg]
  · refine queryLoop_stopped P rsqrt db qx qy qz hub
      (fun s => P.H ≤ s.hubs_processed ∨
        rsqrt s.heap.warpKTop ≤ s.dist_to_this_hub - db) ?_ st
    intro s hs
    rcases not_and_or.mp hs with h | h
    · exact Or.inl (not_lt.mp h)
    · exact Or.inr (not_lt.mp h)

/-- A one-point index used to exercise the query loop: one point at the
origin, in hub 0, all other hubs empty. -/
def Pex3 : QueryIndex :=
  { H := 32, Points_num := 1, points := fun _ => (0, 0, 0), dH := fun _ => 0,
    arr_idx := fun _ => 0, arr_x := fun _ => 0, arr_y := fun _ => 0, arr_z := fun _ => 0,
    iD := fun _ => 0, dD := fun _ => 0,
    dH_psum := fun i => if i = 0 then 0 else 1, assignments := fun _ => 0 }

/-- The canonical initial loop state of `Query` on `Pex3` at sequence
position 0 (lines 554–587). -/
def st3 : QState :=
  { current_H := 0, hubs_processed := 0, dist_to_this_hub := 0,
    scan_hub_from := 0, scan_hub_to := 1, poitns_scanned := 1,
    heap := WarpSelect.init 1 }

/-- The integer square root of `FLT_MAX` is positive. -/
theorem qsqrt_FLT_MAX_pos : (0:ℚ) < qsqrt FLT_MAX_Q := by
  have hge : (1:ℕ) ≤ ⌊FLT_MAX_Q⌋₊ := Nat.le_floor (by norm_num [FLT_MAX_Q])
  have hpos : 0 < Nat.sqrt ⌊FLT_MAX_Q⌋₊ := Nat.sqrt_pos.mpr (by omega)
  unfold qsqrt
  exact_mod_cast hpos

/-- C3 counterexample: at the canonical initial state of a fresh query the
square root of the collector's worst retained distance (`FLT_MAX`) already
exceeds the bound difference, so the loop as the claim words it would stop
at once and scan nothing; the kernel's loop instead proceeds and processes
hubs. -/
theorem query_early_term_counterexample :
    queryLoopSpec Pex3 qsqrt 0 0 0 0 0 st3 = st3 ∧
      st3.hubs_processed = 0 ∧
      1 ≤ (queryLoop Pex3 qsqrt 0 0 0 0 0 st3).hubs_processed := by
  have hwk : st3.heap.warpKTop = FLT_MAX_Q := rfl
  have hdist : st3.dist_to_this_hub = 0 := rfl
  have hgt : st3.dist_to_this_hub - 0 < qsqrt st3.heap.warpKTop := by
    rw [hwk, hdist]
    simpa using qsqrt_FLT_MAX_pos
  refine ⟨?_, rfl, ?_⟩
  · rw [queryLoopSpec]
    rw [dif_neg]
    intro hg
    exact hg.2 hgt
  · have h1 : queryLoop Pex3 qsqrt 0 0 0 0 0 st3
        = queryLoop Pex3 qsqrt 0 0 0 0 0 (queryStep Pex3 0 0 0 0 st3) := by
      rw [queryLoop_eq, if_pos ⟨by norm_num [Pex3, st3], hgt⟩]
    have h2 : (queryStep Pex3 0 0 0 0 st3).hubs_processed = 1 := rfl
    have h3 := queryLoop_invariant Pex3 qsqrt 0 0 0 0 0
      (fun s => 1 ≤ s.hubs_processed)
      (fun s _ _ hs => le_trans hs (queryStep_hubs_mono Pex3 0 0 0 0 s))
      (queryStep Pex3 0 0 0 0 st3) (by show 1 ≤ (queryStep Pex3 0 0 0 0 st3).hubs_processed; rw [h2])
    rw [h1]
    exact h3

/-! ### Theorems for C1 -/

/-- Batched insertion keeps the collector at exactly `K` retained pairs. -/
theorem WarpSelect_add_length (h : WarpSelect) (batch : List (ℚ × ℤ))
    (hl : h.K ≤ h.elems.length) :
    (h.add batch).elems.length = h.K := by
  unfold WarpSelect.add
  dsimp only
  rw [List.length_take, List.length_mergeSort, List.length_append]
  omega

/-- Through the whole traversal the collector keeps its bound and exactly
`K` retained pairs. -/
theorem queryLoop_heap_length (P : QueryIndex) (rsqrt : ℚ → ℚ) (db qx qy qz : ℚ)
    (hub : ℕ) (K : ℕ) (st : QState)
    (hK : st.heap.K = K) (hlen : st.heap.elems.length = K) :
    (queryLoop P rsqrt db qx qy qz hub st).heap.K = K ∧
      (queryLoop P rsqrt db qx qy qz hub st).heap.elems.length = K := by
  refine queryLoop_invariant P rsqrt db qx qy qz hub
    (fun s => s.heap.K = K ∧ s.heap.elems.length = K) ?_ st ⟨hK, hlen⟩
  intro s _ _ hs
  have hstep : (queryStep P qx qy qz hub s).heap
      = s.heap.add (queryBatch P qx qy qz s.scan_hub_from s.scan_hub_to) := by
    unfold queryStep
    dsimp only
    split_ifs <;> rfl
  rw [hstep]
  exact ⟨hs.1, by rw [WarpSelect_add_length _ _ (by omega)]; exact hs.1⟩

/-- A two-point index whose bucketed order swaps the two points. -/
def Pex1 : QueryIndex :=
  { H := 32, Points_num := 2, points := fun _ => (0, 0, 0), dH := fun _ => 0,
    arr_idx := fun i => 1 - i, arr_x := fun _ => 0, arr_y := fun _ => 0, arr_z := fun _ => 0,
    iD := fun _ => 0, dD := fun _ => 0, dH_psum := fun _ => 0, assignments := fun _ => 0 }

/-- C1 counterexample: with bucketed identifiers `arr_idx = [1, 0, …]` and
the supplied query list naming point 0, the query at sequence position 0
writes its row at offset `K * 1`, not into row 0's slots `[0, K)`; and the
kernel's entire output is unchanged under a completely different query
list, because the list is never read. -/
theorem query_output_row_counterexample :
    ((Query Pex1 qsqrt (fun _ => 0) 1 0).map Prod.fst = some 1 ∧ (1:ℕ) ≠ 1 * 0) ∧
      Query Pex1 qsqrt (fun _ => 0) 1 0 = Query Pex1 qsqrt (fun _ => 17) 1 0 := by
  exact ⟨⟨rfl, by norm_num⟩, rfl⟩

/-- C1 amended: for every sequence position `q` below `Points_num` (the
stage is launched over all `n` bucketed positions; the `q` query-count
argument of `C_and_Q` is unused), `Query` processes the bucketed point
`arr_idx[q]` — the supplied query identifier list is never read, so the
output is independent of it — and writes that point's `K` result pairs
into slots `[K * arr_idx[q], K * (arr_idx[q] + 1))` of the row-major
output arrays; positions at or beyond `Points_num` write nothing. -/
theorem query_row_placement (P : QueryIndex) (rsqrt : ℚ → ℚ) (Qps Qps' : ℕ → ℕ)
    (K q : ℕ) :
    (q < P.Points_num → ∃ row, Query P rsqrt Qps K q = some (K * P.arr_idx q, row) ∧
        row.length = K) ∧
      (P.Points_num ≤ q → Query P rsqrt Qps K q = none) ∧
      Query P rsqrt Qps K q = Query P rsqrt Qps' K q := by
  refine ⟨?_, ?_, rfl⟩
  · intro hq
    unfold Query
    rw [if_pos hq]
    refine ⟨_, rfl, ?_⟩
    have hinit : (WarpSelect.init K).K = K ∧ (WarpSelect.init K).elems.length = K :=
      ⟨rfl, by simp [WarpSelect.init]⟩
    have := queryLoop_heap_length P rsqrt
      (rsqrt (l2dist (P.points (P.arr_idx q)).1 (P.points (P.arr_idx q)).2.1
        (P.points (P.arr_idx q)).2.2 (P.points (P.dH (P.assignments (P.arr_idx q)))).1
        (P.points (P.dH (P.assignments (P.arr_idx q)))).2.1
        (P.points (P.dH (P.assignments (P.arr_idx q)))).2.2))
      (P.points (P.arr_idx q)).1 (P.points (P.arr_idx q)).2.1 (P.points (P.arr_idx q)).2.2
      (P.assignments (P.arr_idx q)) K
      { current_H := P.assignments (P.arr_idx q)
        hubs_processed := 0
        dist_to_this_hub := P.dD (P.assignments (P.arr_idx q) * P.H + 0)
        scan_hub_from := P.dH_psum (P.assignments (P.arr_idx q) + 0)
        scan_hub_to := P.dH_psum (P.assignments (P.arr_idx q) + 1)
        poitns_scanned := min warp_size
          (P.dH_psum (P.assignments (P.arr_idx q) + 1)
            - P.dH_psum (P.assignments (P.arr_idx q) + 0))
        heap := WarpSelect.init K }
      hinit.1 hinit.2
    exact this.2
  · intro hq
    unfold Query
    rw [if_neg (by omega)]

/-- Witness for C1's amended theorem on the two-point index at sequence
position 0 with `K = 1`. -/
theorem query_row_placement_witness :
    (0 < Pex1.Points_num) ∧
      (∃ row, Query Pex1 qsqrt (fun _ => 0) 1 0 = some (1 * Pex1.arr_idx 0, row) ∧
        row.length = 1) :=
  ⟨by norm_num [Pex1],
    (query_row_placement Pex1 qsqrt (fun _ => 0) (fun _ => 5) 1 0).1 (by norm_num [Pex1])⟩

/-! ### Theorems for C10 -/

/-- `Calculate_Distances` (lines 51–86): the stored distance-table entry
`distances[h * b_size + idx_within_b]` for point `idx` and hub `h` is the
square-rooted squared distance (lines 74–75). -/
def Calculate_Distances_entry (rsqrt : ℚ → ℚ) (points : ℕ → ℚ × ℚ × ℚ) (dH : ℕ → ℕ)
    (idx h : ℕ) : ℚ :=
  rsqrt (l2dist (points idx).1 (points idx).2.1 (points idx).2.2
    (points (dH h)).1 (points (dH h)).2.1 (points (dH h)).2.2)

/-- A fold preserves any predicate its steps preserve. -/
theorem foldl_pred {α σ : Type} (f : σ → α → σ) (Pred : σ → Prop)
    (hstep : ∀ s a, Pred s → Pred (f s a)) :
    ∀ (l : List α) (s : σ), Pred s → Pred (List.foldl f s l) := by
  intro l
  induction l with
  | nil => intro s hs; exact hs
  | cons a t ih => intro s hs; exact ih (f s a) (hstep s a hs)

/-- Every cell of the constructed lower-bound matrix is the untouched
`FLT_MAX` initialisation, the untouched shared-row sentinel, or one of the
stored distances of a point to hub `i`. -/
theorem Construct_D_values (n b_size : ℕ) (pdist : ℕ → ℕ → ℚ) (assign : ℕ → ℕ) (i j : ℕ) :
    Construct_D_pipeline n b_size pdist assign i j = FLT_MAX_Q ∨
      Construct_D_pipeline n b_size pdist assign i j = D_SENT ∨
      ∃ p, p < n ∧ Construct_D_pipeline n b_size pdist assign i j = pdist p i := by
  have hsmem : ∀ b, Construct_D_smem i b b_size n pdist assign j = D_SENT ∨
      ∃ p, p < n ∧ Construct_D_smem i b b_size n pdist assign j = pdist p i := by
    intro b
    unfold Construct_D_smem
    refine foldl_pred _
      (fun s : ℕ → ℚ => s j = D_SENT ∨ ∃ p, p < n ∧ s j = pdist p i) ?_ _ _ (Or.inl rfl)
    intro s a hs
    dsimp only
    split_ifs with hlt
    · rcases eq_or_ne (assign (b * b_size + a)) j with he | he
      · rw [he, Function.update_same]
        rcases min_choice (s j) (pdist (b * b_size + a) i) with hm | hm
        · rw [hm]
          exact hs
        · rw [hm]
          exact Or.inr ⟨b * b_size + a, hlt, rfl⟩
      · rw [Function.update_noteq (Ne.symm he)]
        exact hs
    · exact hs
  unfold Construct_D_pipeline
  refine foldl_pred _
    (fun D : ℕ → ℕ → ℚ => D i j = FLT_MAX_Q ∨ D i j = D_SENT ∨
      ∃ p, p < n ∧ D i j = pdist p i) ?_ _ _ (Or.inl rfl)
  intro D b hD
  have hbatch : Construct_D_batch b b_size n pdist assign D i j
      = min (Construct_D_smem i b b_size n pdist assign j) (D i j) := rfl
  rw [hbatch]
  rcases min_choice (Construct_D_smem i b b_size n pdist assign j) (D i j) with hm | hm
  · rw [hm]
    rcases hsmem b with h | h
    · exact Or.inr (Or.inl h)
    · exact Or.inr (Or.inr h)
  · rw [hm]
    exact hD

/-- Every pair the batches feed to the collector is a sentinel or a raw
squared distance of a bucketed point; so is therefore every retained pair. -/
theorem queryLoop_heap_contents (P : QueryIndex) (rsqrt : ℚ → ℚ) (db qx qy qz : ℚ)
    (hub : ℕ) (st : QState)
    (hst : ∀ e ∈ st.heap.elems, e = (FLT_MAX_Q, -1) ∨ e = (FLT_MAX_Q, (P.Points_num : ℤ)) ∨
      ∃ loc, e = (l2dist qx qy qz (P.arr_x loc) (P.arr_y loc) (P.arr_z loc),
        (P.arr_idx loc : ℤ))) :
    ∀ e ∈ (queryLoop P rsqrt db qx qy qz hub st).heap.elems,
      e = (FLT_MAX_Q, -1) ∨ e = (FLT_MAX_Q, (P.Points_num : ℤ)) ∨
      ∃ loc, e = (l2dist qx qy qz (P.arr_x loc) (P.arr_y loc) (P.arr_z loc),
        (P.arr_idx loc : ℤ)) := by
  refine queryLoop_invariant P rsqrt db qx qy qz hub
    (fun s => ∀ e ∈ s.heap.elems, e = (FLT_MAX_Q, -1) ∨
      e = (FLT_MAX_Q, (P.Points_num : ℤ)) ∨
      ∃ loc, e = (l2dist qx qy qz (P.arr_x loc) (P.arr_y loc) (P.arr_z loc),
        (P.arr_idx loc : ℤ))) ?_ st hst
  intro s _ _ hs e he
  have hstep : (queryStep P qx qy qz hub s).heap
      = s.heap.add (queryBatch P qx qy qz s.scan_hub_from s.scan_hub_to) := by
    unfold queryStep
    dsimp only
    split_ifs <;> rfl
  rw [hstep] at he
  unfold WarpSelect.add at he
  dsimp only at he
  have he2 := List.mem_mergeSort.mp (List.mem_of_mem_take he)
  rcases List.mem_append.mp he2 with hmem | hmem
  · exact hs e hmem
  · unfold queryBatch at hmem
    obtain ⟨lane, _, heq⟩ := List.mem_map.mp hmem
    by_cases hin : s.scan_hub_from + lane < s.scan_hub_to
    · rw [if_pos hin] at heq
      exact Or.inr (Or.inr ⟨s.scan_hub_from + lane, heq.symm⟩)
    · rw [if_neg hin] at heq
      exact Or.inr (Or.inl heq.symm)

/-- C10: the values the query stage hands to the top-K collector — and
hence every entry of the emitted result rows — are raw squared distances
`l2dist` of bucketed points to the query (or untouched sentinels), with no
square root applied; the point-to-hub table entry written by
`Calculate_Distances` is the square-rooted `l2dist`; and every finite cell
of the hub lower-bound matrix built from that table is one of those
square-rooted values (or an untouched sentinel).  The traversal guard's
comparison of `rsqrt` of the collector's worst value against the unsquared
bounds is claim C3's theorem. -/
theorem squared_vs_rooted_distances (P : QueryIndex) (rsqrt : ℚ → ℚ) (Qps : ℕ → ℕ)
    (K q base : ℕ) (row : List (ℚ × ℤ))
    (hrun : Query P rsqrt Qps K q = some (base, row)) :
    (∀ e ∈ row, e = (FLT_MAX_Q, -1) ∨ e = (FLT_MAX_Q, (P.Points_num : ℤ)) ∨
      ∃ loc, e = (l2dist (P.points (P.arr_idx q)).1 (P.points (P.arr_idx q)).2.1
          (P.points (P.arr_idx q)).2.2 (P.arr_x loc) (P.arr_y loc) (P.arr_z loc),
        (P.arr_idx loc : ℤ))) ∧
      (∀ (points : ℕ → ℚ × ℚ × ℚ) (dH : ℕ → ℕ) (idx h : ℕ),
        Calculate_Distances_entry rsqrt points dH idx h
          = rsqrt (l2dist (points idx).1 (points idx).2.1 (points idx).2.2
              (points (dH h)).1 (points (dH h)).2.1 (points (dH h)).2.2)) ∧
      (∀ (n b_size : ℕ) (points : ℕ → ℚ × ℚ × ℚ) (dH assign : ℕ → ℕ) (i j : ℕ),
        Construct_D_pipeline n b_size
            (fun p hh => Calculate_Distances_entry rsqrt points dH p hh) assign i j
          = FLT_MAX_Q ∨
        Construct_D_pipeline n b_size
            (fun p hh => Calculate_Distances_entry rsqrt points dH p hh) assign i j
          = D_SENT ∨
        ∃ p, p < n ∧ Construct_D_pipeline n b_size
            (fun p2 hh => Calculate_Distances_entry rsqrt points dH p2 hh) assign i j
          = rsqrt (l2dist (points p).1 (points p).2.1 (points p).2.2
              (points (dH i)).1 (points (dH i)).2.1 (points (dH i)).2.2)) := by
  refine ⟨?_, fun points dH idx h => rfl, fun n b_size points dH assign i j =>
    Construct_D_values n b_size
      (fun p hh => Calculate_Distances_entry rsqrt points dH p hh) assign i j⟩
  unfold Query at hrun
  split_ifs at hrun with hq
  · rw [Option.some.injEq, Prod.mk.injEq] at hrun
    have hrow : row = (queryLoop P rsqrt
        (rsqrt (l2dist (P.points (P.arr_idx q)).1 (P.points (P.arr_idx q)).2.1
          (P.points (P.arr_idx q)).2.2 (P.points (P.dH (P.assignments (P.arr_idx q)))).1
          (P.points (P.dH (P.assignments (P.arr_idx q)))).2.1
          (P.points (P.dH (P.assignments (P.arr_idx q)))).2.2))
        (P.points (P.arr_idx q)).1 (P.points (P.arr_idx q)).2.1 (P.points (P.arr_idx q)).2.2
        (P.assignments (P.arr_idx q))
        { current_H := P.assignments (P.arr_idx q)
          hubs_processed := 0
          dist_to_this_hub := P.dD (P.assignments (P.arr_idx q) * P.H + 0)
          scan_hub_from := P.dH_psum (P.assignments (P.arr_idx q) + 0)
          scan_hub_to := P.dH_psum (P.assignments (P.arr_idx q) + 1)
          poitns_scanned := min warp_size
            (P.dH_psum (P.assignments (P.arr_idx q) + 1)
              - P.dH_psum (P.assignments (P.arr_idx q) + 0))
          heap := WarpSelect.init K }).heap.writeOut := by
      rw [← hrun.2]
    rw [hrow]
    refine queryLoop_heap_contents P rsqrt _ _ _ _ _ _ ?_
    intro e he
    rw [WarpSelect.init] at he
    dsimp only at he
    rw [List.eq_of_mem_replicate he]
    exact Or.inl rfl

/-- A one-point index whose ranked-hub bounds are so large that the
traversal stops before scanning: used to witness C10. -/
def Pex10 : QueryIndex :=
  { H := 32, Points_num := 1, points := fun _ => (0, 0, 0), dH := fun _ => 0,
    arr_idx := fun _ => 0, arr_x := fun _ => 0, arr_y := fun _ => 0, arr_z := fun _ => 0,
    iD := fun _ => 0, dD := fun _ => FLT_MAX_Q,
    dH_psum := fun i => if i = 0 then 0 else 1, assignments := fun _ => 0 }

/-- The integer square root never exceeds its argument on the integers. -/
theorem qsqrt_FLT_MAX_le : qsqrt FLT_MAX_Q ≤ FLT_MAX_Q := by
  unfold qsqrt
  have h1 : Nat.sqrt ⌊FLT_MAX_Q⌋₊ ≤ ⌊FLT_MAX_Q⌋₊ := Nat.sqrt_le_self _
  have h2 : (⌊FLT_MAX_Q⌋₊ : ℚ) ≤ FLT_MAX_Q := Nat.floor_le (by norm_num [FLT_MAX_Q])
  calc ((Nat.sqrt ⌊FLT_MAX_Q⌋₊ : ℕ) : ℚ) ≤ ((⌊FLT_MAX_Q⌋₊ : ℕ) : ℚ) := by exact_mod_cast h1
    _ ≤ FLT_MAX_Q := h2

/-- On `Pex10` the query at position 0 terminates immediately and emits the
untouched sentinel row. -/
theorem Pex10_query_run :
    Query Pex10 qsqrt (fun _ => 0) 1 0 = some (0, [(FLT_MAX_Q, -1)]) := by
  have hl2 : l2dist 0 0 0 0 0 0 = 0 := by norm_num [l2dist]
  have hq0 : qsqrt (0:ℚ) = 0 := by norm_num [qsqrt]
  unfold Query
  rw [if_pos (by norm_num [Pex10] : (0:ℕ) < Pex10.Points_num)]
  dsimp only [Pex10]
  rw [queryLoop_eq, if_neg ?hg]
  case hg =>
    dsimp only
    intro hg
    have h2 := hg.2
    rw [hl2, hq0] at h2
    have hwk : (WarpSelect.init 1).warpKTop = FLT_MAX_Q := rfl
    rw [hwk] at h2
    have := qsqrt_FLT_MAX_le
    linarith
  rfl

/-- Witness for C10 at the immediate-termination instance. -/
theorem squared_vs_rooted_distances_witness :
    Query Pex10 qsqrt (fun _ => 0) 1 0 = some (0, [(FLT_MAX_Q, -1)]) ∧
      ((∀ e ∈ [((FLT_MAX_Q : ℚ), (-1 : ℤ))], e = (FLT_MAX_Q, -1) ∨
        e = (FLT_MAX_Q, (Pex10.Points_num : ℤ)) ∨
        ∃ loc, e = (l2dist (Pex10.points (Pex10.arr_idx 0)).1
            (Pex10.points (Pex10.arr_idx 0)).2.1 (Pex10.points (Pex10.arr_idx 0)).2.2
            (Pex10.arr_x loc) (Pex10.arr_y loc) (Pex10.arr_z loc),
          (Pex10.arr_idx loc : ℤ))) ∧
      (∀ (points : ℕ → ℚ × ℚ × ℚ) (dH : ℕ → ℕ) (idx h : ℕ),
        Calculate_Distances_entry qsqrt points dH idx h
          = qsqrt (l2dist (points idx).1 (points idx).2.1 (points idx).2.2
              (points (dH h)).1 (points (dH h)).2.1 (points (dH h)).2.2)) ∧
      (∀ (n b_size : ℕ) (points : ℕ → ℚ × ℚ × ℚ) (dH assign : ℕ → ℕ) (i j : ℕ),
        Construct_D_pipeline n b_size
            (fun p hh => Calculate_Distances_entry qsqrt points dH p hh) assign i j
          = FLT_MAX_Q ∨
        Construct_D_pipeline n b_size
            (fun p hh => Calculate_Distances_entry qsqrt points dH p hh) assign i j
          = D_SENT ∨
        ∃ p, p < n ∧ Construct_D_pipeline n b_size
            (fun p2 hh => Calculate_Distances_entry qsqrt points dH p2 hh) assign i j
          = qsqrt (l2dist (points p).1 (points p).2.1 (points p).2.2
              (points (dH i)).1 (points (dH i)).2.1 (points (dH i)).2.2))) :=
  ⟨Pex10_query_run,
    squared_vs_rooted_distances Pex10 qsqrt (fun _ => 0) 1 0 0 [(FLT_MAX_Q, -1)]
      Pex10_query_run⟩

/-! ### C6 : `fused_transform_sort_D` (bitonic-hubs-ws.cuh lines 429-536)

Each block sorts one row of the `H × H` lower-bound matrix `D`.  Positions
`g = r * 1024 + warp_id * 32 + lane_id` hold register pairs `(dist, hub)`;
the kernel first sorts each 32-lane warp run (ascending for even warps),
then for `coop = 64, 128, ..., H` performs compare-exchange steps with
partner `g ^^^ stride` for `stride = coop/2, ..., 32` (lines 499-510) and
finishes each `coop` stage with per-warp sorts directed by `g &&& coop`
(lines 516-524).  `H` is the template power of two, modelled as `2 ^ e`. -/

/-- Modelled from the spec: `bitonic::sort<Ascending, 1>` (bitonic-shared.cuh,
outside src/) sorts the 32 values held by a warp by distance, ascending when
the template flag is true.  `keyLe` is the comparison it uses, generalized
over the sort key (`Prod.fst` for the kernel's (dist, hub) registers). -/
def keyLe {α : Type} (key : α → ℚ) (asc : Bool) (a b : α) : Bool :=
  if asc then decide (key a ≤ key b) else decide (key b ≤ key a)

/-- Modelled from the spec: a directional warp-level sort as a stable sort
by the key, ascending or descending. -/
def keyMergeSort {α : Type} (key : α → ℚ) (asc : Bool) (l : List α) : List α :=
  l.mergeSort (keyLe key asc)

/-- The values stored at positions `[B, B+t)`. -/
def blockList {α : Type} (v : ℕ → α) (B t : ℕ) : List α :=
  (List.range t).map (fun off => v (B + off))

/-- One directional warp sort applied to the run `[B, B+t)` of the row. -/
def warpSortRun {α : Type} (key : α → ℚ) (asc : Bool) (t B : ℕ) (v : ℕ → α) : ℕ → α :=
  fun g =>
  if B ≤ g ∧ g < B + t then (keyMergeSort key asc (blockList v B t)).getD (g - B) (v g)
  else v g

/-- Lines 479-513: one shared-memory compare-exchange step.  Position `g`
pairs with `g ^^^ stride` and adopts the partner's registers under exactly
the four-way condition of lines 503-506, with ascending direction iff
`g &&& coop == 0`. -/
def ceStep {α : Type} (key : α → ℚ) (coop stride : ℕ) (v : ℕ → α) : ℕ → α :=
  fun g =>
  let p := g ^^^ stride
  if (g < p ∧ g &&& coop = 0 ∧ key (v p) < key (v g))
   ∨ (p < g ∧ g &&& coop ≠ 0 ∧ key (v p) < key (v g))
   ∨ (g < p ∧ g &&& coop ≠ 0 ∧ key (v g) < key (v p))
   ∨ (p < g ∧ g &&& coop = 0 ∧ key (v g) < key (v p))
  then v p else v g

/-- A pass of directional warp sorts over the `q` runs `[32u, 32u+32)`,
with the direction of run `u` given by `dir u`. -/
def sortFold {α : Type} (key : α → ℚ) (dir : ℕ → Bool) (q : ℕ) (v : ℕ → α) : ℕ → α :=
  (List.range q).foldl (fun w u => warpSortRun key (dir u) 32 (32 * u) w) v

/-- Line 477: the shared-memory strides `coop/2, coop/4, ..., 32` of the
`coop = 2^j` stage, applied in order. -/
def mergeStrides {α : Type} (key : α → ℚ) (j : ℕ) (v : ℕ → α) : ℕ → α :=
  (List.range (j - 5)).foldl (fun w i => ceStep key (2 ^ j) (2 ^ (j - 1 - i)) w) v

/-- Lines 474-526: one `coop = 2^j` merge stage — the shared-memory strides
followed by the per-warp directional sorts of lines 516-524 (`H = 2^e`). -/
def mergeStage {α : Type} (key : α → ℚ) (e j : ℕ) (v : ℕ → α) : ℕ → α :=
  sortFold key (fun u => decide (32 * u &&& 2 ^ j = 0)) (2 ^ e / 32) (mergeStrides key j v)

/-- The whole sorting network of `fused_transform_sort_D`: the alternating
warp sorts of lines 464-471 followed by the merge stages `coop = 64 .. 2^e`
of lines 474-526. -/
def sortNetwork {α : Type} (key : α → ℚ) (e : ℕ) (v : ℕ → α) : ℕ → α :=
  (List.range (e - 5)).foldl (fun w i => mergeStage key e (6 + i) w)
    (sortFold key (fun u => decide (u % 2 = 0)) (2 ^ e / 32) v)

/-- `fused_transform_sort_D` on one row: position `g` starts with the pair
`(D[H*hub_id + g], g)` (lines 451-458) and the network sorts the pairs by
distance; row `hub_id` of `sorted_hub_ids` / `sorted_hub_dist` reads off the
final pairs (lines 530-534).  `Drow g = D[H * hub_id + g]`. -/
def fused_transform_sort_D (e : ℕ) (Drow : ℕ → ℚ) : ℕ → ℚ × ℕ :=
  sortNetwork Prod.fst e (fun g => (Drow g, g))

/-! #### Bit-arithmetic toolkit -/

/-- Bits of `a * 2^k + b` with `b < 2^k`: low bits come from `b`, high bits
from `a`. -/
theorem testBit_mul_pow_add (k a b i : ℕ) (hb : b < 2 ^ k) :
    (a * 2 ^ k + b).testBit i = if i < k then b.testBit i else a.testBit (i - k) := by
  by_cases h : i < k
  · rw [if_pos h, Nat.testBit_to_div_mod, Nat.testBit_to_div_mod]
    suffices hs : (a * 2 ^ k + b) / 2 ^ i % 2 = b / 2 ^ i % 2 by rw [hs]
    have hk : (2:ℕ) ^ k = 2 ^ (k - i) * 2 ^ i := by
      rw [← pow_add]
      congr 1
      omega
    have h1 : a * 2 ^ k + b = b + a * 2 ^ (k - i) * 2 ^ i := by rw [hk]; ring
    rw [h1, Nat.add_mul_div_right _ _ (Nat.two_pow_pos i)]
    have h2 : a * 2 ^ (k - i) = a * 2 ^ (k - i - 1) * 2 := by
      rw [mul_assoc, ← pow_succ]
      congr 2
      omega
    rw [h2, Nat.add_mul_mod_self_right]
  · rw [if_neg h, Nat.testBit_to_div_mod, Nat.testBit_to_div_mod]
    suffices hs : (a * 2 ^ k + b) / 2 ^ i = a / 2 ^ (i - k) by rw [hs]
    have hk : (2:ℕ) ^ i = 2 ^ k * 2 ^ (i - k) := by
      rw [← pow_add]
      congr 1
      omega
    rw [hk, ← Nat.div_div_eq_div_mul]
    congr 1
    rw [add_comm, Nat.add_mul_div_right _ _ (Nat.two_pow_pos k), Nat.div_eq_of_lt hb, zero_add]

/-- XOR with `2^p` sets a clear bit: adds `2^p`. -/
theorem xor_two_pow_add (p b off : ℕ) (hoff : off < 2 ^ p) :
    (b * 2 ^ (p + 1) + off) ^^^ 2 ^ p = b * 2 ^ (p + 1) + off + 2 ^ p := by
  have h2p : (2:ℕ) ^ (p + 1) = 2 ^ p * 2 := pow_succ 2 p
  have hoff2 : off < 2 ^ (p + 1) := by omega
  have hoffp : off + 2 ^ p < 2 ^ (p + 1) := by omega
  have hsum : off + 2 ^ p = 1 * 2 ^ p + off := by omega
  apply Nat.eq_of_testBit_eq
  intro i
  rw [Nat.testBit_xor, add_assoc, testBit_mul_pow_add _ _ _ _ hoff2,
    testBit_mul_pow_add _ _ _ _ hoffp]
  rcases lt_trichotomy i p with hi | hi | hi
  · rw [if_pos (by omega), if_pos (by omega), Nat.testBit_two_pow_of_ne (by omega : p ≠ i),
      hsum, testBit_mul_pow_add _ _ _ _ hoff, if_pos hi, Bool.xor_false]
  · subst hi
    rw [if_pos (by omega), if_pos (by omega), Nat.testBit_two_pow_self, hsum,
      testBit_mul_pow_add _ _ _ _ hoff, if_neg (lt_irrefl i), Nat.sub_self]
    have hoffbit : off.testBit i = false := by
      rw [Nat.testBit_to_div_mod, Nat.div_eq_of_lt hoff]
      norm_num
    rw [hoffbit]
    rfl
  · rw [if_neg (by omega), if_neg (by omega), Nat.testBit_two_pow_of_ne (by omega : p ≠ i),
      Bool.xor_false]

/-- XOR with `2^p` clears a set bit: subtracts `2^p`. -/
theorem xor_two_pow_sub (p b off : ℕ) (hoff : off < 2 ^ p) :
    (b * 2 ^ (p + 1) + off + 2 ^ p) ^^^ 2 ^ p = b * 2 ^ (p + 1) + off := by
  have h := xor_two_pow_add p b off hoff
  calc (b * 2 ^ (p + 1) + off + 2 ^ p) ^^^ 2 ^ p
      = ((b * 2 ^ (p + 1) + off) ^^^ 2 ^ p) ^^^ 2 ^ p := by rw [h]
    _ = b * 2 ^ (p + 1) + off := Nat.xor_cancel_right _ _

/-- The `coop` direction bit of lines 503-506 reads the parity of the
`coop`-aligned block index. -/
theorem and_pow_parity (k a off : ℕ) (hoff : off < 2 ^ k) :
    (a * 2 ^ k + off) &&& 2 ^ k = 0 ↔ a % 2 = 0 := by
  rw [Nat.and_two_pow, testBit_mul_pow_add _ _ _ _ hoff, if_neg (lt_irrefl k), Nat.sub_self]
  have h2 : (0:ℕ) < 2 ^ k := Nat.two_pow_pos k
  rw [Nat.testBit_to_div_mod, pow_zero, Nat.div_one]
  rcases Nat.mod_two_eq_zero_or_one a with h | h <;> simp [h]

/-- XOR with a stride below the `coop` bit leaves the `coop` bit unchanged. -/
theorem and_xor_two_pow (g i j : ℕ) (hij : i ≠ j) :
    (g ^^^ 2 ^ i) &&& 2 ^ j = g &&& 2 ^ j := by
  rw [Nat.and_two_pow, Nat.and_two_pow, Nat.testBit_xor, Nat.testBit_two_pow_of_ne hij,
    Bool.xor_false]

/-- XOR with an in-range power of two stays in range. -/
theorem xor_lt_pow (i e g : ℕ) (hie : i < e) (hg : g < 2 ^ e) : g ^^^ 2 ^ i < 2 ^ e := by
  have hdm := Nat.div_add_mod g (2 ^ (i + 1))
  set q := g / 2 ^ (i + 1) with hq
  set r := g % 2 ^ (i + 1) with hr
  have hrlt : r < 2 ^ (i + 1) := Nat.mod_lt _ (Nat.two_pow_pos _)
  have h2i : (2:ℕ) ^ (i + 1) = 2 ^ i * 2 := pow_succ 2 i
  have hdm2 : q * 2 ^ (i + 1) + r = g := by rw [mul_comm]; exact hdm
  have hqlt : (q + 1) * 2 ^ (i + 1) ≤ 2 ^ e := by
    have hsplit : (2:ℕ) ^ e = 2 ^ (e - i - 1) * 2 ^ (i + 1) := by
      rw [← pow_add]
      congr 1
      omega
    have hq2 : q * 2 ^ (i + 1) < 2 ^ (e - i - 1) * 2 ^ (i + 1) := by
      calc q * 2 ^ (i + 1) ≤ g := by omega
        _ < 2 ^ e := hg
        _ = _ := hsplit
    have hq3 : q < 2 ^ (e - i - 1) := Nat.lt_of_mul_lt_mul_right hq2
    calc (q + 1) * 2 ^ (i + 1) ≤ 2 ^ (e - i - 1) * 2 ^ (i + 1) :=
          Nat.mul_le_mul_right _ hq3
      _ = 2 ^ e := hsplit.symm
  have hexp : (q + 1) * 2 ^ (i + 1) = q * 2 ^ (i + 1) + 2 ^ (i + 1) := by ring
  rcases lt_or_ge r (2 ^ i) with hcase | hcase
  · have hgeq : g = q * 2 ^ (i + 1) + r := by omega
    rw [hgeq, xor_two_pow_add i q r hcase]
    omega
  · have hgeq : g = q * 2 ^ (i + 1) + (r - 2 ^ i) + 2 ^ i := by omega
    have hcase2 : r - 2 ^ i < 2 ^ i := by omega
    rw [hgeq, xor_two_pow_sub i q _ hcase2]
    omega

/-- Rotating forward then back by `s₀` modulo `t` is the identity. -/
theorem mod_rot_cancel₁ (s₀ off t : ℕ) (h1 : s₀ < t) (h2 : off < t) :
    (s₀ + (off + t - s₀) % t) % t = off := by
  rcases le_or_lt s₀ off with hc | hc
  · have he : off + t - s₀ = (off - s₀) + t := by omega
    rw [he, Nat.add_mod_right, Nat.mod_eq_of_lt (by omega : off - s₀ < t)]
    have he2 : s₀ + (off - s₀) = off := by omega
    rw [he2, Nat.mod_eq_of_lt h2]
  · have he : off + t - s₀ < t := by omega
    rw [Nat.mod_eq_of_lt he]
    have he2 : s₀ + (off + t - s₀) = off + t := by omega
    rw [he2, Nat.add_mod_right, Nat.mod_eq_of_lt h2]

/-- Rotating back then forward by `s₀` modulo `t` is the identity. -/
theorem mod_rot_cancel₂ (s₀ i t : ℕ) (h1 : s₀ < t) (h2 : i < t) :
    ((s₀ + i) % t + t - s₀) % t = i := by
  rcases lt_or_ge (s₀ + i) t with hc | hc
  · rw [Nat.mod_eq_of_lt hc]
    have he : s₀ + i + t - s₀ = i + t := by omega
    rw [he, Nat.add_mod_right, Nat.mod_eq_of_lt h2]
  · have he : (s₀ + i) % t = s₀ + i - t := by
      have : s₀ + i - t < t := by omega
      have hmod : (s₀ + i) % t = (s₀ + i - t) % t := by
        conv_lhs => rw [show s₀ + i = (s₀ + i - t) + t by omega]
        rw [Nat.add_mod_right]
      rw [hmod, Nat.mod_eq_of_lt this]
    rw [he]
    have he2 : s₀ + i - t + t - s₀ = i := by omega
    rw [he2, Nat.mod_eq_of_lt h2]

/-! #### Comparator and warp-sort structure -/

/-- Direction-indexed order on keys: ascending when `d`, descending otherwise. -/
def dirLe (d : Bool) (x y : ℚ) : Prop := if d then x ≤ y else y ≤ x

theorem dirLe_refl (d : Bool) (x : ℚ) : dirLe d x x := by
  cases d <;> simp [dirLe]

theorem keyLe_trans {α : Type} (key : α → ℚ) (asc : Bool) (a b c : α)
    (h1 : keyLe key asc a b = true) (h2 : keyLe key asc b c = true) :
    keyLe key asc a c = true := by
  cases asc
  · simp only [keyLe, Bool.false_eq_true, if_false, decide_eq_true_eq] at h1 h2 ⊢
    exact le_trans h2 h1
  · simp only [keyLe, if_true, decide_eq_true_eq] at h1 h2 ⊢
    exact le_trans h1 h2

theorem keyLe_total {α : Type} (key : α → ℚ) (asc : Bool) (a b : α) :
    (keyLe key asc a b || keyLe key asc b a) = true := by
  cases asc
  · simp only [keyLe, Bool.false_eq_true, if_false, Bool.or_eq_true, decide_eq_true_eq]
    exact le_total (key b) (key a)
  · simp only [keyLe, if_true, Bool.or_eq_true, decide_eq_true_eq]
    exact le_total (key a) (key b)

theorem keyMergeSort_perm {α : Type} (key : α → ℚ) (asc : Bool) (l : List α) :
    (keyMergeSort key asc l).Perm l :=
  List.mergeSort_perm l _

theorem keyMergeSort_length {α : Type} (key : α → ℚ) (asc : Bool) (l : List α) :
    (keyMergeSort key asc l).length = l.length :=
  List.length_mergeSort l

theorem keyMergeSort_pairwise {α : Type} (key : α → ℚ) (asc : Bool) (l : List α) :
    List.Pairwise (fun a b => dirLe asc (key a) (key b)) (keyMergeSort key asc l) := by
  have h := @List.sorted_mergeSort _ (keyLe key asc)
    (fun a b c => keyLe_trans key asc a b c) (fun a b => keyLe_total key asc a b) l
  refine h.imp ?_
  intro a b hab
  cases asc <;> simp only [keyLe, if_true, if_false, decide_eq_true_eq] at hab <;>
    simpa [dirLe] using hab

theorem blockList_getElem {α : Type} (v : ℕ → α) (B t n : ℕ)
    (h1 : n < (blockList v B t).length) : (blockList v B t)[n] = v (B + n) := by
  simp [blockList]

/-- Values of the run `[B, B+t)` after a warp sort: the sorted block. -/
theorem blockList_warpSortRun {α : Type} (key : α → ℚ) (asc : Bool) (t B : ℕ) (v : ℕ → α) :
    blockList (warpSortRun key asc t B v) B t = keyMergeSort key asc (blockList v B t) := by
  have hlen : (keyMergeSort key asc (blockList v B t)).length = t := by
    rw [keyMergeSort_length]
    simp [blockList]
  apply List.ext_get
  · rw [hlen]
    simp [blockList]
  · intro n h1 h2
    have hn : n < t := by simpa [blockList] using h1
    rw [List.get_eq_getElem, List.get_eq_getElem, blockList_getElem _ _ _ _ h1]
    rw [warpSortRun, if_pos ⟨Nat.le_add_right _ _, by omega⟩]
    rw [Nat.add_sub_cancel_left, List.getD_eq_getElem _ _ (by omega)]

theorem warpSortRun_out {α : Type} (key : α → ℚ) (asc : Bool) (t B : ℕ) (v : ℕ → α)
    (g : ℕ) (h : ¬(B ≤ g ∧ g < B + t)) : warpSortRun key asc t B v g = v g := by
  rw [warpSortRun, if_neg h]

theorem sortFold_succ {α : Type} (key : α → ℚ) (dir : ℕ → Bool) (q : ℕ) (v : ℕ → α) :
    sortFold key dir (q + 1) v =
      warpSortRun key (dir q) 32 (32 * q) (sortFold key dir q v) := by
  rw [sortFold, sortFold, List.range_succ, List.foldl_append]
  rfl

theorem sortFold_ge {α : Type} (key : α → ℚ) (dir : ℕ → Bool) (q : ℕ) (v : ℕ → α)
    (g : ℕ) (hg : 32 * q ≤ g) : sortFold key dir q v g = v g := by
  induction q generalizing g with
  | zero => rfl
  | succ n ih =>
    rw [sortFold_succ, warpSortRun_out _ _ _ _ _ _ (by omega)]
    exact ih g (by omega)

/-- After a pass of warp sorts, run `u` holds its old contents sorted in its
direction. -/
theorem sortFold_blockList {α : Type} (key : α → ℚ) (dir : ℕ → Bool) (q : ℕ) (v : ℕ → α)
    (u : ℕ) (hu : u < q) :
    blockList (sortFold key dir q v) (32 * u) 32 =
      keyMergeSort key (dir u) (blockList v (32 * u) 32) := by
  induction q with
  | zero => omega
  | succ n ih =>
    rw [sortFold_succ]
    rcases Nat.lt_succ_iff_lt_or_eq.mp hu with hlt | heq
    · have hout : blockList (warpSortRun key (dir n) 32 (32 * n) (sortFold key dir n v))
          (32 * u) 32 = blockList (sortFold key dir n v) (32 * u) 32 := by
        apply List.map_congr_left
        intro off hoff
        have : off < 32 := List.mem_range.mp hoff
        exact warpSortRun_out _ _ _ _ _ _ (by omega)
      rw [hout, ih hlt]
    · subst heq
      rw [blockList_warpSortRun]
      congr 1
      apply List.map_congr_left
      intro off hoff
      have : off < 32 := List.mem_range.mp hoff
      exact sortFold_ge _ _ _ _ _ (by omega)

/-! #### The network permutes the registers -/

/-- The adoption condition of lines 503-506 at position `g`. -/
def ceCond {α : Type} (key : α → ℚ) (coop stride : ℕ) (v : ℕ → α) (g : ℕ) : Prop :=
  (g < g ^^^ stride ∧ g &&& coop = 0 ∧ key (v (g ^^^ stride)) < key (v g))
  ∨ (g ^^^ stride < g ∧ g &&& coop ≠ 0 ∧ key (v (g ^^^ stride)) < key (v g))
  ∨ (g < g ^^^ stride ∧ g &&& coop ≠ 0 ∧ key (v g) < key (v (g ^^^ stride)))
  ∨ (g ^^^ stride < g ∧ g &&& coop = 0 ∧ key (v g) < key (v (g ^^^ stride)))

instance ceCond_dec {α : Type} (key : α → ℚ) (coop stride : ℕ) (v : ℕ → α) (g : ℕ) :
    Decidable (ceCond key coop stride v g) := by
  unfold ceCond
  infer_instance

/-- The position map induced by one compare-exchange step: `g` follows its
partner exactly when it adopts the partner's registers. -/
def ceSigma {α : Type} (key : α → ℚ) (coop stride : ℕ) (v : ℕ → α) (g : ℕ) : ℕ :=
  if ceCond key coop stride v g then g ^^^ stride else g

theorem ceStep_pos {α : Type} (key : α → ℚ) (coop stride : ℕ) (v : ℕ → α) (g : ℕ)
    (h : ceCond key coop stride v g) : ceStep key coop stride v g = v (g ^^^ stride) := by
  unfold ceCond at h
  simp only [ceStep]
  exact if_pos h

theorem ceStep_neg {α : Type} (key : α → ℚ) (coop stride : ℕ) (v : ℕ → α) (g : ℕ)
    (h : ¬ ceCond key coop stride v g) : ceStep key coop stride v g = v g := by
  unfold ceCond at h
  simp only [ceStep]
  exact if_neg h

theorem ceSigma_pos {α : Type} (key : α → ℚ) (coop stride : ℕ) (v : ℕ → α) (g : ℕ)
    (h : ceCond key coop stride v g) : ceSigma key coop stride v g = g ^^^ stride := by
  rw [ceSigma, if_pos h]

theorem ceSigma_neg {α : Type} (key : α → ℚ) (coop stride : ℕ) (v : ℕ → α) (g : ℕ)
    (h : ¬ ceCond key coop stride v g) : ceSigma key coop stride v g = g := by
  rw [ceSigma, if_neg h]

theorem ceStep_apply {α : Type} (key : α → ℚ) (coop stride : ℕ) (v : ℕ → α) (g : ℕ) :
    ceStep key coop stride v g = v (ceSigma key coop stride v g) := by
  by_cases h : ceCond key coop stride v g
  · rw [ceStep_pos _ _ _ _ _ h, ceSigma_pos _ _ _ _ _ h]
  · rw [ceStep_neg _ _ _ _ _ h, ceSigma_neg _ _ _ _ _ h]

/-- Adoption is mutual: if `g` adopts its partner's registers, the partner
adopts `g`'s. -/
theorem ceCond_mutual {α : Type} (key : α → ℚ) (coop stride : ℕ) (v : ℕ → α)
    (hbit : ∀ g, (g ^^^ stride) &&& coop = g &&& coop) (g : ℕ)
    (h : ceCond key coop stride v g) : ceCond key coop stride v (g ^^^ stride) := by
  have hpart : (g ^^^ stride) ^^^ stride = g := Nat.xor_cancel_right _ _
  unfold ceCond at h ⊢
  rw [hpart, hbit g]
  rcases h with ⟨h1, h2, h3⟩ | ⟨h1, h2, h3⟩ | ⟨h1, h2, h3⟩ | ⟨h1, h2, h3⟩
  · exact Or.inr (Or.inr (Or.inr ⟨h1, h2, h3⟩))
  · exact Or.inr (Or.inr (Or.inl ⟨h1, h2, h3⟩))
  · exact Or.inr (Or.inl ⟨h1, h2, h3⟩)
  · exact Or.inl ⟨h1, h2, h3⟩

theorem ceSigma_invol {α : Type} (key : α → ℚ) (coop stride : ℕ) (v : ℕ → α)
    (hbit : ∀ g, (g ^^^ stride) &&& coop = g &&& coop) (g : ℕ) :
    ceSigma key coop stride v (ceSigma key coop stride v g) = g := by
  by_cases h : ceCond key coop stride v g
  · rw [ceSigma_pos _ _ _ _ _ h, ceSigma_pos _ _ _ _ _ (ceCond_mutual _ _ _ _ hbit _ h),
      Nat.xor_cancel_right]
  · rw [ceSigma_neg _ _ _ _ _ h, ceSigma_neg _ _ _ _ _ h]

theorem ceSigma_mem {α : Type} (key : α → ℚ) (coop stride : ℕ) (v : ℕ → α) (g : ℕ) :
    ceSigma key coop stride v g = g ^^^ stride ∨ ceSigma key coop stride v g = g := by
  by_cases h : ceCond key coop stride v g
  · exact Or.inl (ceSigma_pos _ _ _ _ _ h)
  · exact Or.inr (ceSigma_neg _ _ _ _ _ h)

/-- One compare-exchange step permutes the registers held on `[0, m)`. -/
theorem ceStep_perm {α : Type} (key : α → ℚ) (coop stride m : ℕ) (v : ℕ → α)
    (hbit : ∀ g, (g ^^^ stride) &&& coop = g &&& coop)
    (hrange : ∀ g, g < m → g ^^^ stride < m) :
    ((List.range m).map (ceStep key coop stride v)).Perm ((List.range m).map v) := by
  have hmap : (List.range m).map (ceStep key coop stride v)
      = (List.range m).map (fun g => v (ceSigma key coop stride v g)) :=
    List.map_congr_left (fun g _ => ceStep_apply key coop stride v g)
  rw [hmap, show (fun g => v (ceSigma key coop stride v g))
      = v ∘ ceSigma key coop stride v from rfl, ← List.map_map]
  refine List.Perm.map v ?_
  have hinv := ceSigma_invol key coop stride v hbit
  have hin : ∀ g, g < m → ceSigma key coop stride v g < m := by
    intro g hg
    rcases ceSigma_mem key coop stride v g with h | h
    · rw [h]; exact hrange g hg
    · rw [h]; exact hg
  rw [List.perm_ext_iff_of_nodup]
  · intro a
    simp only [List.mem_map, List.mem_range]
    constructor
    · rintro ⟨g, hg, rfl⟩
      exact hin g hg
    · intro ha
      exact ⟨ceSigma key coop stride v a, hin a ha, hinv a⟩
  · refine List.Nodup.map_on ?_ (List.nodup_range m)
    intro x _ y _ hxy
    have := congrArg (ceSigma key coop stride v) hxy
    rwa [hinv, hinv] at this
  · exact List.nodup_range m

/-- A warp sort of a run inside `[0, m)` permutes the registers on `[0, m)`. -/
theorem warpSortRun_perm {α : Type} (key : α → ℚ) (asc : Bool) (t B m : ℕ) (v : ℕ → α)
    (hBt : B + t ≤ m) :
    ((List.range m).map (warpSortRun key asc t B v)).Perm ((List.range m).map v) := by
  set w := warpSortRun key asc t B v with hw
  have hm : m = B + (t + (m - B - t)) := by omega
  rw [hm, List.range_add, List.range_add]
  simp only [List.map_append]
  have e1 : (List.range B).map w = (List.range B).map v := by
    apply List.map_congr_left
    intro g hg
    have : g < B := List.mem_range.mp hg
    exact warpSortRun_out _ _ _ _ _ _ (by omega)
  have e3 : List.map w (List.map (fun x => B + x) (List.map (fun x => t + x)
        (List.range (m - B - t))))
      = List.map v (List.map (fun x => B + x) (List.map (fun x => t + x)
        (List.range (m - B - t)))) := by
    apply List.map_congr_left
    intro g hg
    simp only [List.mem_map, List.mem_range] at hg
    obtain ⟨x, ⟨y, hy, rfl⟩, rfl⟩ := hg
    exact warpSortRun_out _ _ _ _ _ _ (by omega)
  have p2 : ((List.range t).map (fun x => B + x)).map w |>.Perm
      (((List.range t).map (fun x => B + x)).map v) := by
    rw [List.map_map, List.map_map]
    have hbw : (List.range t).map (w ∘ fun x => B + x) = blockList w B t := rfl
    have hbv : (List.range t).map (v ∘ fun x => B + x) = blockList v B t := rfl
    rw [hbw, hbv, hw, blockList_warpSortRun]
    exact keyMergeSort_perm _ _ _
  rw [e1, e3]
  exact List.Perm.append_left _ (List.Perm.append_right _ p2)

/-- Folding permutation-preserving steps preserves the register multiset. -/
theorem foldl_perm_steps {α ι : Type} (m : ℕ) (step : (ℕ → α) → ι → (ℕ → α)) (l : List ι)
    (h : ∀ w x, x ∈ l → ((List.range m).map (step w x)).Perm ((List.range m).map w)) :
    ∀ v, ((List.range m).map (l.foldl step v)).Perm ((List.range m).map v) := by
  induction l with
  | nil => intro v; exact List.Perm.refl _
  | cons x xs ih =>
    intro v
    rw [List.foldl_cons]
    exact (ih (fun w y hy => h w y (List.mem_cons_of_mem _ hy)) (step v x)).trans
      (h v x (List.mem_cons_self _ _))

theorem sortFold_perm {α : Type} (key : α → ℚ) (dir : ℕ → Bool) (q m : ℕ) (v : ℕ → α)
    (hq : 32 * q ≤ m) :
    ((List.range m).map (sortFold key dir q v)).Perm ((List.range m).map v) := by
  refine foldl_perm_steps m _ _ ?_ v
  intro w u hu
  have : u < q := List.mem_range.mp hu
  exact warpSortRun_perm _ _ _ _ _ _ (by omega)

theorem mergeStrides_perm {α : Type} (key : α → ℚ) (j e : ℕ) (v : ℕ → α)
    (hj : 0 < j) (hje : j ≤ e) :
    ((List.range (2 ^ e)).map (mergeStrides key j v)).Perm
      ((List.range (2 ^ e)).map v) := by
  refine foldl_perm_steps (2 ^ e) _ _ ?_ v
  intro w i _
  refine ceStep_perm _ _ _ _ _ ?_ ?_
  · intro g
    exact and_xor_two_pow g _ _ (by omega)
  · intro g hg
    exact xor_lt_pow _ _ _ (by omega) hg

theorem mergeStage_perm {α : Type} (key : α → ℚ) (e j : ℕ) (v : ℕ → α)
    (hj : 0 < j) (hje : j ≤ e) :
    ((List.range (2 ^ e)).map (mergeStage key e j v)).Perm
      ((List.range (2 ^ e)).map v) := by
  rw [mergeStage]
  refine (sortFold_perm _ _ _ _ _ ?_).trans (mergeStrides_perm _ _ _ _ hj hje)
  rw [mul_comm]
  exact Nat.div_mul_le_self _ _

/-- The whole network permutes the initial registers of the row. -/
theorem sortNetwork_perm {α : Type} (key : α → ℚ) (e : ℕ) (v : ℕ → α) :
    ((List.range (2 ^ e)).map (sortNetwork key e v)).Perm
      ((List.range (2 ^ e)).map v) := by
  rw [sortNetwork]
  refine (foldl_perm_steps (2 ^ e) _ _ ?_ _).trans (sortFold_perm _ _ _ _ _ ?_)
  · intro w i hi
    have : i < e - 5 := List.mem_range.mp hi
    exact mergeStage_perm _ _ _ _ (by omega) (by omega)
  · rw [mul_comm]
    exact Nat.div_mul_le_self _ _

/-! #### Value-level theory: 0/1 rows -/

/-- A row holding only the values 0 and 1. -/
def Bool01 (v : ℕ → ℚ) : Prop := ∀ g, v g = 0 ∨ v g = 1

/-- The block `[B, B+t)` is sorted in direction `d`. -/
def DirSorted (d : Bool) (v : ℕ → ℚ) (B t : ℕ) : Prop :=
  ∀ o o', o ≤ o' → o' < t → dirLe d (v (B + o)) (v (B + o'))

/-- After the stage of size `s`, each `s`-aligned block is sorted, ascending
for even block index and descending for odd. -/
def StageInv (s e : ℕ) (v : ℕ → ℚ) : Prop :=
  ∀ c, (c + 1) * s ≤ 2 ^ e → DirSorted (decide (c % 2 = 0)) v (c * s) s

/-- The ones of the 0/1 block `[B, B+t)` form a circular interval of length
`L` starting at rotation `a`. -/
def CircBlock (v : ℕ → ℚ) (B t L : ℕ) : Prop :=
  ∃ a, a < t ∧ ∀ off, off < t → (v (B + off) = 1 ↔ (off + t - a) % t < L)

/-- Number of ones in the block `[B, B+t)`. -/
def onesCard (v : ℕ → ℚ) (B t : ℕ) : ℕ :=
  (List.range t).countP (fun off => decide (v (B + off) = 1))

theorem onesCard_le (v : ℕ → ℚ) (B t : ℕ) : onesCard v B t ≤ t := by
  calc onesCard v B t ≤ (List.range t).length := List.countP_le_length _
    _ = t := List.length_range t

theorem countP_range_lt (L t : ℕ) (hL : L ≤ t) :
    (List.range t).countP (fun x => decide (x < L)) = L := by
  rw [show t = L + (t - L) by omega, List.range_add, List.countP_append]
  have h1 : (List.range L).countP (fun x => decide (x < L)) = L := by
    rw [List.countP_eq_length.mpr]
    · exact List.length_range L
    · intro a ha
      simp [List.mem_range.mp ha]
  have h2 : ((List.range (t - L)).map (fun x => L + x)).countP (fun x => decide (x < L)) = 0 := by
    rw [List.countP_eq_zero]
    intro a ha
    simp only [List.mem_map, List.mem_range] at ha
    obtain ⟨x, _, rfl⟩ := ha
    simp
  omega

theorem countP_range_ge (L t : ℕ) (hL : L ≤ t) :
    (List.range t).countP (fun x => decide (L ≤ x)) = t - L := by
  rw [show t = L + (t - L) by omega, List.range_add, List.countP_append]
  have h1 : (List.range L).countP (fun x => decide (L ≤ x)) = 0 := by
    rw [List.countP_eq_zero]
    intro a ha
    have := List.mem_range.mp ha
    simp
    omega
  have h2 : ((List.range (t - L)).map (fun x => L + x)).countP (fun x => decide (L ≤ x))
      = t - L := by
    rw [List.countP_eq_length.mpr]
    · simp
    · intro a ha
      simp only [List.mem_map, List.mem_range] at ha
      obtain ⟨x, _, rfl⟩ := ha
      simp
  omega

/-- A circular interval of length `L ≤ t` holds exactly `L` ones. -/
theorem circBlock_onesCard (v : ℕ → ℚ) (B t L : ℕ) (h : CircBlock v B t L) (hL : L ≤ t)
    (ht : 0 < t) : onesCard v B t = L := by
  obtain ⟨a, ha, hiff⟩ := h
  have step1 : onesCard v B t
      = (List.range t).countP (fun off => decide ((off + t - a) % t < L)) := by
    apply List.countP_congr
    intro off hoff
    simp only [decide_eq_true_eq]
    exact hiff off (List.mem_range.mp hoff)
  have step2 : (List.range t).countP (fun off => decide ((off + t - a) % t < L))
      = ((List.range t).map (fun off => (off + t - a) % t)).countP (fun x => decide (x < L)) := by
    rw [List.countP_map]
    rfl
  have hperm : ((List.range t).map (fun off => (off + t - a) % t)).Perm (List.range t) := by
    rw [List.perm_ext_iff_of_nodup]
    · intro x
      simp only [List.mem_map, List.mem_range]
      constructor
      · rintro ⟨off, hoff, rfl⟩
        exact Nat.mod_lt _ ht
      · intro hx
        refine ⟨(a + x) % t, Nat.mod_lt _ ht, ?_⟩
        exact mod_rot_cancel₂ a x t ha hx
    · refine List.Nodup.map_on ?_ (List.nodup_range t)
      intro x hx y hy hxy
      have hx' := List.mem_range.mp hx
      have hy' := List.mem_range.mp hy
      have h1 := mod_rot_cancel₁ a x t ha hx'
      have h2 := mod_rot_cancel₁ a y t ha hy'
      rw [← h1, ← h2, hxy]
    · exact List.nodup_range t
  rw [step1, step2, hperm.countP_eq, countP_range_lt L t hL]

theorem onesCard_eq_blockList (v : ℕ → ℚ) (B t : ℕ) :
    onesCard v B t = (blockList v B t).countP (fun x => decide (x = 1)) := by
  rw [blockList, List.countP_map]
  rfl

/-- A sorted 0/1 block is a zeros-then-ones staircase (ones-then-zeros when
descending), cut at its number of ones. -/
theorem sorted01_char (d : Bool) (v : ℕ → ℚ) (B t : ℕ) (hv : Bool01 v)
    (hs : DirSorted d v B t) (off : ℕ) (hoff : off < t) :
    v (B + off) = 1 ↔ (if d then t - onesCard v B t ≤ off else off < onesCard v B t) := by
  cases d
  · -- descending: ones form a prefix, cut at the least zero
    by_cases hex : ∃ o, o < t ∧ v (B + o) = 0
    · set m₁ := Nat.find hex with hm₁
      obtain ⟨hm₁t, hm₁v⟩ := Nat.find_spec hex
      have hchar : ∀ o, o < t → (v (B + o) = 1 ↔ o < m₁) := by
        intro o ho
        constructor
        · intro h1
          by_contra hcon
          have hle : m₁ ≤ o := by omega
          have := hs m₁ o hle ho
          rw [dirLe] at this
          simp only [Bool.false_eq_true, if_false] at this
          rw [h1, hm₁v] at this
          norm_num at this
        · intro hlt
          have := Nat.find_min hex hlt
          rcases hv (B + o) with h0 | h1
          · exact absurd ⟨ho, h0⟩ this
          · exact h1
      have hcount : onesCard v B t = m₁ := by
        rw [onesCard]
        have hcg : (List.range t).countP (fun off2 => decide (v (B + off2) = 1))
            = (List.range t).countP (fun o => decide (o < m₁)) := by
          apply List.countP_congr
          intro o ho
          simp only [decide_eq_true_eq]
          exact hchar o (List.mem_range.mp ho)
        rw [hcg, countP_range_lt]
        omega
      simp only [Bool.false_eq_true, if_false]
      rw [hcount]
      exact hchar off hoff
    · push_neg at hex
      have hall : ∀ o, o < t → v (B + o) = 1 := by
        intro o ho
        rcases hv (B + o) with h0 | h1
        · exact absurd h0 (hex o ho)
        · exact h1
      have hcount : onesCard v B t = t := by
        rw [onesCard, List.countP_eq_length.mpr]
        · exact List.length_range t
        · intro o ho
          simp only [decide_eq_true_eq]
          exact hall o (List.mem_range.mp ho)
      simp only [Bool.false_eq_true, if_false]
      rw [hcount]
      simp [hall off hoff, hoff]
  · -- ascending: ones form a suffix, cut at the least one
    by_cases hex : ∃ o, o < t ∧ v (B + o) = 1
    · set m₀ := Nat.find hex with hm₀
      obtain ⟨hm₀t, hm₀v⟩ := Nat.find_spec hex
      have hchar : ∀ o, o < t → (v (B + o) = 1 ↔ m₀ ≤ o) := by
        intro o ho
        constructor
        · intro h1
          by_contra hcon
          exact Nat.find_min hex (by omega) ⟨ho, h1⟩
        · intro hle
          have := hs m₀ o hle ho
          rw [dirLe] at this
          simp only [if_true] at this
          rw [hm₀v] at this
          rcases hv (B + o) with h0 | h1
          · rw [h0] at this; norm_num at this
          · exact h1
      have hcount : onesCard v B t = t - m₀ := by
        rw [onesCard]
        have hcg : (List.range t).countP (fun off2 => decide (v (B + off2) = 1))
            = (List.range t).countP (fun o => decide (m₀ ≤ o)) := by
          apply List.countP_congr
          intro o ho
          simp only [decide_eq_true_eq]
          exact hchar o (List.mem_range.mp ho)
        rw [hcg, countP_range_ge]
        omega
      simp only [if_true]
      rw [hcount]
      rw [hchar off hoff]
      omega
    · push_neg at hex
      have hcount : onesCard v B t = 0 := by
        rw [onesCard, List.countP_eq_zero]
        intro o ho
        simp only [decide_eq_true_eq]
        exact hex o (List.mem_range.mp ho)
      simp only [if_true]
      rw [hcount]
      constructor
      · intro h1
        exact absurd h1 (hex off hoff)
      · intro h
        omega

/-! #### Compare-exchange as min/max, 0/1 preservation, monotone maps -/

theorem ceStep_min (coop stride : ℕ) (v : ℕ → ℚ) (g : ℕ)
    (hiff : g &&& coop = 0 ↔ g < g ^^^ stride) :
    ceStep id coop stride v g = min (v g) (v (g ^^^ stride)) := by
  rcases lt_trichotomy g (g ^^^ stride) with hp | hp | hp
  · have hbit : g &&& coop = 0 := hiff.mpr hp
    by_cases hlt : v (g ^^^ stride) < v g
    · rw [ceStep_pos id coop stride v g (Or.inl ⟨hp, hbit, hlt⟩)]
      exact (min_eq_right hlt.le).symm
    · rw [ceStep_neg id coop stride v g ?hneg]
      case hneg =>
        rintro (⟨h1, h2, h3⟩ | ⟨h1, h2, h3⟩ | ⟨h1, h2, h3⟩ | ⟨h1, h2, h3⟩)
        · exact hlt h3
        · omega
        · exact h2 hbit
        · omega
      exact (min_eq_left (not_lt.mp hlt)).symm
  · have hpg : g ^^^ stride = g := hp.symm
    rw [ceStep_neg id coop stride v g ?hneg2]
    case hneg2 =>
      rintro (⟨h1, h2, h3⟩ | ⟨h1, h2, h3⟩ | ⟨h1, h2, h3⟩ | ⟨h1, h2, h3⟩) <;> omega
    rw [hpg, min_self]
  · have hbit : g &&& coop ≠ 0 := fun h => absurd (hiff.mp h) (by omega)
    by_cases hlt : v (g ^^^ stride) < v g
    · rw [ceStep_pos id coop stride v g (Or.inr (Or.inl ⟨hp, hbit, hlt⟩))]
      exact (min_eq_right hlt.le).symm
    · rw [ceStep_neg id coop stride v g ?hneg3]
      case hneg3 =>
        rintro (⟨h1, h2, h3⟩ | ⟨h1, h2, h3⟩ | ⟨h1, h2, h3⟩ | ⟨h1, h2, h3⟩)
        · omega
        · exact hlt h3
        · omega
        · exact hbit h2
      exact (min_eq_left (not_lt.mp hlt)).symm

theorem ceStep_max (coop stride : ℕ) (v : ℕ → ℚ) (g : ℕ)
    (hiff : ¬ (g &&& coop = 0 ↔ g < g ^^^ stride)) :
    ceStep id coop stride v g = max (v g) (v (g ^^^ stride)) := by
  by_cases hbit : g &&& coop = 0
  · have hgp : ¬ g < g ^^^ stride := fun h => hiff ⟨fun _ => h, fun _ => hbit⟩
    rcases lt_or_eq_of_le (not_lt.mp hgp) with hp | hp
    · by_cases hlt : v g < v (g ^^^ stride)
      · rw [ceStep_pos id coop stride v g (Or.inr (Or.inr (Or.inr ⟨hp, hbit, hlt⟩)))]
        exact (max_eq_right hlt.le).symm
      · rw [ceStep_neg id coop stride v g ?hneg4]
        case hneg4 =>
          rintro (⟨h1, h2, h3⟩ | ⟨h1, h2, h3⟩ | ⟨h1, h2, h3⟩ | ⟨h1, h2, h3⟩)
          · omega
          · exact h2 hbit
          · exact h2 hbit
          · exact hlt h3
        exact (max_eq_left (not_lt.mp hlt)).symm
    · rw [ceStep_neg id coop stride v g ?hneg5]
      case hneg5 =>
        rintro (⟨h1, h2, h3⟩ | ⟨h1, h2, h3⟩ | ⟨h1, h2, h3⟩ | ⟨h1, h2, h3⟩) <;> omega
      rw [hp, max_self]
  · have hgp : g < g ^^^ stride := by
      rcases lt_trichotomy g (g ^^^ stride) with h | h | h
      · exact h
      · exact absurd (iff_of_false hbit (by omega)) hiff
      · exact absurd (iff_of_false hbit (by omega)) hiff
    by_cases hlt : v g < v (g ^^^ stride)
    · rw [ceStep_pos id coop stride v g (Or.inr (Or.inr (Or.inl ⟨hgp, hbit, hlt⟩)))]
      exact (max_eq_right hlt.le).symm
    · rw [ceStep_neg id coop stride v g ?hneg6]
      case hneg6 =>
        rintro (⟨h1, h2, h3⟩ | ⟨h1, h2, h3⟩ | ⟨h1, h2, h3⟩ | ⟨h1, h2, h3⟩)
        · exact hbit h2
        · omega
        · exact hlt h3
        · omega
      exact (max_eq_left (not_lt.mp hlt)).symm

theorem min01 (x y : ℚ) (hx : x = 0 ∨ x = 1) (hy : y = 0 ∨ y = 1) :
    min x y = 1 ↔ x = 1 ∧ y = 1 := by
  rcases hx with h | h <;> rcases hy with h2 | h2 <;> rw [h, h2] <;> norm_num

theorem max01 (x y : ℚ) (hx : x = 0 ∨ x = 1) (hy : y = 0 ∨ y = 1) :
    max x y = 1 ↔ x = 1 ∨ y = 1 := by
  rcases hx with h | h <;> rcases hy with h2 | h2 <;> rw [h, h2] <;> norm_num

theorem bool01_ceStep (coop stride : ℕ) (v : ℕ → ℚ) (hv : Bool01 v) :
    Bool01 (ceStep id coop stride v) := by
  intro g
  by_cases h : ceCond id coop stride v g
  · rw [ceStep_pos _ _ _ _ _ h]
    exact hv _
  · rw [ceStep_neg _ _ _ _ _ h]
    exact hv _

theorem mem_blockList {α : Type} (v : ℕ → α) (B t : ℕ) (x : α) :
    x ∈ blockList v B t ↔ ∃ off, off < t ∧ v (B + off) = x := by
  simp [blockList]

theorem bool01_warpSortRun (asc : Bool) (t B : ℕ) (v : ℕ → ℚ) (hv : Bool01 v) :
    Bool01 (warpSortRun id asc t B v) := by
  intro g
  rw [warpSortRun]
  split_ifs with h
  · by_cases hlen : g - B < (keyMergeSort id asc (blockList v B t)).length
    · rw [List.getD_eq_getElem _ _ hlen]
      have hmem := List.getElem_mem hlen
      have hmem2 := (keyMergeSort_perm id asc (blockList v B t)).mem_iff.mp hmem
      obtain ⟨off, _, heq⟩ := (mem_blockList v B t _).mp hmem2
      rw [← heq]
      exact hv _
    · rw [List.getD_eq_default _ _ (not_lt.mp hlen)]
      exact hv g
  · exact hv g

theorem bool01_foldl {ι : Type} (step : (ℕ → ℚ) → ι → (ℕ → ℚ)) (l : List ι)
    (h : ∀ w x, x ∈ l → Bool01 w → Bool01 (step w x)) (v : ℕ → ℚ) (hv : Bool01 v) :
    Bool01 (l.foldl step v) := by
  induction l generalizing v with
  | nil => exact hv
  | cons x xs ih =>
    rw [List.foldl_cons]
    exact ih (fun w y hy => h w y (List.mem_cons_of_mem _ hy))
      _ (h v x (List.mem_cons_self _ _) hv)

theorem bool01_sortFold (dir : ℕ → Bool) (q : ℕ) (v : ℕ → ℚ) (hv : Bool01 v) :
    Bool01 (sortFold id dir q v) :=
  bool01_foldl _ _ (fun w u _ hw => bool01_warpSortRun _ _ _ w hw) v hv

theorem bool01_mergeStrides (j : ℕ) (v : ℕ → ℚ) (hv : Bool01 v) :
    Bool01 (mergeStrides id j v) :=
  bool01_foldl _ _ (fun w i _ hw => bool01_ceStep _ _ w hw) v hv

theorem bool01_mergeStage (e j : ℕ) (v : ℕ → ℚ) (hv : Bool01 v) :
    Bool01 (mergeStage id e j v) :=
  bool01_sortFold _ _ _ (bool01_mergeStrides _ _ hv)

theorem mono_map_min (f : ℚ → ℚ) (hf : Monotone f) (a b : ℚ) :
    f (min a b) = min (f a) (f b) := by
  rcases le_total a b with h | h
  · rw [min_eq_left h, min_eq_left (hf h)]
  · rw [min_eq_right h, min_eq_right (hf h)]

theorem mono_map_max (f : ℚ → ℚ) (hf : Monotone f) (a b : ℚ) :
    f (max a b) = max (f a) (f b) := by
  rcases le_total a b with h | h
  · rw [max_eq_right h, max_eq_right (hf h)]
  · rw [max_eq_left h, max_eq_left (hf h)]

/-- A monotone value map commutes with a directional sort of rationals. -/
theorem keyMergeSort_map_mono (f : ℚ → ℚ) (hf : Monotone f) (asc : Bool) (l : List ℚ) :
    (keyMergeSort id asc l).map f = keyMergeSort id asc (l.map f) := by
  cases asc
  · haveI hanti : IsAntisymm ℚ (fun a b : ℚ => b ≤ a) := ⟨fun a b h1 h2 => le_antisymm h2 h1⟩
    refine @List.eq_of_perm_of_sorted ℚ (fun a b : ℚ => b ≤ a) hanti _ _ ?_ ?_ ?_
    · exact ((keyMergeSort_perm id false l).map f).trans
        (keyMergeSort_perm id false (l.map f)).symm
    · refine (keyMergeSort_pairwise id false l).map f ?_
      intro a b hab
      simp only [dirLe, Bool.false_eq_true, if_false, id] at hab
      exact hf hab
    · refine (keyMergeSort_pairwise id false (l.map f)).imp ?_
      intro a b hab
      simpa [dirLe] using hab
  · haveI hanti : IsAntisymm ℚ (fun a b : ℚ => a ≤ b) := ⟨fun a b h1 h2 => le_antisymm h1 h2⟩
    refine @List.eq_of_perm_of_sorted ℚ (fun a b : ℚ => a ≤ b) hanti _ _ ?_ ?_ ?_
    · exact ((keyMergeSort_perm id true l).map f).trans
        (keyMergeSort_perm id true (l.map f)).symm
    · refine (keyMergeSort_pairwise id true l).map f ?_
      intro a b hab
      simp only [dirLe, if_true, id] at hab
      exact hf hab
    · refine (keyMergeSort_pairwise id true (l.map f)).imp ?_
      intro a b hab
      simpa [dirLe] using hab

theorem ceStep_mono (f : ℚ → ℚ) (hf : Monotone f) (coop stride : ℕ) (v : ℕ → ℚ) (g : ℕ) :
    ceStep id coop stride (fun y => f (v y)) g = f (ceStep id coop stride v g) := by
  by_cases hiff : g &&& coop = 0 ↔ g < g ^^^ stride
  · rw [ceStep_min _ _ _ _ hiff, ceStep_min _ _ _ _ hiff, mono_map_min f hf]
  · rw [ceStep_max _ _ _ _ hiff, ceStep_max _ _ _ _ hiff, mono_map_max f hf]

theorem warpSortRun_mono (f : ℚ → ℚ) (hf : Monotone f) (asc : Bool) (t B : ℕ)
    (v : ℕ → ℚ) (g : ℕ) :
    warpSortRun id asc t B (fun y => f (v y)) g = f (warpSortRun id asc t B v g) := by
  rw [warpSortRun, warpSortRun]
  split_ifs with h
  · have hbl : blockList (fun y => f (v y)) B t = (blockList v B t).map f := by
      rw [blockList, blockList, List.map_map]
      rfl
    rw [hbl, ← keyMergeSort_map_mono f hf, List.getD_map]
  · rfl

theorem foldl_comm {ι : Type} (f : ℚ → ℚ) (step : (ℕ → ℚ) → ι → (ℕ → ℚ)) (l : List ι)
    (h : ∀ w x, x ∈ l → ∀ g, step (fun y => f (w y)) x g = f (step w x g)) :
    ∀ v g, l.foldl step (fun y => f (v y)) g = f (l.foldl step v g) := by
  induction l with
  | nil => intro v g; rfl
  | cons x xs ih =>
    intro v g
    rw [List.foldl_cons, List.foldl_cons]
    have hstep : step (fun y => f (v y)) x = fun y => f (step v x y) :=
      funext (h v x (List.mem_cons_self _ _))
    rw [hstep]
    exact ih (fun w y hy => h w y (List.mem_cons_of_mem _ hy)) (step v x) g

theorem sortFold_mono (f : ℚ → ℚ) (hf : Monotone f) (dir : ℕ → Bool) (q : ℕ)
    (v : ℕ → ℚ) (g : ℕ) :
    sortFold id dir q (fun y => f (v y)) g = f (sortFold id dir q v g) :=
  foldl_comm f _ _ (fun w u _ g2 => warpSortRun_mono f hf _ _ _ w g2) v g

theorem mergeStrides_mono (f : ℚ → ℚ) (hf : Monotone f) (j : ℕ) (v : ℕ → ℚ) (g : ℕ) :
    mergeStrides id j (fun y => f (v y)) g = f (mergeStrides id j v g) :=
  foldl_comm f _ _ (fun w i _ g2 => ceStep_mono f hf _ _ w g2) v g

theorem mergeStage_mono (f : ℚ → ℚ) (hf : Monotone f) (e j : ℕ) (v : ℕ → ℚ) (g : ℕ) :
    mergeStage id e j (fun y => f (v y)) g = f (mergeStage id e j v g) := by
  rw [mergeStage, mergeStage]
  have h1 : mergeStrides id j (fun y => f (v y)) = fun y => f (mergeStrides id j v y) :=
    funext (fun g2 => mergeStrides_mono f hf j v g2)
  rw [h1]
  exact sortFold_mono f hf _ _ _ g

/-- A monotone value map commutes with the whole network. -/
theorem sortNetwork_mono (f : ℚ → ℚ) (hf : Monotone f) (e : ℕ) (v : ℕ → ℚ) (g : ℕ) :
    sortNetwork id e (fun y => f (v y)) g = f (sortNetwork id e v g) := by
  rw [sortNetwork, sortNetwork]
  have h1 : sortFold id (fun u => decide (u % 2 = 0)) (2 ^ e / 32) (fun y => f (v y))
      = fun y => f (sortFold id (fun u => decide (u % 2 = 0)) (2 ^ e / 32) v y) :=
    funext (fun g2 => sortFold_mono f hf _ _ v g2)
  rw [h1]
  exact foldl_comm f _ _ (fun w i _ g2 => mergeStage_mono f hf _ _ w g2) _ g

/-! #### The half-cleaner on circular 0/1 intervals -/

theorem two_block_mod_split (s y ee : ℕ) (hs : 0 < s) (hy : y < 2 * s) (hm : y % s = ee) :
    y = ee ∨ y = ee + s := by
  obtain ⟨q, r, hr, hqr⟩ : ∃ q r, r < s ∧ y = s * q + r :=
    ⟨y / s, y % s, Nat.mod_lt _ hs, (Nat.div_add_mod y s).symm⟩
  have hm2 : r = ee := by
    rw [hqr, Nat.mul_add_mod, Nat.mod_eq_of_lt hr] at hm
    exact hm
  have hq2 : q < 2 := by
    by_contra hq
    push_neg at hq
    have h2q : s * 2 ≤ s * q := Nat.mul_le_mul_left s hq
    omega
  have hq01 : q = 0 ∨ q = 1 := by omega
  rcases hq01 with h | h <;> rw [h] at hqr
  · left
    omega
  · right
    omega

/-- Splitting a circular ones-interval of a `2s`-block across the stride-`s`
pairing: position `off` and its partner `off + s` sit at circular distances
`e` and `e + s` (in either order), so both are ones iff `e + s < L` and at
least one is a one iff `e < min L s`. -/
theorem circ_pair_split (s a L off : ℕ) (hs : 0 < s) (ha : a < 2 * s) (hoff : off < s)
    (hL : L ≤ 2 * s) :
    (((off + 2 * s - a) % (2 * s) < L ∧ (off + s + 2 * s - a) % (2 * s) < L) ↔
        (off + s - a % s) % s + s < L)
    ∧ (((off + 2 * s - a) % (2 * s) < L ∨ (off + s + 2 * s - a) % (2 * s) < L) ↔
        (off + s - a % s) % s < min L s) := by
  have hes : (off + s - a % s) % s < s := Nat.mod_lt _ hs
  have hmas : a % s < s := Nat.mod_lt _ hs
  have hB1 : (off + 2 * s - a) % s = (off + s - a % s) % s := by
    rcases lt_or_ge a s with hc | hc
    · have h1 : a % s = a := Nat.mod_eq_of_lt hc
      have h2 : off + 2 * s - a = (off + s - a % s) + s := by omega
      rw [h2, Nat.add_mod_right]
    · have h1 : a % s = a - s := by
        have hstep : a % s = (a - s) % s := by
          conv_lhs => rw [show a = (a - s) + s by omega]
          rw [Nat.add_mod_right]
        rw [hstep, Nat.mod_eq_of_lt (by omega)]
      have h2 : off + 2 * s - a = off + s - a % s := by omega
      rw [h2]
  have hdvd : s ∣ 2 * s := ⟨2, by ring⟩
  have hB : (off + 2 * s - a) % (2 * s) % s = (off + s - a % s) % s := by
    rw [Nat.mod_mod_of_dvd _ hdvd, hB1]
  have hA : (off + s + 2 * s - a) % (2 * s) = ((off + 2 * s - a) % (2 * s) + s) % (2 * s) := by
    rw [Nat.mod_add_mod]
    congr 1
    omega
  have hxsplit := two_block_mod_split s ((off + 2 * s - a) % (2 * s)) ((off + s - a % s) % s)
    hs (Nat.mod_lt _ (by omega)) hB
  rcases hxsplit with hxe | hxe
  · have hy : (off + s + 2 * s - a) % (2 * s) = (off + s - a % s) % s + s := by
      rw [hA, hxe, Nat.mod_eq_of_lt (by omega)]
    rw [hxe, hy]
    constructor
    · omega
    · omega
  · have hy : (off + s + 2 * s - a) % (2 * s) = (off + s - a % s) % s := by
      rw [hA, hxe, show (off + s - a % s) % s + s + s = (off + s - a % s) % s + 2 * s by ring,
        Nat.add_mod_right, Nat.mod_eq_of_lt (by omega)]
    rw [hxe, hy]
    constructor
    · omega
    · omega

/-- One compare-exchange stride on a `2s`-block with a circular ones-interval
yields circular ones-intervals on both `s`-halves, with the AND-count going to
the min side and the OR-count to the max side of the direction. -/
theorem ce_residue (pexp coop b B L : ℕ) (d : Bool) (v : ℕ → ℚ)
    (hv : Bool01 v) (hB : B = b * 2 ^ (pexp + 1))
    (hdir : ∀ g, B ≤ g → g < B + 2 * 2 ^ pexp → (g &&& coop = 0 ↔ d = true))
    (hcirc : CircBlock v B (2 * 2 ^ pexp) L) (hL : L ≤ 2 * 2 ^ pexp) :
    CircBlock (ceStep id coop (2 ^ pexp) v) B (2 ^ pexp)
      (if d then L - 2 ^ pexp else min L (2 ^ pexp)) ∧
    CircBlock (ceStep id coop (2 ^ pexp) v) (B + 2 ^ pexp) (2 ^ pexp)
      (if d then min L (2 ^ pexp) else L - 2 ^ pexp) := by
  have hs0 : 0 < 2 ^ pexp := Nat.two_pow_pos pexp
  obtain ⟨a, ha, hiff⟩ := hcirc
  have hx1 : ∀ off, off < 2 ^ pexp → (B + off) ^^^ 2 ^ pexp = B + off + 2 ^ pexp := by
    intro off hoff
    rw [hB]
    exact xor_two_pow_add pexp b off hoff
  have hx2 : ∀ off, off < 2 ^ pexp → (B + 2 ^ pexp + off) ^^^ 2 ^ pexp = B + off := by
    intro off hoff
    have h2p : (2:ℕ) ^ (pexp + 1) = 2 ^ pexp * 2 := pow_succ 2 pexp
    have he : B + 2 ^ pexp + off = b * 2 ^ (pexp + 1) + off + 2 ^ pexp := by
      rw [hB]
      omega
    rw [he, xor_two_pow_sub pexp b off hoff, hB]
  cases d
  · -- descending block
    simp only [Bool.false_eq_true, if_false]
    have hbit : ∀ g, B ≤ g → g < B + 2 * 2 ^ pexp → g &&& coop ≠ 0 := by
      intro g h1 h2 hc
      have := (hdir g h1 h2).mp hc
      simp at this
    constructor
    · refine ⟨a % 2 ^ pexp, Nat.mod_lt _ hs0, ?_⟩
      intro off hoff
      have hcnd : ¬ ((B + off) &&& coop = 0 ↔ B + off < (B + off) ^^^ 2 ^ pexp) := by
        rw [hx1 off hoff]
        intro hc
        exact hbit (B + off) (by omega) (by omega) (hc.mpr (by omega))
      rw [ceStep_max _ _ _ _ hcnd, hx1 off hoff, max01 _ _ (hv _) (hv _)]
      have hm1 := hiff off (by omega)
      have hm2 := hiff (off + 2 ^ pexp) (by omega)
      rw [← add_assoc] at hm2
      rw [hm1, hm2]
      exact (circ_pair_split (2 ^ pexp) a L off hs0 ha hoff hL).2
    · refine ⟨a % 2 ^ pexp, Nat.mod_lt _ hs0, ?_⟩
      intro off hoff
      have hcnd : (B + 2 ^ pexp + off) &&& coop = 0 ↔
          B + 2 ^ pexp + off < (B + 2 ^ pexp + off) ^^^ 2 ^ pexp := by
        rw [hx2 off hoff]
        exact iff_of_false (hbit _ (by omega) (by omega)) (by omega)
      rw [ceStep_min _ _ _ _ hcnd, hx2 off hoff, min01 _ _ (hv _) (hv _)]
      have hm1 := hiff off (by omega)
      have hm2 := hiff (off + 2 ^ pexp) (by omega)
      rw [← add_assoc] at hm2
      rw [show B + 2 ^ pexp + off = B + off + 2 ^ pexp by omega, hm2, hm1]
      have hsp := (circ_pair_split (2 ^ pexp) a L off hs0 ha hoff hL).1
      constructor
      · rintro ⟨hh1, hh2⟩
        have := hsp.mp ⟨hh2, hh1⟩
        omega
      · intro hh
        have := hsp.mpr (by omega)
        exact ⟨this.2, this.1⟩
  · -- ascending block
    simp only [if_true]
    have hbit : ∀ g, B ≤ g → g < B + 2 * 2 ^ pexp → g &&& coop = 0 := by
      intro g h1 h2
      exact (hdir g h1 h2).mpr rfl
    constructor
    · refine ⟨a % 2 ^ pexp, Nat.mod_lt _ hs0, ?_⟩
      intro off hoff
      have hcnd : (B + off) &&& coop = 0 ↔ B + off < (B + off) ^^^ 2 ^ pexp := by
        rw [hx1 off hoff]
        exact iff_of_true (hbit _ (by omega) (by omega)) (by omega)
      rw [ceStep_min _ _ _ _ hcnd, hx1 off hoff, min01 _ _ (hv _) (hv _)]
      have hm1 := hiff off (by omega)
      have hm2 := hiff (off + 2 ^ pexp) (by omega)
      rw [← add_assoc] at hm2
      rw [hm1, hm2]
      have hsp := (circ_pair_split (2 ^ pexp) a L off hs0 ha hoff hL).1
      constructor
      · intro hh
        have := hsp.mp hh
        omega
      · intro hh
        exact hsp.mpr (by omega)
    · refine ⟨a % 2 ^ pexp, Nat.mod_lt _ hs0, ?_⟩
      intro off hoff
      have hcnd : ¬ ((B + 2 ^ pexp + off) &&& coop = 0 ↔
          B + 2 ^ pexp + off < (B + 2 ^ pexp + off) ^^^ 2 ^ pexp) := by
        rw [hx2 off hoff]
        intro hc
        have := hc.mp (hbit _ (by omega) (by omega))
        omega
      rw [ceStep_max _ _ _ _ hcnd, hx2 off hoff, max01 _ _ (hv _) (hv _)]
      have hm1 := hiff off (by omega)
      have hm2 := hiff (off + 2 ^ pexp) (by omega)
      rw [← add_assoc] at hm2
      rw [show B + 2 ^ pexp + off = B + off + 2 ^ pexp by omega, hm2, hm1]
      have hsp := (circ_pair_split (2 ^ pexp) a L off hs0 ha hoff hL).2
      constructor
      · rintro (hh | hh)
        · exact hsp.mp (Or.inr hh)
        · exact hsp.mp (Or.inl hh)
      · intro hh
        rcases hsp.mpr hh with hh2 | hh2
        · exact Or.inr hh2
        · exact Or.inl hh2

/-- Ones-count of sub-block `q` at granularity `2^(j-i)` when the total `K`
ones of an ascending (`d`) coop-block are packed to the right (to the left
when descending). -/
def casCnt (d : Bool) (j K i q : ℕ) : ℕ :=
  if d then min (2 ^ (j - i)) (K - (2 ^ i - 1 - q) * 2 ^ (j - i))
  else min (2 ^ (j - i)) (K - q * 2 ^ (j - i))

/-- Cascade invariant inside the `coop = 2^j` block `c` after the strides
down to granularity `2^(j-i)`. -/
def CascInv (c j K i : ℕ) (d : Bool) (w : ℕ → ℚ) : Prop :=
  ∀ q, q < 2 ^ i → CircBlock w (c * 2 ^ j + q * 2 ^ (j - i)) (2 ^ (j - i)) (casCnt d j K i q)

theorem casCnt_le (d : Bool) (j K i q : ℕ) : casCnt d j K i q ≤ 2 ^ (j - i) := by
  rw [casCnt]
  split_ifs <;> exact min_le_left _ _

theorem casCnt_split (d : Bool) (j K i q : ℕ) (hij : i + 1 ≤ j) (hq : q < 2 ^ i) :
    casCnt d j K (i + 1) (2 * q)
      = (if d then casCnt d j K i q - 2 ^ (j - i - 1)
         else min (casCnt d j K i q) (2 ^ (j - i - 1)))
    ∧ casCnt d j K (i + 1) (2 * q + 1)
      = (if d then min (casCnt d j K i q) (2 ^ (j - i - 1))
         else casCnt d j K i q - 2 ^ (j - i - 1)) := by
  have hsub : j - (i + 1) = j - i - 1 := by omega
  have hT : (2:ℕ) ^ (j - i) = 2 * 2 ^ (j - i - 1) := by
    rw [← pow_succ']
    congr 1
    omega
  have h2i : (2:ℕ) ^ (i + 1) = 2 * 2 ^ i := by
    rw [pow_succ]
    ring
  cases d
  · simp only [casCnt, Bool.false_eq_true, if_false, hsub]
    constructor
    · have hp : 2 * q * 2 ^ (j - i - 1) = q * 2 ^ (j - i) := by rw [hT]; ring
      have hp2 : q * 2 ^ (j - i) = 2 * (q * 2 ^ (j - i - 1)) := by rw [hT]; ring
      omega
    · have hp : (2 * q + 1) * 2 ^ (j - i - 1) = q * 2 ^ (j - i) + 2 ^ (j - i - 1) := by
        rw [hT]; ring
      have hp2 : q * 2 ^ (j - i) = 2 * (q * 2 ^ (j - i - 1)) := by rw [hT]; ring
      omega
  · simp only [casCnt, if_true, hsub]
    have hX : 2 ^ (i + 1) - 1 - 2 * q = 2 * (2 ^ i - 1 - q) + 1 := by omega
    have hX2 : 2 ^ (i + 1) - 1 - (2 * q + 1) = 2 * (2 ^ i - 1 - q) := by omega
    constructor
    · rw [hX]
      have hp : (2 * (2 ^ i - 1 - q) + 1) * 2 ^ (j - i - 1)
          = 2 * ((2 ^ i - 1 - q) * 2 ^ (j - i - 1)) + 2 ^ (j - i - 1) := by ring
      have hp2 : (2 ^ i - 1 - q) * 2 ^ (j - i)
          = 2 * ((2 ^ i - 1 - q) * 2 ^ (j - i - 1)) := by rw [hT]; ring
      omega
    · rw [hX2]
      have hp : 2 * (2 ^ i - 1 - q) * 2 ^ (j - i - 1)
          = 2 * ((2 ^ i - 1 - q) * 2 ^ (j - i - 1)) := by ring
      have hp2 : (2 ^ i - 1 - q) * 2 ^ (j - i)
          = 2 * ((2 ^ i - 1 - q) * 2 ^ (j - i - 1)) := by rw [hT]; ring
      omega

/-- One stride of the merge refines the cascade invariant one level. -/
theorem cascInv_step (c j K i : ℕ) (d : Bool) (w : ℕ → ℚ) (hw : Bool01 w)
    (hij : i + 1 ≤ j) (hK : K ≤ 2 ^ j)
    (hd : ∀ g, c * 2 ^ j ≤ g → g < (c + 1) * 2 ^ j → (g &&& 2 ^ j = 0 ↔ d = true))
    (hinv : CascInv c j K i d w) :
    CascInv c j K (i + 1) d (ceStep id (2 ^ j) (2 ^ (j - 1 - i)) w) := by
  intro q' hq'
  have h2i : (2:ℕ) ^ (i + 1) = 2 * 2 ^ i := by rw [pow_succ]; ring
  obtain ⟨q, hq⟩ : ∃ q, q' = 2 * q ∨ q' = 2 * q + 1 := ⟨q' / 2, by omega⟩
  have hqlt : q < 2 ^ i := by omega
  have hp1 : j - 1 - i + 1 = j - i := by omega
  have h2s : 2 * 2 ^ (j - 1 - i) = 2 ^ (j - i) := by
    rw [← pow_succ', hp1]
  have hsplitj : (2:ℕ) ^ j = 2 ^ i * 2 ^ (j - i) := by
    rw [← pow_add]
    congr 1
    omega
  have hBeq : c * 2 ^ j + q * 2 ^ (j - i) = (c * 2 ^ i + q) * 2 ^ (j - 1 - i + 1) := by
    rw [hp1, hsplitj]
    ring
  have hbound : ∀ g, c * 2 ^ j + q * 2 ^ (j - i) ≤ g →
      g < c * 2 ^ j + q * 2 ^ (j - i) + 2 * 2 ^ (j - 1 - i) →
      (g &&& 2 ^ j = 0 ↔ d = true) := by
    intro g h1 h2
    rw [h2s] at h2
    have hmul : (q + 1) * 2 ^ (j - i) ≤ 2 ^ i * 2 ^ (j - i) :=
      Nat.mul_le_mul_right _ hqlt
    have hmul2 : (q + 1) * 2 ^ (j - i) = q * 2 ^ (j - i) + 2 ^ (j - i) := by ring
    have hc1 : (c + 1) * 2 ^ j = c * 2 ^ j + 2 ^ j := by ring
    refine hd g (by omega) (by omega)
  have hres := ce_residue (j - 1 - i) (2 ^ j) (c * 2 ^ i + q)
    (c * 2 ^ j + q * 2 ^ (j - i)) (casCnt d j K i q) d w hw hBeq hbound
    (by rw [h2s]; exact hinv q hqlt) (by rw [h2s]; exact casCnt_le d j K i q)
  have hcnt := casCnt_split d j K i q hij hqlt
  rcases hq with hq | hq
  · rw [hq]
    have hbase : c * 2 ^ j + 2 * q * 2 ^ (j - (i + 1))
        = c * 2 ^ j + q * 2 ^ (j - i) := by
      have : (2:ℕ) ^ (j - i) = 2 * 2 ^ (j - (i + 1)) := by
        rw [← pow_succ']
        congr 1
        omega
      rw [this]
      ring
    rw [hbase]
    have hsz : (2:ℕ) ^ (j - (i + 1)) = 2 ^ (j - 1 - i) := by congr 1; omega
    rw [hsz, hcnt.1]
    rw [show (2:ℕ) ^ (j - i - 1) = 2 ^ (j - 1 - i) by congr 1; omega]
    have := hres.1
    cases d
    · simp only [Bool.false_eq_true, if_false] at this ⊢
      exact this
    · simp only [if_true] at this ⊢
      exact this
  · rw [hq]
    have hbase : c * 2 ^ j + (2 * q + 1) * 2 ^ (j - (i + 1))
        = c * 2 ^ j + q * 2 ^ (j - i) + 2 ^ (j - 1 - i) := by
      have h1 : (2:ℕ) ^ (j - i) = 2 * 2 ^ (j - (i + 1)) := by
        rw [← pow_succ']
        congr 1
        omega
      have h2 : (2:ℕ) ^ (j - 1 - i) = 2 ^ (j - (i + 1)) := by congr 1; omega
      rw [h1, h2]
      ring
    rw [hbase]
    have hsz : (2:ℕ) ^ (j - (i + 1)) = 2 ^ (j - 1 - i) := by congr 1; omega
    rw [hsz, hcnt.2]
    rw [show (2:ℕ) ^ (j - i - 1) = 2 ^ (j - 1 - i) by congr 1; omega]
    have := hres.2
    cases d
    · simp only [Bool.false_eq_true, if_false] at this ⊢
      exact this
    · simp only [if_true] at this ⊢
      exact this

theorem mergeStrides_succ_fold (j n : ℕ) (v : ℕ → ℚ) :
    (List.range (n + 1)).foldl (fun w i => ceStep id (2 ^ j) (2 ^ (j - 1 - i)) w) v
      = ceStep id (2 ^ j) (2 ^ (j - 1 - n))
        ((List.range n).foldl (fun w i => ceStep id (2 ^ j) (2 ^ (j - 1 - i)) w) v) := by
  rw [List.range_succ, List.foldl_append]
  rfl

/-- After all the strides of a `coop = 2^j` stage, each 32-run of block `c`
carries a circular ones-interval with the packed counts. -/
theorem mergeStrides_casc (c j K : ℕ) (d : Bool) (v : ℕ → ℚ) (hv : Bool01 v)
    (hj : 6 ≤ j) (hK : K ≤ 2 ^ j)
    (hd : ∀ g, c * 2 ^ j ≤ g → g < (c + 1) * 2 ^ j → (g &&& 2 ^ j = 0 ↔ d = true))
    (hinv0 : CircBlock v (c * 2 ^ j) (2 ^ j) K) :
    CascInv c j K (j - 5) d (mergeStrides id j v) ∧ Bool01 (mergeStrides id j v) := by
  have haux : ∀ n, n ≤ j - 5 →
      CascInv c j K n d
        ((List.range n).foldl (fun w i => ceStep id (2 ^ j) (2 ^ (j - 1 - i)) w) v)
      ∧ Bool01 ((List.range n).foldl (fun w i => ceStep id (2 ^ j) (2 ^ (j - 1 - i)) w) v) := by
    intro n
    induction n with
    | zero =>
      intro _
      refine ⟨?_, hv⟩
      intro q hq
      have hq0 : q = 0 := by omega
      subst hq0
      have hc0 : casCnt d j K 0 0 = K := by
        rw [casCnt]
        split_ifs <;> simp <;> omega
      rw [hc0]
      have hj0 : j - 0 = j := by omega
      rw [hj0]
      simpa using hinv0
    | succ n ih =>
      intro hn
      have hprev := ih (by omega)
      rw [mergeStrides_succ_fold]
      exact ⟨cascInv_step c j K n d _ hprev.2 (by omega) hK hd hprev.1,
        bool01_ceStep _ _ _ hprev.2⟩
  rw [mergeStrides]
  exact haux (j - 5) (le_refl _)

/-- An ascending half followed by a descending half: the ones form one
circular (in fact contiguous) interval of the doubled block. -/
theorem updown_circ (v : ℕ → ℚ) (B t : ℕ) (ht : 0 < t) (hv : Bool01 v)
    (hasc : DirSorted true v B t) (hdesc : DirSorted false v (B + t) t) :
    CircBlock v B (2 * t) (onesCard v B t + onesCard v (B + t) t) := by
  have hK0 : onesCard v B t ≤ t := onesCard_le v B t
  have hK1 : onesCard v (B + t) t ≤ t := onesCard_le v (B + t) t
  refine ⟨t - onesCard v B t, by omega, ?_⟩
  intro off hoff
  rcases lt_or_ge off t with hc | hc
  · have hchar := sorted01_char true v B t hv hasc off hc
    simp only [if_true] at hchar
    rw [hchar]
    have hx : off + 2 * t - (t - onesCard v B t) = off + t + onesCard v B t := by omega
    rw [hx]
    rcases lt_or_ge (off + onesCard v B t) t with hc2 | hc2
    · rw [Nat.mod_eq_of_lt (by omega)]
      omega
    · rw [show off + t + onesCard v B t = (off + onesCard v B t - t) + 2 * t by omega,
        Nat.add_mod_right, Nat.mod_eq_of_lt (by omega)]
      omega
  · have hoff2 : off - t < t := by omega
    have hchar := sorted01_char false v (B + t) t hv hdesc (off - t) hoff2
    simp only [Bool.false_eq_true, if_false] at hchar
    rw [show B + off = B + t + (off - t) by omega, hchar]
    have hx : off + 2 * t - (t - onesCard v B t) = (off - t + onesCard v B t) + 2 * t := by
      omega
    rw [hx, Nat.add_mod_right, Nat.mod_eq_of_lt (by omega)]
    omega

theorem bool01_nonneg (v : ℕ → ℚ) (hv : Bool01 v) (g : ℕ) : 0 ≤ v g := by
  rcases hv g with h | h <;> rw [h] <;> norm_num

/-- A pairwise-sorted block list gives the positional sortedness. -/
theorem dirSorted_of_pairwise (d : Bool) (w : ℕ → ℚ) (B t : ℕ)
    (h : List.Pairwise (fun a b => dirLe d a b) (blockList w B t)) : DirSorted d w B t := by
  intro o o' hoo hot
  rcases eq_or_lt_of_le hoo with heq | hlt
  · subst heq
    exact dirLe_refl d _
  · have hlen : (blockList w B t).length = t := by simp [blockList]
    have hget := @List.Sorted.rel_get_of_lt _ _ _ h ⟨o, by omega⟩ ⟨o', by omega⟩
      (Fin.mk_lt_mk.mpr hlt)
    rw [List.get_eq_getElem, List.get_eq_getElem, blockList_getElem, blockList_getElem] at hget
    exact hget

/-- Every position of the `coop`-aligned block `c` has the direction bit of
the parity of `c`. -/
theorem coop_block_dir (j c g : ℕ) (h1 : c * 2 ^ j ≤ g) (h2 : g < (c + 1) * 2 ^ j) :
    (g &&& 2 ^ j = 0 ↔ decide (c % 2 = 0) = true) := by
  have hc1 : (c + 1) * 2 ^ j = c * 2 ^ j + 2 ^ j := by ring
  obtain ⟨off, hoffeq, hofflt⟩ : ∃ off, g = c * 2 ^ j + off ∧ off < 2 ^ j :=
    ⟨g - c * 2 ^ j, by omega, by omega⟩
  subst hoffeq
  rw [and_pow_parity j c off hofflt]
  simp only [decide_eq_true_eq]

/-- Packed counts: in an ascending block a nonempty run forces every later
run full; descending, a nonempty later run forces every earlier run full. -/
theorem casCnt_packed (j K i q q' : ℕ) (hqq : q < q') (hq2 : q' < 2 ^ i) :
    (0 < casCnt true j K i q → casCnt true j K i q' = 2 ^ (j - i))
    ∧ (0 < casCnt false j K i q' → casCnt false j K i q = 2 ^ (j - i)) := by
  constructor
  · intro hpos
    rw [casCnt, if_pos rfl] at hpos
    rw [casCnt, if_pos rfl]
    have hmul : (2 ^ i - 1 - q') * 2 ^ (j - i) + 2 ^ (j - i) ≤ (2 ^ i - 1 - q) * 2 ^ (j - i) := by
      have hle : (2 ^ i - 1 - q') + 1 ≤ 2 ^ i - 1 - q := by omega
      calc (2 ^ i - 1 - q') * 2 ^ (j - i) + 2 ^ (j - i)
          = ((2 ^ i - 1 - q') + 1) * 2 ^ (j - i) := by ring
        _ ≤ (2 ^ i - 1 - q) * 2 ^ (j - i) := Nat.mul_le_mul_right _ hle
    omega
  · intro hpos
    rw [casCnt, if_neg (by simp)] at hpos
    rw [casCnt, if_neg (by simp)]
    have hmul : q * 2 ^ (j - i) + 2 ^ (j - i) ≤ q' * 2 ^ (j - i) := by
      have hle : q + 1 ≤ q' := by omega
      calc q * 2 ^ (j - i) + 2 ^ (j - i) = (q + 1) * 2 ^ (j - i) := by ring
        _ ≤ q' * 2 ^ (j - i) := Nat.mul_le_mul_right _ hle
    omega

/-- One merge stage sorts each `coop = 2^j` block in the direction of its
parity, given the two halves sorted ascending-then-descending (0/1 rows). -/
theorem mergeStage_block (e j c : ℕ) (v : ℕ → ℚ) (hv : Bool01 v)
    (hj : 6 ≤ j) (hje : j ≤ e) (hc : (c + 1) * 2 ^ j ≤ 2 ^ e)
    (hasc : DirSorted true v (c * 2 ^ j) (2 ^ (j - 1)))
    (hdesc : DirSorted false v (c * 2 ^ j + 2 ^ (j - 1)) (2 ^ (j - 1))) :
    DirSorted (decide (c % 2 = 0)) (mergeStage id e j v) (c * 2 ^ j) (2 ^ j) := by
  set d := decide (c % 2 = 0) with hd
  have ht0 : (0:ℕ) < 2 ^ (j - 1) := Nat.two_pow_pos _
  have h2t : 2 * 2 ^ (j - 1) = 2 ^ j := by rw [← pow_succ']; congr 1; omega
  set K := onesCard v (c * 2 ^ j) (2 ^ (j - 1))
    + onesCard v (c * 2 ^ j + 2 ^ (j - 1)) (2 ^ (j - 1)) with hKdef
  have hK2 : K ≤ 2 ^ j := by
    have h1 := onesCard_le v (c * 2 ^ j) (2 ^ (j - 1))
    have h2 := onesCard_le v (c * 2 ^ j + 2 ^ (j - 1)) (2 ^ (j - 1))
    omega
  have hcirc0 : CircBlock v (c * 2 ^ j) (2 ^ j) K := by
    have h := updown_circ v (c * 2 ^ j) (2 ^ (j - 1)) ht0 hv hasc hdesc
    rwa [h2t] at h
  have hcasc := mergeStrides_casc c j K d v hv hj hK2
    (fun g h1 h2 => coop_block_dir j c g h1 h2) hcirc0
  have hv1 : Bool01 (mergeStrides id j v) := hcasc.2
  have hv2 : Bool01 (mergeStage id e j v) := bool01_mergeStage e j v hv
  have hq32 : (2:ℕ) ^ e / 32 = 2 ^ (e - 5) := by
    rw [show (32:ℕ) = 2 ^ 5 by norm_num, Nat.pow_div (by omega) (by norm_num)]
  have hj5 : (2:ℕ) ^ (j - (j - 5)) = 32 := by
    rw [show j - (j - 5) = 5 by omega]
    norm_num
  have hsplit5 : (2:ℕ) ^ j = 2 ^ (j - 5) * 32 := by
    rw [show (32:ℕ) = 2 ^ 5 by norm_num, ← pow_add]
    congr 1
    omega
  have hsplite : (2:ℕ) ^ e = 2 ^ (e - 5) * 32 := by
    rw [show (32:ℕ) = 2 ^ 5 by norm_num, ← pow_add]
    congr 1
    omega
  have hrun : ∀ q, q < 2 ^ (j - 5) →
      (∀ off, off < 32 → (mergeStage id e j v (c * 2 ^ j + 32 * q + off) = 1 ↔
        (if d then 32 - casCnt d j K (j - 5) q ≤ off else off < casCnt d j K (j - 5) q)))
      ∧ DirSorted d (mergeStage id e j v) (c * 2 ^ j + 32 * q) 32 := by
    intro q hq
    set u := c * 2 ^ (j - 5) + q with hu
    have hult : u < 2 ^ e / 32 := by
      rw [hq32]
      have h1 : (c + 1) * 2 ^ (j - 5) ≤ 2 ^ (e - 5) := by
        have hmul : (c + 1) * 2 ^ (j - 5) * 32 ≤ 2 ^ (e - 5) * 32 := by
          calc (c + 1) * 2 ^ (j - 5) * 32 = (c + 1) * 2 ^ j := by rw [hsplit5]; ring
            _ ≤ 2 ^ e := hc
            _ = 2 ^ (e - 5) * 32 := hsplite
        exact Nat.le_of_mul_le_mul_right hmul (by norm_num)
      have h2 : (c + 1) * 2 ^ (j - 5) = c * 2 ^ (j - 5) + 2 ^ (j - 5) := by ring
      omega
    have hbase : 32 * u = c * 2 ^ j + 32 * q := by
      rw [hu, hsplit5]
      ring
    have h32q : 32 * q < 2 ^ j := by
      calc 32 * q < 32 * 2 ^ (j - 5) := by omega
        _ = 2 ^ j := by rw [hsplit5]; ring
    have hdirq : decide (32 * u &&& 2 ^ j = 0) = d := by
      rw [hd, decide_eq_decide, hbase]
      exact and_pow_parity j c (32 * q) h32q
    have hbl : blockList (mergeStage id e j v) (32 * u) 32
        = keyMergeSort id d (blockList (mergeStrides id j v) (32 * u) 32) := by
      rw [mergeStage, sortFold_blockList id _ _ _ u hult]
      rw [hdirq]
    have hC1 : onesCard (mergeStage id e j v) (32 * u) 32
        = onesCard (mergeStrides id j v) (32 * u) 32 := by
      rw [onesCard_eq_blockList, onesCard_eq_blockList, hbl]
      exact (keyMergeSort_perm id d _).countP_eq _
    have hC2 : onesCard (mergeStrides id j v) (32 * u) 32 = casCnt d j K (j - 5) q := by
      have hcb := hcasc.1 q hq
      rw [hj5] at hcb
      have hbeq : c * 2 ^ j + q * 32 = 32 * u := by rw [hbase]; ring
      rw [hbeq] at hcb
      refine circBlock_onesCard _ _ _ _ hcb ?_ (by norm_num)
      have := casCnt_le d j K (j - 5) q
      rw [hj5] at this
      exact this
    have hds : DirSorted d (mergeStage id e j v) (32 * u) 32 := by
      apply dirSorted_of_pairwise
      rw [hbl]
      exact keyMergeSort_pairwise id d _
    constructor
    · intro off hoff
      have hchar := sorted01_char d (mergeStage id e j v) (32 * u) 32 hv2 hds off hoff
      rw [hC1, hC2] at hchar
      rw [show c * 2 ^ j + 32 * q = 32 * u from hbase.symm]
      exact hchar
    · rw [hbase] at hds
      exact hds
  intro o o' hoo ho'
  have hqo : o / 32 < 2 ^ (j - 5) := by
    apply Nat.div_lt_of_lt_mul
    calc o < 2 ^ j := by omega
      _ = 32 * 2 ^ (j - 5) := by rw [hsplit5]; ring
  have hqo' : o' / 32 < 2 ^ (j - 5) := by
    apply Nat.div_lt_of_lt_mul
    calc o' < 2 ^ j := ho'
      _ = 32 * 2 ^ (j - 5) := by rw [hsplit5]; ring
  have hdmo := Nat.div_add_mod o 32
  have hdmo' := Nat.div_add_mod o' 32
  have hmo : o % 32 < 32 := Nat.mod_lt _ (by norm_num)
  have hmo' : o' % 32 < 32 := Nat.mod_lt _ (by norm_num)
  have hrq := hrun (o / 32) hqo
  have hrq' := hrun (o' / 32) hqo'
  have hpos : c * 2 ^ j + o = c * 2 ^ j + 32 * (o / 32) + o % 32 := by omega
  have hpos' : c * 2 ^ j + o' = c * 2 ^ j + 32 * (o' / 32) + o' % 32 := by omega
  have hqle : o / 32 ≤ o' / 32 := Nat.div_le_div_right hoo
  rcases eq_or_lt_of_le hqle with hqq | hqq
  · rw [DirSorted] at hrq'
    have hmm : o % 32 ≤ o' % 32 := by omega
    have := hrq'.2 (o % 32) (o' % 32) hmm hmo'
    rw [← hqq] at this
    rw [show (c * 2 ^ j + 32 * (o / 32)) + o % 32 = c * 2 ^ j + o by omega,
      show (c * 2 ^ j + 32 * (o / 32)) + o' % 32 = c * 2 ^ j + 32 * (o' / 32) + o' % 32 by omega,
      ← hpos'] at this
    exact this
  · rcases Bool.dichotomy d with hd1 | hd1
    · -- descending
      rw [hd1]
      simp only [dirLe, Bool.false_eq_true, if_false]
      rcases hv2 (c * 2 ^ j + o') with h0 | h1
      · rw [h0]
        exact bool01_nonneg _ hv2 _
      · have hcharo' := hrq'.1 (o' % 32) hmo'
        rw [hd1, if_neg (by simp)] at hcharo'
        rw [hpos'] at h1
        have hLpos : 0 < casCnt false j K (j - 5) (o' / 32) := by
          have := hcharo'.mp h1
          omega
        have hfull := (casCnt_packed j K (j - 5) (o / 32) (o' / 32) hqq hqo').2 hLpos
        rw [hj5] at hfull
        have hcharo := hrq.1 (o % 32) hmo
        rw [hd1, if_neg (by simp), hfull] at hcharo
        have h1o : mergeStage id e j v (c * 2 ^ j + 32 * (o / 32) + o % 32) = 1 :=
          hcharo.mpr hmo
        rw [hpos, h1o, hpos', h1]
      -- goal closed by le_refl? ensure
    · -- ascending
      rw [hd1]
      simp only [dirLe, if_true]
      rcases hv2 (c * 2 ^ j + o) with h0 | h1
      · rw [h0]
        exact bool01_nonneg _ hv2 _
      · have hcharo := hrq.1 (o % 32) hmo
        rw [hd1, if_pos rfl] at hcharo
        rw [hpos] at h1
        have hLpos : 0 < casCnt true j K (j - 5) (o / 32) := by
          have := hcharo.mp h1
          omega
        have hfull := (casCnt_packed j K (j - 5) (o / 32) (o' / 32) hqq hqo').1 hLpos
        rw [hj5] at hfull
        have hcharo' := hrq'.1 (o' % 32) hmo'
        rw [hd1, if_pos rfl, hfull] at hcharo'
        have h1o' : mergeStage id e j v (c * 2 ^ j + 32 * (o' / 32) + o' % 32) = 1 :=
          hcharo'.mpr (by omega)
        rw [hpos, h1, hpos', h1o']

/-- A merge stage advances the stage invariant (0/1 rows). -/
theorem mergeStage_inv (e j : ℕ) (hj : 6 ≤ j) (hje : j ≤ e) (v : ℕ → ℚ) (hv : Bool01 v)
    (hs : StageInv (2 ^ (j - 1)) e v) : StageInv (2 ^ j) e (mergeStage id e j v) := by
  intro c hc
  have h2t : 2 * 2 ^ (j - 1) = 2 ^ j := by rw [← pow_succ']; congr 1; omega
  apply mergeStage_block e j c v hv hj hje hc
  · have hb : (2 * c + 1) * 2 ^ (j - 1) ≤ 2 ^ e := by
      calc (2 * c + 1) * 2 ^ (j - 1) ≤ (2 * c + 2) * 2 ^ (j - 1) :=
            Nat.mul_le_mul_right _ (by omega)
        _ = (c + 1) * 2 ^ j := by rw [← h2t]; ring
        _ ≤ 2 ^ e := hc
    have h1 := hs (2 * c) hb
    have hdeq : decide ((2 * c) % 2 = 0) = true := by
      rw [decide_eq_true_eq]
      omega
    rw [hdeq, show 2 * c * 2 ^ (j - 1) = c * 2 ^ j by rw [← h2t]; ring] at h1
    exact h1
  · have hb : (2 * c + 1 + 1) * 2 ^ (j - 1) ≤ 2 ^ e := by
      calc (2 * c + 1 + 1) * 2 ^ (j - 1) = (c + 1) * 2 ^ j := by rw [← h2t]; ring
        _ ≤ 2 ^ e := hc
    have h1 := hs (2 * c + 1) hb
    have hdeq : decide ((2 * c + 1) % 2 = 0) = false := by
      rw [decide_eq_false_iff_not]
      omega
    rw [hdeq, show (2 * c + 1) * 2 ^ (j - 1) = c * 2 ^ j + 2 ^ (j - 1) by rw [← h2t]; ring]
      at h1
    exact h1

/-- The initial alternating warp sorts establish the 32-stage invariant
(for arbitrary rows). -/
theorem sortFold_stage (e : ℕ) (he : 5 ≤ e) (v : ℕ → ℚ) :
    StageInv (2 ^ 5) e (sortFold id (fun u => decide (u % 2 = 0)) (2 ^ e / 32) v) := by
  intro c hc
  have hq32 : (2:ℕ) ^ e / 32 = 2 ^ (e - 5) := by
    rw [show (32:ℕ) = 2 ^ 5 by norm_num, Nat.pow_div (by omega) (by norm_num)]
  have hsplite : (2:ℕ) ^ e = 2 ^ (e - 5) * 2 ^ 5 := by
    rw [← pow_add]
    congr 1
    omega
  have hclt : c < 2 ^ e / 32 := by
    rw [hq32]
    have h1 : (c + 1) * 2 ^ 5 ≤ 2 ^ (e - 5) * 2 ^ 5 := by rw [← hsplite]; exact hc
    have h2 : c + 1 ≤ 2 ^ (e - 5) := Nat.le_of_mul_le_mul_right h1 (by norm_num)
    omega
  have hbl := sortFold_blockList id (fun u => decide (u % 2 = 0)) (2 ^ e / 32) v c hclt
  rw [show c * 2 ^ 5 = 32 * c by rw [show (2:ℕ) ^ 5 = 32 by norm_num]; ring,
    show (2:ℕ) ^ 5 = 32 by norm_num]
  apply dirSorted_of_pairwise
  rw [hbl]
  exact keyMergeSort_pairwise id _ _

/-- On 0/1 rows the whole network sorts ascending. -/
theorem bool_network_sorted (e : ℕ) (he : 5 ≤ e) (v : ℕ → ℚ) (hv : Bool01 v) (o o' : ℕ)
    (hoo : o ≤ o') (ho' : o' < 2 ^ e) :
    sortNetwork id e v o ≤ sortNetwork id e v o' := by
  have haux : ∀ n, n ≤ e - 5 →
      StageInv (2 ^ (5 + n)) e
        ((List.range n).foldl (fun w i => mergeStage id e (6 + i) w)
          (sortFold id (fun u => decide (u % 2 = 0)) (2 ^ e / 32) v))
      ∧ Bool01 ((List.range n).foldl (fun w i => mergeStage id e (6 + i) w)
          (sortFold id (fun u => decide (u % 2 = 0)) (2 ^ e / 32) v)) := by
    intro n
    induction n with
    | zero =>
      intro _
      exact ⟨sortFold_stage e he v, bool01_sortFold _ _ _ hv⟩
    | succ n ih =>
      intro hn
      obtain ⟨hst, hb⟩ := ih (by omega)
      rw [List.range_succ, List.foldl_append, List.foldl_cons, List.foldl_nil]
      have hstep := mergeStage_inv e (6 + n) (by omega) (by omega) _ hb ?_
      · have heq : 5 + (n + 1) = 6 + n := by omega
        rw [heq]
        exact ⟨hstep, bool01_mergeStage _ _ _ hb⟩
      · have heq : 6 + n - 1 = 5 + n := by omega
        rw [heq]
        exact hst
  have hfin := haux (e - 5) (le_refl _)
  have hst := hfin.1
  rw [show 5 + (e - 5) = e by omega] at hst
  have hds := hst 0 (by norm_num)
  rw [show decide ((0:ℕ) % 2 = 0) = true by norm_num, show (0:ℕ) * 2 ^ e = 0 by ring] at hds
  have hle := hds o o' hoo ho'
  rw [zero_add, zero_add] at hle
  rw [dirLe, if_pos rfl] at hle
  rw [sortNetwork]
  exact hle

/-- The zero-one principle: the network sorts every row ascending. -/
theorem sortNetwork_sorted (e : ℕ) (he : 5 ≤ e) (v : ℕ → ℚ) (o o' : ℕ)
    (hoo : o ≤ o') (ho' : o' < 2 ^ e) :
    sortNetwork id e v o ≤ sortNetwork id e v o' := by
  by_contra hcon
  push_neg at hcon
  have hf : Monotone (fun x : ℚ => if sortNetwork id e v o ≤ x then (1:ℚ) else 0) := by
    intro x y hxy
    dsimp only
    split_ifs with h1 h2
    · exact le_refl _
    · exact absurd (h1.trans hxy) h2
    · norm_num
    · exact le_refl _
  have h01 : Bool01 (fun y => if sortNetwork id e v o ≤ v y then (1:ℚ) else 0) := by
    intro g
    dsimp only
    split_ifs
    · right; rfl
    · left; rfl
  have hsorted := bool_network_sorted e he _ h01 o o' hoo ho'
  have hcomm := sortNetwork_mono (fun x : ℚ => if sortNetwork id e v o ≤ x then (1:ℚ) else 0)
    hf e v
  rw [hcomm o, hcomm o'] at hsorted
  rw [if_pos (le_refl _), if_neg (not_le.mpr hcon)] at hsorted
  norm_num at hsorted

/-! #### Distance projection: the pair network projects to the value network -/

theorem map_keyMergeSort_fst (asc : Bool) (l : List (ℚ × ℕ)) :
    (keyMergeSort Prod.fst asc l).map Prod.fst = keyMergeSort id asc (l.map Prod.fst) := by
  cases asc
  · haveI hanti : IsAntisymm ℚ (fun a b : ℚ => b ≤ a) := ⟨fun a b h1 h2 => le_antisymm h2 h1⟩
    refine @List.eq_of_perm_of_sorted ℚ (fun a b : ℚ => b ≤ a) hanti _ _ ?_ ?_ ?_
    · exact ((keyMergeSort_perm Prod.fst false l).map Prod.fst).trans
        (keyMergeSort_perm id false (l.map Prod.fst)).symm
    · refine (keyMergeSort_pairwise Prod.fst false l).map Prod.fst ?_
      intro a b hab
      simpa [dirLe] using hab
    · refine (keyMergeSort_pairwise id false (l.map Prod.fst)).imp ?_
      intro a b hab
      simpa [dirLe] using hab
  · haveI hanti : IsAntisymm ℚ (fun a b : ℚ => a ≤ b) := ⟨fun a b h1 h2 => le_antisymm h1 h2⟩
    refine @List.eq_of_perm_of_sorted ℚ (fun a b : ℚ => a ≤ b) hanti _ _ ?_ ?_ ?_
    · exact ((keyMergeSort_perm Prod.fst true l).map Prod.fst).trans
        (keyMergeSort_perm id true (l.map Prod.fst)).symm
    · refine (keyMergeSort_pairwise Prod.fst true l).map Prod.fst ?_
      intro a b hab
      simpa [dirLe] using hab
    · refine (keyMergeSort_pairwise id true (l.map Prod.fst)).imp ?_
      intro a b hab
      simpa [dirLe] using hab

theorem ceStep_fst (coop stride : ℕ) (v : ℕ → ℚ × ℕ) (g : ℕ) :
    (ceStep Prod.fst coop stride v g).1 = ceStep id coop stride (fun y => (v y).1) g := by
  by_cases h : ceCond Prod.fst coop stride v g
  · have h2 : ceCond id coop stride (fun y => (v y).1) g := by
      unfold ceCond at h ⊢
      exact h
    rw [ceStep_pos _ _ _ _ _ h, ceStep_pos _ _ _ _ _ h2]
  · have h2 : ¬ ceCond id coop stride (fun y => (v y).1) g := by
      intro hc
      apply h
      unfold ceCond at hc ⊢
      exact hc
    rw [ceStep_neg _ _ _ _ _ h, ceStep_neg _ _ _ _ _ h2]

theorem warpSortRun_fst (asc : Bool) (t B : ℕ) (v : ℕ → ℚ × ℕ) (g : ℕ) :
    (warpSortRun Prod.fst asc t B v g).1
      = warpSortRun id asc t B (fun y => (v y).1) g := by
  rw [warpSortRun, warpSortRun]
  split_ifs with h
  · have hbl : blockList (fun y => (v y).1) B t = (blockList v B t).map Prod.fst := by
      simp only [blockList, List.map_map]
      rfl
    rw [hbl, ← map_keyMergeSort_fst, List.getD_map]
  · rfl

theorem foldl_fst {ι : Type} (stepP : (ℕ → ℚ × ℕ) → ι → (ℕ → ℚ × ℕ))
    (stepQ : (ℕ → ℚ) → ι → (ℕ → ℚ)) (l : List ι)
    (h : ∀ w x, x ∈ l → ∀ g, (stepP w x g).1 = stepQ (fun y => (w y).1) x g) :
    ∀ v g, (l.foldl stepP v g).1 = l.foldl stepQ (fun y => (v y).1) g := by
  induction l with
  | nil => intro v g; rfl
  | cons x xs ih =>
    intro v g
    rw [List.foldl_cons, List.foldl_cons]
    have hstep : (fun y => (stepP v x y).1) = stepQ (fun y => (v y).1) x :=
      funext (h v x (List.mem_cons_self _ _))
    rw [← hstep]
    exact ih (fun w y hy => h w y (List.mem_cons_of_mem _ hy)) (stepP v x) g

theorem sortFold_fst (dir : ℕ → Bool) (q : ℕ) (v : ℕ → ℚ × ℕ) (g : ℕ) :
    (sortFold Prod.fst dir q v g).1 = sortFold id dir q (fun y => (v y).1) g :=
  foldl_fst _ _ _ (fun w u _ g2 => warpSortRun_fst _ _ _ w g2) v g

theorem mergeStrides_fst (j : ℕ) (v : ℕ → ℚ × ℕ) (g : ℕ) :
    (mergeStrides Prod.fst j v g).1 = mergeStrides id j (fun y => (v y).1) g :=
  foldl_fst _ _ _ (fun w i _ g2 => ceStep_fst _ _ w g2) v g

theorem mergeStage_fst (e j : ℕ) (v : ℕ → ℚ × ℕ) (g : ℕ) :
    (mergeStage Prod.fst e j v g).1 = mergeStage id e j (fun y => (v y).1) g := by
  rw [mergeStage, mergeStage]
  have h1 : (fun y => (mergeStrides Prod.fst j v y).1)
      = mergeStrides id j (fun y => (v y).1) :=
    funext (fun g2 => mergeStrides_fst j v g2)
  rw [← h1]
  exact sortFold_fst _ _ _ g

theorem sortNetwork_fst (e : ℕ) (v : ℕ → ℚ × ℕ) (g : ℕ) :
    (sortNetwork Prod.fst e v g).1 = sortNetwork id e (fun y => (v y).1) g := by
  rw [sortNetwork, sortNetwork]
  have h1 : (fun y => (sortFold Prod.fst (fun u => decide (u % 2 = 0)) (2 ^ e / 32) v y).1)
      = sortFold id (fun u => decide (u % 2 = 0)) (2 ^ e / 32) (fun y => (v y).1) :=
    funext (fun g2 => sortFold_fst _ _ v g2)
  rw [← h1]
  exact foldl_fst _ _ _ (fun w i _ g2 => mergeStage_fst _ _ w g2) _ g

/-- C6: For every hub i, row i of the ranked hub identifier matrix produced
by `fused_transform_sort_D` is a permutation of `[0, H)` (`H = 2^e`), the
paired distance row is non-decreasing left to right, and at every position
the distance entry equals `D[i][id]` for the identifier `id` at that
position. -/
theorem fused_sort_rows (e : ℕ) (he : 5 ≤ e) (D : ℕ → ℕ → ℚ) (i : ℕ) :
    (((List.range (2 ^ e)).map (fun g => (fused_transform_sort_D e (D i) g).2)).Perm
        (List.range (2 ^ e)))
    ∧ (∀ g, g + 1 < 2 ^ e →
        (fused_transform_sort_D e (D i) g).1 ≤ (fused_transform_sort_D e (D i) (g + 1)).1)
    ∧ (∀ g, g < 2 ^ e →
        (fused_transform_sort_D e (D i) g).1 = D i ((fused_transform_sort_D e (D i) g).2)) := by
  have hperm := sortNetwork_perm Prod.fst e (fun g => (D i g, g))
  refine ⟨?_, ?_, ?_⟩
  · have h2 := hperm.map Prod.snd
    rw [List.map_map, List.map_map] at h2
    have hid : (List.range (2 ^ e)).map (Prod.snd ∘ fun g => ((D i g : ℚ), g))
        = List.range (2 ^ e) := by
      have hfun : (Prod.snd ∘ fun g => ((D i g : ℚ), g)) = fun g : ℕ => g := rfl
      rw [hfun]
      exact List.map_id' _
    rw [hid] at h2
    exact h2
  · intro g hg
    have hfg := sortNetwork_fst e (fun g2 => (D i g2, g2)) g
    have hfg1 := sortNetwork_fst e (fun g2 => (D i g2, g2)) (g + 1)
    rw [fused_transform_sort_D, hfg, hfg1]
    exact sortNetwork_sorted e he _ g (g + 1) (by omega) hg
  · intro g hgm
    have hmem : fused_transform_sort_D e (D i) g ∈
        (List.range (2 ^ e)).map (sortNetwork Prod.fst e (fun g2 => (D i g2, g2))) :=
      List.mem_map_of_mem _ (List.mem_range.mpr hgm)
    have hmem2 := hperm.mem_iff.mp hmem
    simp only [List.mem_map, List.mem_range] at hmem2
    obtain ⟨g2, _, heq⟩ := hmem2
    have heq2 : ((D i g2 : ℚ), g2) = sortNetwork Prod.fst e (fun g3 => (D i g3, g3)) g := heq
    rw [fused_transform_sort_D, ← heq2]

/-- Witness for C6 at `e = 5` (a 32-hub index) with the zero matrix. -/
theorem fused_sort_rows_witness :
    5 ≤ 5 ∧
      ((((List.range (2 ^ 5)).map
            (fun g => (fused_transform_sort_D 5 (fun _ => (0:ℚ)) g).2)).Perm
          (List.range (2 ^ 5)))
        ∧ (∀ g, g + 1 < 2 ^ 5 → (fused_transform_sort_D 5 (fun _ => (0:ℚ)) g).1
            ≤ (fused_transform_sort_D 5 (fun _ => (0:ℚ)) (g + 1)).1)
        ∧ (∀ g, g < 2 ^ 5 → (fused_transform_sort_D 5 (fun _ => (0:ℚ)) g).1
            = (fun _ => (0:ℚ)) ((fused_transform_sort_D 5 (fun _ => (0:ℚ)) g).2))) :=
  ⟨by norm_num, fused_sort_rows 5 (by norm_num) (fun _ _ => 0) 0⟩

end Clover
